import Mathlib

/-!
Verification of the log2curl extraction/normalization pipeline.

This file gives a shallow embedding, over `List Char`, of the core text
processing functions of the repository (src/extractors.ts and
src/normalizer.ts) and proves properties of them.

Modelling conventions:
* JavaScript strings are modelled as `List Char` (one element per Unicode
  scalar value).
* Each JavaScript regular expression used by the source is embedded as a
  deterministic matching function that reproduces the regex engine's
  behaviour (leftmost match, greedy repetition with the backtracking
  behaviour the concrete pattern exhibits).
* All functions are total and computable.
-/

namespace Log2Curl

/-- Single quote character, written via its code point. -/
def squote : Char := Char.ofNat 39

/-- Backslash character. -/
def bslash : Char := Char.ofNat 92

/-- Double quote character. -/
def dquote : Char := Char.ofNat 34

/-- JavaScript `\s` character class (WhiteSpace plus LineTerminator):
space, tab, vertical tab, form feed, CR, LF, NBSP, BOM, and the Unicode
space separators and line/paragraph separators. -/
def jsWs (c : Char) : Bool :=
  c = ' ' ∨ c = Char.ofNat 9 ∨ c = Char.ofNat 10 ∨ c = Char.ofNat 11 ∨
  c = Char.ofNat 12 ∨ c = Char.ofNat 13 ∨ c = Char.ofNat 0xA0 ∨
  c = Char.ofNat 0x1680 ∨ (0x2000 ≤ c.toNat ∧ c.toNat ≤ 0x200A) ∨
  c = Char.ofNat 0x2028 ∨ c = Char.ofNat 0x2029 ∨ c = Char.ofNat 0x202F ∨
  c = Char.ofNat 0x205F ∨ c = Char.ofNat 0x3000 ∨ c = Char.ofNat 0xFEFF

/-- JavaScript `\w` character class: ASCII letters, digits, underscore. -/
def isWordChar (c : Char) : Bool :=
  (('a' ≤ c ∧ c ≤ 'z') ∨ ('A' ≤ c ∧ c ≤ 'Z') ∨ ('0' ≤ c ∧ c ≤ '9') ∨ c = '_')

/-- ASCII digit test (JavaScript `\d`). -/
def isDigitChar (c : Char) : Bool := '0' ≤ c ∧ c ≤ '9'

/-- Lower-case an ASCII letter (used for the regex `i` flag and
`String.prototype.toLowerCase` on the ASCII identifiers the source
compares). -/
def lowerChar (c : Char) : Char :=
  if 'A' ≤ c ∧ c ≤ 'Z' then Char.ofNat (c.toNat + 32) else c

/-- Case-insensitive character comparison (regex `i` flag). -/
def charIC (a b : Char) : Bool := lowerChar a = lowerChar b

/-- Drop a literal prefix, case-sensitively; `none` if it is not there. -/
def stripLit : List Char → List Char → Option (List Char)
  | [], s => some s
  | _ :: _, [] => none
  | p :: ps, c :: cs => if c = p then stripLit ps cs else none

/-- Drop a literal prefix, case-insensitively; `none` if it is not there. -/
def stripLitIC : List Char → List Char → Option (List Char)
  | [], s => some s
  | _ :: _, [] => none
  | p :: ps, c :: cs => if charIC c p then stripLitIC ps cs else none

/-- Drop one character of a class; `none` if absent (regex single atom). -/
def stripClass (p : Char → Bool) : List Char → Option (List Char)
  | [] => none
  | c :: cs => if p c then some cs else none

/-- Drop the maximal run of a class (regex greedy `X*`). -/
def stripMany (p : Char → Bool) : List Char → List Char
  | [] => []
  | c :: cs => if p c then stripMany p cs else c :: cs

/-- Drop the maximal run of a class, requiring at least one character
(regex greedy `X+`). -/
def stripMany1 (p : Char → Bool) (s : List Char) : Option (List Char) :=
  match s with
  | [] => none
  | c :: cs => if p c then some (stripMany p cs) else none

/-- Drop exactly `n` characters of a class (regex `X{n}`). -/
def stripCount (p : Char → Bool) : Nat → List Char → Option (List Char)
  | 0, s => some s
  | _ + 1, [] => none
  | n + 1, c :: cs => if p c then stripCount p n cs else none

-- ==================== Log-prefix stripping ====================
-- Source: src/extractors.ts, `stripLogPrefixes` (lines 586-608).
-- Each per-line `.replace(/^.../, '')` is embedded as a matcher that
-- returns the line's suffix after the matched prefix, or `none` when the
-- anchored pattern does not match (in which case `replace` leaves the
-- line unchanged).

/-- Matcher for `/^flutter:\s*/i`. -/
def reFlutter (s : List Char) : Option (List Char) :=
  (stripLitIC ('f' :: 'l' :: 'u' :: 't' :: 't' :: 'e' :: 'r' :: ':' :: []) s).map
    (stripMany jsWs)

/-- Matcher for `/^[IDWEV]\/[\w.]+\s*\(\s*\d+\):\s*/`. -/
def reLogcat (s : List Char) : Option (List Char) := do
  let s ← stripClass (fun c => c = 'I' ∨ c = 'D' ∨ c = 'W' ∨ c = 'E' ∨ c = 'V') s
  let s ← stripClass (· = '/') s
  let s ← stripMany1 (fun c => isWordChar c ∨ c = '.') s
  let s := stripMany jsWs s
  let s ← stripClass (· = '(') s
  let s := stripMany jsWs s
  let s ← stripMany1 isDigitChar s
  let s ← stripClass (· = ')') s
  let s ← stripClass (· = ':') s
  pure (stripMany jsWs s)

/-- Matcher for `/^\[\d{4}[^\]]*\]\s*[\w.]*:\s*/`. -/
def reLaravel (s : List Char) : Option (List Char) := do
  let s ← stripClass (· = '[') s
  let s ← stripCount isDigitChar 4 s
  let s := stripMany (· ≠ ']') s
  let s ← stripClass (· = ']') s
  let s := stripMany jsWs s
  let s := stripMany (fun c => isWordChar c ∨ c = '.') s
  let s ← stripClass (· = ':') s
  pure (stripMany jsWs s)

/-- Matcher for `/^\d{4}-\d{2}-\d{2}[T ]\d{2}:\d{2}:\d{2}[\d.]*Z?\s*/`. -/
def reIsoTs (s : List Char) : Option (List Char) := do
  let s ← stripCount isDigitChar 4 s
  let s ← stripClass (· = '-') s
  let s ← stripCount isDigitChar 2 s
  let s ← stripClass (· = '-') s
  let s ← stripCount isDigitChar 2 s
  let s ← stripClass (fun c => c = 'T' ∨ c = ' ') s
  let s ← stripCount isDigitChar 2 s
  let s ← stripClass (· = ':') s
  let s ← stripCount isDigitChar 2 s
  let s ← stripClass (· = ':') s
  let s ← stripCount isDigitChar 2 s
  let s := stripMany (fun c => isDigitChar c ∨ c = '.') s
  let s := (stripClass (· = 'Z') s).getD s
  pure (stripMany jsWs s)

/-- Optional bracketed-tag group `(?:\[[\w]+\]\s*)?` of the NestJS
prefix pattern: `none` when the group does not match here. -/
def reNestTag (s : List Char) : Option (List Char) := do
  let t ← stripClass (· = '[') s
  let t ← stripMany1 isWordChar t
  let t ← stripClass (· = ']') t
  pure (stripMany jsWs t)

/-- Matcher for `/^\[Nest\]\s*\d+\s*-\s*[^[]+(?:\[[\w]+\]\s*)?/`.
The optional bracketed-tag group is attempted after the greedy `[^[]+`
run (which necessarily stops at the first `[` or at end of line). -/
def reNest (s : List Char) : Option (List Char) := do
  let s ← stripLit ('[' :: 'N' :: 'e' :: 's' :: 't' :: ']' :: []) s
  let s := stripMany jsWs s
  let s ← stripMany1 isDigitChar s
  let s := stripMany jsWs s
  let s ← stripClass (· = '-') s
  let s := stripMany jsWs s
  let s ← stripMany1 (· ≠ '[') s
  pure ((reNestTag s).getD s)

/-- Matcher for `/^>\s*/`. -/
def rePrompt (s : List Char) : Option (List Char) :=
  (stripClass (· = '>') s).map (stripMany jsWs)

/-- One `.replace(re, '')` application: strip the prefix when the anchored
pattern matches, otherwise leave the line unchanged. -/
def applyStrip (m : List Char → Option (List Char)) (s : List Char) : List Char :=
  (m s).getD s

/-- Per-line body of `stripLogPrefixes`: the six chained `replace` calls,
in source order. -/
def stripLine (s : List Char) : List Char :=
  applyStrip rePrompt
    (applyStrip reNest
      (applyStrip reIsoTs
        (applyStrip reLaravel
          (applyStrip reLogcat
            (applyStrip reFlutter s)))))

/-- Model of `String.prototype.split('\n')`. -/
def splitNl : List Char → List (List Char)
  | [] => [[]]
  | c :: cs =>
    if c = Char.ofNat 10 then [] :: splitNl cs
    else
      match splitNl cs with
      | l :: ls => (c :: l) :: ls
      | [] => [[c]]

/-- Model of `Array.prototype.join('\n')`. -/
def joinNl (ls : List (List Char)) : List Char :=
  match ls with
  | [] => []
  | l :: ls => l ++ (ls.map (fun x => Char.ofNat 10 :: x)).flatten

/-- Embedding of `stripLogPrefixes` (src/extractors.ts lines 586-608):
split into lines, strip each line's recognized prefixes, re-join. -/
def stripLogPrefixes (s : List Char) : List Char :=
  joinNl ((splitNl s).map stripLine)

example : stripLine ("flutter: hi".toList) = "hi".toList := by decide
example : stripLine ("[Nest] 38453  - 01/15/2024, 10:23:45 AM   LOG x".toList)
    = [] := by decide
example : stripLine ("[Nest] 38453  - 01/15/2024, 10:23:45 AM   LOG [App] x".toList)
    = "x".toList := by decide
example : stripLine ("2024-01-15T10:23:45.123Z boo".toList) = "boo".toList := by decide
example : stripLine ("I/flutter (12345): y".toList) = "y".toList := by decide
example : stripLine ("[2024-01-15 10:23:45] local.INFO: z".toList) = "z".toList := by decide
example : stripLine ("plain line".toList) = "plain line".toList := by decide
example :
    stripLogPrefixes ("flutter: flutter: a".toList) = "flutter: a".toList := by decide

-- ==================== Lemmas about the stripper ====================

lemma stripLit_sfx : ∀ p s r, stripLit p s = some r → r <:+ s := by
  intro p
  induction p with
  | nil => intro s r h; simp [stripLit] at h; simp [h]
  | cons a ps ih =>
    intro s r h
    cases s with
    | nil => simp [stripLit] at h
    | cons c cs =>
      simp only [stripLit] at h
      split at h
      · exact (ih cs r h).trans (List.suffix_cons c cs)
      · exact absurd h (by simp)

lemma stripLitIC_sfx : ∀ p s r, stripLitIC p s = some r → r <:+ s := by
  intro p
  induction p with
  | nil => intro s r h; simp [stripLitIC] at h; simp [h]
  | cons a ps ih =>
    intro s r h
    cases s with
    | nil => simp [stripLitIC] at h
    | cons c cs =>
      simp only [stripLitIC] at h
      split at h
      · exact (ih cs r h).trans (List.suffix_cons c cs)
      · exact absurd h (by simp)

lemma stripClass_sfx (p : Char → Bool) : ∀ s r, stripClass p s = some r → r <:+ s := by
  intro s r h
  cases s with
  | nil => simp [stripClass] at h
  | cons c cs =>
    simp only [stripClass] at h
    split at h
    · simp only [Option.some.injEq] at h
      exact h ▸ List.suffix_cons c cs
    · exact absurd h (by simp)

lemma stripMany_sfx (p : Char → Bool) : ∀ s, stripMany p s <:+ s := by
  intro s
  induction s with
  | nil => simp [stripMany]
  | cons c cs ih =>
    simp only [stripMany]
    split
    · exact ih.trans (List.suffix_cons c cs)
    · exact List.suffix_refl _

lemma stripMany1_sfx (p : Char → Bool) : ∀ s r, stripMany1 p s = some r → r <:+ s := by
  intro s r h
  cases s with
  | nil => simp [stripMany1] at h
  | cons c cs =>
    simp only [stripMany1] at h
    split at h
    · simp only [Option.some.injEq] at h
      exact h ▸ (stripMany_sfx p cs).trans (List.suffix_cons c cs)
    · exact absurd h (by simp)

lemma stripCount_sfx (p : Char → Bool) : ∀ n s r, stripCount p n s = some r → r <:+ s := by
  intro n
  induction n with
  | zero => intro s r h; simp [stripCount] at h; simp [h]
  | succ m ih =>
    intro s r h
    cases s with
    | nil => simp [stripCount] at h
    | cons c cs =>
      simp only [stripCount] at h
      split at h
      · exact (ih cs r h).trans (List.suffix_cons c cs)
      · exact absurd h (by simp)

lemma reFlutter_sfx (s r : List Char) : reFlutter s = some r → r <:+ s := by
  unfold reFlutter
  cases h : stripLitIC ('f' :: 'l' :: 'u' :: 't' :: 't' :: 'e' :: 'r' :: ':' :: []) s with
  | none => simp
  | some t =>
    intro hr
    simp only [Option.map_some', Option.some.injEq] at hr
    exact hr ▸ (stripMany_sfx jsWs t).trans (stripLitIC_sfx _ s t h)

lemma reLogcat_sfx (s r : List Char) : reLogcat s = some r → r <:+ s := by
  unfold reLogcat
  simp only [Option.bind_eq_bind, Option.bind_eq_some, Option.pure_def, Option.some.injEq]
  rintro ⟨t1, h1, t2, h2, t3, h3, t4, h4, t5, h5, t6, h6, t7, h7, rfl⟩
  exact (stripMany_sfx jsWs t7).trans <| (stripClass_sfx _ _ _ h7).trans <|
    (stripClass_sfx _ _ _ h6).trans <| (stripMany1_sfx _ _ _ h5).trans <|
    (stripMany_sfx jsWs t4).trans <| (stripClass_sfx _ _ _ h4).trans <|
    (stripMany_sfx jsWs t3).trans <| (stripMany1_sfx _ _ _ h3).trans <|
    (stripClass_sfx _ _ _ h2).trans <| stripClass_sfx _ _ _ h1

lemma reLaravel_sfx (s r : List Char) : reLaravel s = some r → r <:+ s := by
  unfold reLaravel
  simp only [Option.bind_eq_bind, Option.bind_eq_some, Option.pure_def, Option.some.injEq]
  rintro ⟨t1, h1, t2, h2, t3, h3, t4, h4, rfl⟩
  exact (stripMany_sfx jsWs t4).trans <| (stripClass_sfx _ _ _ h4).trans <|
    (stripMany_sfx _ _).trans <| (stripMany_sfx jsWs t3).trans <|
    (stripClass_sfx _ _ _ h3).trans <| (stripMany_sfx _ _).trans <|
    (stripCount_sfx _ _ _ _ h2).trans <| stripClass_sfx _ _ _ h1

lemma reIsoTs_sfx (s r : List Char) : reIsoTs s = some r → r <:+ s := by
  unfold reIsoTs
  simp only [Option.bind_eq_bind, Option.bind_eq_some, Option.pure_def, Option.some.injEq]
  rintro ⟨t1, h1, t2, h2, t3, h3, t4, h4, t5, h5, t6, h6, t7, h7, t8, h8, t9, h9, t10, h10,
    t11, h11, rfl⟩
  have base : stripMany (fun c => isDigitChar c ∨ c = '.') t11 <:+ s :=
    (stripMany_sfx _ t11).trans <| (stripCount_sfx _ _ _ _ h11).trans <|
      (stripClass_sfx _ _ _ h10).trans <| (stripCount_sfx _ _ _ _ h9).trans <|
      (stripClass_sfx _ _ _ h8).trans <| (stripCount_sfx _ _ _ _ h7).trans <|
      (stripClass_sfx _ _ _ h6).trans <| (stripCount_sfx _ _ _ _ h5).trans <|
      (stripClass_sfx _ _ _ h4).trans <| (stripCount_sfx _ _ _ _ h3).trans <|
      (stripClass_sfx _ _ _ h2).trans <| stripCount_sfx _ _ _ _ h1
  refine (stripMany_sfx jsWs _).trans ?_
  cases hz : stripClass (· = 'Z') (stripMany (fun c => isDigitChar c ∨ c = '.') t11) with
  | none => simpa [hz] using base
  | some tz =>
    simp only [hz, Option.getD_some]
    exact (stripClass_sfx _ _ _ hz).trans base

lemma reNestTag_sfx (s r : List Char) : reNestTag s = some r → r <:+ s := by
  unfold reNestTag
  simp only [Option.bind_eq_bind, Option.bind_eq_some, Option.pure_def, Option.some.injEq]
  rintro ⟨t1, h1, t2, h2, t3, h3, rfl⟩
  exact (stripMany_sfx jsWs t3).trans <| (stripClass_sfx _ _ _ h3).trans <|
    (stripMany1_sfx _ _ _ h2).trans <| stripClass_sfx _ _ _ h1

lemma reNest_sfx (s r : List Char) : reNest s = some r → r <:+ s := by
  unfold reNest
  simp only [Option.bind_eq_bind, Option.bind_eq_some, Option.pure_def, Option.some.injEq]
  rintro ⟨t1, h1, t2, h2, t3, h3, t4, h4, rfl⟩
  have base : t4 <:+ s :=
    (stripMany1_sfx _ _ _ h4).trans <| (stripMany_sfx jsWs t3).trans <|
      (stripClass_sfx _ _ _ h3).trans <| (stripMany_sfx jsWs t2).trans <|
      (stripMany1_sfx _ _ _ h2).trans <| (stripMany_sfx jsWs t1).trans <|
      stripLit_sfx _ _ _ h1
  cases hb : reNestTag t4 with
  | none => simpa [hb] using base
  | some u1 =>
    simp only [hb, Option.getD_some]
    exact (reNestTag_sfx _ _ hb).trans base

lemma rePrompt_sfx (s r : List Char) : rePrompt s = some r → r <:+ s := by
  unfold rePrompt
  cases h : stripClass (· = '>') s with
  | none => simp
  | some t =>
    intro hr
    simp only [Option.map_some', Option.some.injEq] at hr
    exact hr ▸ (stripMany_sfx jsWs t).trans (stripClass_sfx _ s t h)

lemma applyStrip_sfx (m : List Char → Option (List Char))
    (hm : ∀ s r, m s = some r → r <:+ s) (s : List Char) : applyStrip m s <:+ s := by
  unfold applyStrip
  cases h : m s with
  | none => simp
  | some t => simpa using hm s t h

lemma stripLine_sfx (s : List Char) : stripLine s <:+ s := by
  unfold stripLine
  refine (applyStrip_sfx _ rePrompt_sfx _).trans ?_
  refine (applyStrip_sfx _ reNest_sfx _).trans ?_
  refine (applyStrip_sfx _ reIsoTs_sfx _).trans ?_
  refine (applyStrip_sfx _ reLaravel_sfx _).trans ?_
  refine (applyStrip_sfx _ reLogcat_sfx _).trans ?_
  exact applyStrip_sfx _ reFlutter_sfx _

lemma splitNl_ne_nil (s : List Char) : splitNl s ≠ [] := by
  cases s with
  | nil => simp [splitNl]
  | cons c cs =>
    simp only [splitNl]
    split
    · simp
    · cases h : splitNl cs <;> simp

lemma mem_splitNl_no_nl : ∀ s l, l ∈ splitNl s → Char.ofNat 10 ∉ l := by
  intro s
  induction s with
  | nil => intro l hl; simp [splitNl] at hl; simp [hl]
  | cons c cs ih =>
    intro l hl
    simp only [splitNl] at hl
    split at hl
    · rcases List.mem_cons.mp hl with rfl | h
      · simp
      · exact ih l h
    · rename_i hc
      cases h : splitNl cs with
      | nil => exact absurd h (splitNl_ne_nil cs)
      | cons l0 ls =>
        rw [h] at hl
        rcases List.mem_cons.mp hl with rfl | hmem
        · intro hn
          rcases List.mem_cons.mp hn with rfl | hn0
          · exact hc rfl
          · exact ih l0 (h ▸ List.mem_cons_self l0 ls) hn0
        · exact ih l (h ▸ List.mem_cons_of_mem l0 hmem)

lemma splitNl_no_nl (l : List Char) (h : Char.ofNat 10 ∉ l) : splitNl l = [l] := by
  induction l with
  | nil => simp [splitNl]
  | cons c cs ih =>
    simp only [splitNl]
    rw [if_neg (by intro hc; exact h (hc ▸ List.mem_cons_self c cs))]
    rw [ih (fun hm => h (List.mem_cons_of_mem c hm))]

lemma splitNl_append_nl (l rest : List Char) (h : Char.ofNat 10 ∉ l) :
    splitNl (l ++ Char.ofNat 10 :: rest) = l :: splitNl rest := by
  induction l with
  | nil => simp [splitNl]
  | cons c cs ih =>
    simp only [List.cons_append, splitNl, List.append_eq]
    rw [if_neg (by intro hc; exact h (hc ▸ List.mem_cons_self c cs))]
    rw [ih (fun hm => h (List.mem_cons_of_mem c hm))]

lemma splitNl_joinNl : ∀ L : List (List Char), L ≠ [] →
    (∀ l ∈ L, Char.ofNat 10 ∉ l) → splitNl (joinNl L) = L := by
  intro L
  induction L with
  | nil => intro h; exact absurd rfl h
  | cons l L' ih =>
    intro _ hno
    cases L' with
    | nil =>
      simp only [joinNl, List.map_nil, List.flatten_nil, List.append_nil]
      exact splitNl_no_nl l (hno l (List.mem_cons_self _ _))
    | cons l2 ls =>
      have hjoin : joinNl (l :: l2 :: ls) = l ++ Char.ofNat 10 :: joinNl (l2 :: ls) := by
        simp [joinNl]
      rw [hjoin, splitNl_append_nl l _ (hno l (List.mem_cons_self _ _))]
      rw [ih (by simp) (fun x hx => hno x (List.mem_cons_of_mem l hx))]

/-- C1, counterexample: `stripLogPrefixes` is not idempotent.  A line
carrying two stacked `flutter:` prefixes is stripped one layer per call,
so stripping twice differs from stripping once. -/
theorem c1_counterexample :
    stripLogPrefixes (stripLogPrefixes ("flutter: flutter: a".toList)) ≠
      stripLogPrefixes ("flutter: flutter: a".toList) := by decide

/-- C1 (amended): the prefix stripper is total — a line on which none of
the six recognized prefix patterns matches passes through unchanged — and
it is idempotent on every input whose once-stripped lines match no further
prefix; unrestricted idempotence fails (see the counterexample). -/
theorem c1_strip_total_and_conditional_idempotence :
    (∀ l : List Char, reFlutter l = none → reLogcat l = none → reLaravel l = none →
        reIsoTs l = none → reNest l = none → rePrompt l = none → stripLine l = l) ∧
    (∀ s : List Char, (∀ l ∈ (splitNl s).map stripLine, stripLine l = l) →
        stripLogPrefixes (stripLogPrefixes s) = stripLogPrefixes s) := by
  constructor
  · intro l h1 h2 h3 h4 h5 h6
    simp [stripLine, applyStrip, h1, h2, h3, h4, h5, h6]
  · intro s hfix
    unfold stripLogPrefixes
    have hsplit : splitNl (joinNl ((splitNl s).map stripLine)) = (splitNl s).map stripLine := by
      refine splitNl_joinNl _ (by simpa using splitNl_ne_nil s) ?_
      intro l hl
      rcases List.mem_map.mp hl with ⟨l0, hl0, rfl⟩
      intro hn
      exact mem_splitNl_no_nl s l0 hl0 ((stripLine_sfx l0).sublist.subset hn)
    rw [hsplit]
    congr 1
    calc ((splitNl s).map stripLine).map stripLine
        = ((splitNl s).map stripLine).map id := List.map_congr_left hfix
      _ = (splitNl s).map stripLine := List.map_id _

/-- C1 witness: concrete instantiations of both conjuncts of the amended
theorem — an unprefixed line passes through unchanged, and stripping an
input whose stripped lines carry no further prefix is idempotent. -/
theorem c1_witness :
    (reFlutter ("hello".toList) = none ∧ reLogcat ("hello".toList) = none ∧
      reLaravel ("hello".toList) = none ∧ reIsoTs ("hello".toList) = none ∧
      reNest ("hello".toList) = none ∧ rePrompt ("hello".toList) = none ∧
      stripLine ("hello".toList) = "hello".toList) ∧
    ((∀ l ∈ (splitNl ("flutter: a\nb".toList)).map stripLine, stripLine l = l) ∧
      stripLogPrefixes (stripLogPrefixes ("flutter: a\nb".toList)) =
        stripLogPrefixes ("flutter: a\nb".toList)) :=
  ⟨⟨by decide, by decide, by decide, by decide, by decide, by decide,
      c1_strip_total_and_conditional_idempotence.1 _ (by decide) (by decide) (by decide)
        (by decide) (by decide) (by decide)⟩,
    ⟨by decide, c1_strip_total_and_conditional_idempotence.2 _ (by decide)⟩⟩

-- ==================== Block Scanner ====================
-- Source: src/extractors.ts, `extractBalancedBlocks` (lines 258-303).

/-- Model of the `TextBlock` interface (src/extractors.ts lines 9-18). -/
structure TextBlock where
  content : List Char
  startIndex : Nat
  endIndex : Nat
  precedingText : List Char
  deriving Repr, DecidableEq

/-- Half-open slice `text[a..b)`, the model of `text.substring(a, b)`. -/
def listSub (text : List Char) (a b : Nat) : List Char :=
  (text.drop a).take (b - a)

/-- Loop of `extractBalancedBlocks`: walks the remaining characters
(`rem`, always `text.drop i`) carrying the current index `i`, brace
`depth`, string-skip state (`inStr`, `sc` = `stringChar`), and
`bs` = `blockStart` (`none` for `-1`).  Inside a string a backslash
skips the following character (`i++` in the source); the `depth < 0`
clamp is the `0, '}'` branch.  Emitted blocks carry the slice from
`blockStart` through the closing brace and up to 300 characters of
preceding text. -/
def scanAux (text : List Char) :
    List Char → Nat → Nat → Bool → Char → Option Nat → List TextBlock
  | [], _, _, _, _, _ => []
  | c :: rest, i, depth, inStr, sc, bs =>
    if inStr then
      if c = bslash then
        match rest with
        | [] => []
        | _ :: rest2 => scanAux text rest2 (i + 2) depth true sc bs
      else if c = sc then scanAux text rest (i + 1) depth false sc bs
      else scanAux text rest (i + 1) depth true sc bs
    else if c = dquote ∨ c = squote then scanAux text rest (i + 1) depth true c bs
    else if c = '{' then
      scanAux text rest (i + 1) (depth + 1) false sc (if depth = 0 then some i else bs)
    else if c = '}' then
      match depth, bs with
      | 0, bs' => scanAux text rest (i + 1) 0 false sc bs'
      | 1, some s =>
        { content := listSub text s (i + 1), startIndex := s, endIndex := i,
          precedingText := listSub text (s - 300) s } ::
          scanAux text rest (i + 1) 0 false sc none
      | 1, none => scanAux text rest (i + 1) 0 false sc none
      | d + 2, bs' => scanAux text rest (i + 1) (d + 1) false sc bs'
    else scanAux text rest (i + 1) depth false sc bs

/-- Embedding of `extractBalancedBlocks`. -/
def extractBalancedBlocks (text : List Char) : List TextBlock :=
  scanAux text text 0 0 false dquote none

example :
    (extractBalancedBlocks ("a {x: {y: 1}} b {z} c".toList)).map (·.content) =
      ["{x: {y: 1}}".toList, "{z}".toList] := by decide
example :
    (extractBalancedBlocks ("pre \"{not a block}\" {real}".toList)).map (·.content) =
      ["{real}".toList] := by decide
example : extractBalancedBlocks ('{' :: "unterminated".toList) = [] := by decide

-- The quote/escape-aware brace-counting automaton used to state the
-- block-balance invariant.  It mirrors the scanner's own string-skip
-- rules, as a character-by-character fold (a pending-escape flag `esc`
-- replaces the scanner's `i++` skip).

/-- State of the brace-counting automaton. -/
structure CountSt where
  opens : Nat
  closes : Nat
  inStr : Bool
  sc : Char
  esc : Bool
  deriving Repr, DecidableEq

/-- One step of the brace-counting automaton. -/
def countStep (st : CountSt) (c : Char) : CountSt :=
  if st.esc then { st with esc := false }
  else if st.inStr then
    if c = bslash then { st with esc := true }
    else if c = st.sc then { st with inStr := false }
    else st
  else if c = dquote ∨ c = squote then { st with inStr := true, sc := c }
  else if c = '{' then { st with opens := st.opens + 1 }
  else if c = '}' then { st with closes := st.closes + 1 }
  else st

/-- Run the brace-counting automaton over a character list. -/
def countRun (l : List Char) (st : CountSt) : CountSt := l.foldl countStep st

/-- Initial state of the brace-counting automaton. -/
def countInit : CountSt := ⟨0, 0, false, dquote, false⟩

/-- The invariant every emitted block satisfies: content starts with `{`,
ends with `}`, the quote-aware counts of `{` and `}` over the content are
equal, and the recorded indices are strictly ordered. -/
def blockOk (b : TextBlock) : Prop :=
  b.content.head? = some '{' ∧ b.content.getLast? = some '}' ∧
    b.startIndex < b.endIndex ∧
    (countRun b.content countInit).opens = (countRun b.content countInit).closes

lemma take_succ_of_length (A B : List Char) (k : Nat) (hk : A.length = k) :
    List.take (k + 1) (A ++ B) = A ++ List.take 1 B := by
  rw [List.take_append_eq_append_take, List.take_of_length_le (by omega), hk,
    Nat.add_sub_cancel_left]

lemma drop_lt_length {text : List Char} {i : Nat} {c : Char} {rest : List Char}
    (h : text.drop i = c :: rest) : i < text.length := by
  by_contra hle
  push_neg at hle
  rw [List.drop_eq_nil_of_le hle] at h
  exact List.noConfusion h

lemma drop_next {text : List Char} {i : Nat} {c : Char} {rest : List Char}
    (h : text.drop i = c :: rest) : text.drop (i + 1) = rest := by
  rw [← List.tail_drop, h, List.tail_cons]

lemma listSub_extend (text : List Char) {i : Nat} {c : Char} {rest : List Char}
    (h : text.drop i = c :: rest) {s : Nat} (hs : s ≤ i) :
    listSub text s (i + 1) = listSub text s i ++ [c] := by
  have hlen : i < text.length := drop_lt_length h
  have hdd : (text.drop s).drop (i - s) = c :: rest := by
    rw [List.drop_drop, show s + (i - s) = i by omega]
    exact h
  have hsplit : text.drop s = (text.drop s).take (i - s) ++ (c :: rest) := by
    conv_lhs => rw [← List.take_append_drop (i - s) (text.drop s)]
    rw [hdd]
  have hlenA : ((text.drop s).take (i - s)).length = i - s := by
    rw [List.length_take, List.length_drop]
    omega
  unfold listSub
  conv_lhs => rw [hsplit, show i + 1 - s = (i - s) + 1 by omega]
  rw [take_succ_of_length _ _ _ hlenA]
  simp

lemma countRun_snoc (a : List Char) (c : Char) (st : CountSt) :
    countRun (a ++ [c]) st = countStep (countRun a st) c := by
  simp [countRun, List.foldl_append]

lemma head?_take {l : List Char} {n : Nat} (hn : 1 ≤ n) :
    (List.take n l).head? = l.head? := by
  cases l with
  | nil => simp
  | cons a t =>
    cases n with
    | zero => omega
    | succ m => simp

lemma scanInv_extend {text : List Char} {i : Nat} {c : Char} {rest : List Char}
    (h : text.drop i = c :: rest) {s : Nat} (hs : s ≤ i) (st : CountSt) :
    countRun (listSub text s (i + 1)) st = countStep (countRun (listSub text s i) st) c := by
  rw [listSub_extend text h hs, countRun_snoc]

lemma scanAux_cons (text : List Char) (c : Char) (rest : List Char) (i depth : Nat)
    (inStr : Bool) (sc : Char) (bs : Option Nat) :
    scanAux text (c :: rest) i depth inStr sc bs =
      if inStr then
        if c = bslash then
          match rest with
          | [] => []
          | _ :: rest2 => scanAux text rest2 (i + 2) depth true sc bs
        else if c = sc then scanAux text rest (i + 1) depth false sc bs
        else scanAux text rest (i + 1) depth true sc bs
      else if c = dquote ∨ c = squote then scanAux text rest (i + 1) depth true c bs
      else if c = '{' then
        scanAux text rest (i + 1) (depth + 1) false sc (if depth = 0 then some i else bs)
      else if c = '}' then
        match depth, bs with
        | 0, bs' => scanAux text rest (i + 1) 0 false sc bs'
        | 1, some s =>
          { content := listSub text s (i + 1), startIndex := s, endIndex := i,
            precedingText := listSub text (s - 300) s } ::
            scanAux text rest (i + 1) 0 false sc none
        | 1, none => scanAux text rest (i + 1) 0 false sc none
        | d + 2, bs' => scanAux text rest (i + 1) (d + 1) false sc bs'
      else scanAux text rest (i + 1) depth false sc bs := by
  conv_lhs => rw [scanAux.eq_def]

/-- The running invariant of the scan: whenever a block is open
(`bs = some s`), the block began strictly earlier at a `{`, the depth is
positive, and the counting automaton run over the open block's slice so
far agrees with the scanner's state, with brace surplus exactly `depth`. -/
def scanInv (text : List Char) (i depth : Nat) (inStr : Bool) (sc : Char)
    (bs : Option Nat) : Prop :=
  ∀ s, bs = some s →
    s < i ∧ (text.drop s).head? = some '{' ∧ 1 ≤ depth ∧
    (countRun (listSub text s i) countInit).opens
        = (countRun (listSub text s i) countInit).closes + depth ∧
    (countRun (listSub text s i) countInit).inStr = inStr ∧
    (countRun (listSub text s i) countInit).esc = false ∧
    (inStr = true → (countRun (listSub text s i) countInit).sc = sc)

lemma scanInv_preserve {text : List Char} {i : Nat} {c : Char} {rest : List Char}
    (hdropi : text.drop i = c :: rest)
    {depth depth' : Nat} {inStr inStr' : Bool} {sc sc' : Char} {bs : Option Nat}
    (hstep : ∀ st : CountSt, st.inStr = inStr → st.esc = false →
        (inStr = true → st.sc = sc) → st.opens = st.closes + depth →
        (countStep st c).opens = (countStep st c).closes + depth' ∧
        (countStep st c).inStr = inStr' ∧ (countStep st c).esc = false ∧
        (inStr' = true → (countStep st c).sc = sc'))
    (hdd : 1 ≤ depth → 1 ≤ depth')
    (hinv : scanInv text i depth inStr sc bs) :
    scanInv text (i + 1) depth' inStr' sc' bs := by
  intro s hbs
  obtain ⟨h1, h2, h3, h4, h5, h6, h7⟩ := hinv s hbs
  have e1 := scanInv_extend (s := s) hdropi (Nat.le_of_lt h1) countInit
  obtain ⟨g1, g2, g3, g4⟩ := hstep _ h5 h6 h7 h4
  refine ⟨by omega, h2, hdd h3, ?_, ?_, ?_, ?_⟩
  · rw [e1]; exact g1
  · rw [e1]; exact g2
  · rw [e1]; exact g3
  · intro hx; rw [e1]; exact g4 hx

lemma scanAux_blockOk (text : List Char) :
    ∀ n (rem : List Char) (i depth : Nat) (inStr : Bool) (sc : Char) (bs : Option Nat),
      rem.length = n → rem = text.drop i → scanInv text i depth inStr sc bs →
      ∀ b ∈ scanAux text rem i depth inStr sc bs, blockOk b := by
  intro n
  induction n using Nat.strong_induction_on with
  | _ n ih =>
    intro rem i depth inStr sc bs hlen hrem hinv b hb
    cases rem with
    | nil => simp [scanAux] at hb
    | cons c rest =>
      simp only [List.length_cons] at hlen
      have hdropi : text.drop i = c :: rest := hrem.symm
      have hdropi1 : text.drop (i + 1) = rest := drop_next hdropi
      rw [scanAux_cons] at hb
      by_cases hstr : inStr
      · rw [if_pos hstr] at hb
        subst hstr
        by_cases hbsl : c = bslash
        · -- escaped character inside a string: two characters consumed
          rw [if_pos hbsl] at hb
          cases rest with
          | nil => simp at hb
          | cons d rest2 =>
            simp only [List.length_cons] at hlen
            have hdropi2 : text.drop (i + 2) = rest2 := drop_next hdropi1
            refine ih rest2.length (by omega) rest2 (i + 2) depth true sc bs
              rfl hdropi2.symm ?_ b hb
            intro s hbs
            obtain ⟨h1, h2, h3, h4, h5, h6, h7⟩ := hinv s hbs
            have hle : s ≤ i := Nat.le_of_lt h1
            have e1 := scanInv_extend (s := s) hdropi hle countInit
            have e2 := scanInv_extend (s := s) hdropi1 (by omega) countInit
            rw [show i + 1 + 1 = i + 2 by omega] at e2
            have hstep1 : countStep (countRun (listSub text s i) countInit) c
                = { countRun (listSub text s i) countInit with esc := true } := by
              rw [countStep, if_neg (by simp [h6]), if_pos (by simp [h5]), if_pos hbsl]
            have hstep2 : countRun (listSub text s (i + 2)) countInit
                = { countRun (listSub text s i) countInit with esc := false } := by
              rw [e2, e1, hstep1, countStep]
              simp
            refine ⟨by omega, h2, h3, ?_, ?_, ?_, ?_⟩
            · rw [hstep2]; simpa using h4
            · rw [hstep2]; simpa using h5
            · rw [hstep2]
            · intro hx; rw [hstep2]; simpa using h7 rfl
        · rw [if_neg hbsl] at hb
          by_cases hsc : c = sc
          · -- closing quote
            rw [if_pos hsc] at hb
            refine ih rest.length (by omega) rest (i + 1) depth false sc bs
              rfl hdropi1.symm (scanInv_preserve hdropi ?_ id hinv) b hb
            intro st g1 g2 g3 g4
            have : countStep st c = { st with inStr := false } := by
              rw [countStep, if_neg (by simp [g2]), if_pos (by simp [g1]),
                if_neg (by simpa [g3 rfl] using hbsl), if_pos (by simp [g3 rfl, hsc])]
            rw [this]
            exact ⟨g4, rfl, g2, by simp⟩
          · -- ordinary character inside a string
            rw [if_neg hsc] at hb
            refine ih rest.length (by omega) rest (i + 1) depth true sc bs
              rfl hdropi1.symm (scanInv_preserve hdropi ?_ id hinv) b hb
            intro st g1 g2 g3 g4
            have : countStep st c = st := by
              rw [countStep, if_neg (by simp [g2]), if_pos (by simp [g1]),
                if_neg (by simpa [g3 rfl] using hbsl), if_neg (by simp [g3 rfl, hsc])]
            rw [this]
            exact ⟨g4, g1, g2, fun _ => g3 rfl⟩
      · rw [if_neg hstr] at hb
        replace hstr : inStr = false := by simpa using hstr
        subst hstr
        by_cases hq : c = dquote ∨ c = squote
        · -- opening quote
          rw [if_pos hq] at hb
          refine ih rest.length (by omega) rest (i + 1) depth true c bs
            rfl hdropi1.symm (scanInv_preserve hdropi ?_ id hinv) b hb
          intro st g1 g2 g3 g4
          have : countStep st c = { st with inStr := true, sc := c } := by
            rw [countStep, if_neg (by simp [g2]), if_neg (by simp [g1]), if_pos hq]
          rw [this]
          exact ⟨g4, rfl, g2, fun _ => rfl⟩
        · rw [if_neg hq] at hb
          by_cases hob : c = '{'
          · -- opening brace
            rw [if_pos hob] at hb
            by_cases hdz : depth = 0
            · -- a new top-level block starts here
              subst hdz
              rw [if_pos rfl] at hb
              refine ih rest.length (by omega) rest (i + 1) 1 false sc (some i)
                rfl hdropi1.symm ?_ b hb
              intro s hbs
              rw [Option.some.injEq] at hbs
              subst hbs
              have hsub : listSub text i (i + 1) = [c] := by
                have := listSub_extend (s := i) text hdropi (Nat.le_refl i)
                rwa [show listSub text i i = [] by simp [listSub], List.nil_append] at this
              refine ⟨by omega, by simp [hdropi, hob], by omega, ?_, ?_, ?_, by simp⟩ <;>
                rw [hsub, hob] <;> decide
            · -- a nested brace inside the current block
              rw [if_neg hdz] at hb
              refine ih rest.length (by omega) rest (i + 1) (depth + 1) false sc bs
                rfl hdropi1.symm (scanInv_preserve hdropi ?_ (fun _ => by omega) hinv) b hb
              intro st g1 g2 g3 g4
              have : countStep st c = { st with opens := st.opens + 1 } := by
                rw [countStep, if_neg (by simp [g2]), if_neg (by simp [g1]), if_neg hq,
                  if_pos hob]
              rw [this]
              exact ⟨by simp; omega, g1, g2, by simp⟩
          · rw [if_neg hob] at hb
            by_cases hcb : c = '}'
            · rw [if_pos hcb] at hb
              cases depth with
              | zero =>
                -- unmatched closing brace at depth 0: clamp
                refine ih rest.length (by omega) rest (i + 1) 0 false sc bs
                  rfl hdropi1.symm ?_ b hb
                intro s hbs
                obtain ⟨_, _, h3, _⟩ := hinv s hbs
                omega
              | succ dp =>
                cases dp with
                | zero =>
                  cases hbs0 : bs with
                  | none =>
                    rw [hbs0] at hb
                    exact ih rest.length (by omega) rest (i + 1) 0 false sc none
                      rfl hdropi1.symm (by intro s h; simp at h) b hb
                  | some s =>
                    rw [hbs0] at hb
                    obtain ⟨h1, h2, h3, h4, h5, h6, h7⟩ := hinv s hbs0
                    have hle : s ≤ i := Nat.le_of_lt h1
                    rcases List.mem_cons.mp hb with rfl | hbtail
                    · -- the emitted block satisfies blockOk
                      have e1 := scanInv_extend (s := s) hdropi hle countInit
                      have hstep : countStep (countRun (listSub text s i) countInit) c
                          = { countRun (listSub text s i) countInit with
                              closes := (countRun (listSub text s i) countInit).closes + 1 } := by
                        rw [countStep, if_neg (by simp [h6]), if_neg (by simp [h5]),
                          if_neg hq, if_neg hob, if_pos hcb]
                      refine ⟨?_, ?_, h1, ?_⟩
                      · show (listSub text s (i + 1)).head? = some '{'
                        unfold listSub
                        rw [head?_take (by omega)]
                        exact h2
                      · show (listSub text s (i + 1)).getLast? = some '}'
                        rw [listSub_extend (s := s) text hdropi hle, hcb,
                          List.getLast?_concat]
                      · show (countRun (listSub text s (i + 1)) countInit).opens
                            = (countRun (listSub text s (i + 1)) countInit).closes
                        rw [e1, hstep]
                        simpa using h4
                    · exact ih rest.length (by omega) rest (i + 1) 0 false sc none
                        rfl hdropi1.symm (by intro s2 h; simp at h) b hbtail
                | succ dpp =>
                  -- closing a nested brace
                  refine ih rest.length (by omega) rest (i + 1) (dpp + 1) false sc bs
                    rfl hdropi1.symm (scanInv_preserve hdropi ?_ (fun _ => by omega) hinv) b hb
                  intro st g1 g2 g3 g4
                  have : countStep st c = { st with closes := st.closes + 1 } := by
                    rw [countStep, if_neg (by simp [g2]), if_neg (by simp [g1]), if_neg hq,
                      if_neg hob, if_pos hcb]
                  rw [this]
                  exact ⟨by simp; omega, g1, g2, by simp⟩
            · -- any other character outside a string
              rw [if_neg hcb] at hb
              refine ih rest.length (by omega) rest (i + 1) depth false sc bs
                rfl hdropi1.symm (scanInv_preserve hdropi ?_ id hinv) b hb
              intro st g1 g2 g3 g4
              have : countStep st c = st := by
                rw [countStep, if_neg (by simp [g2]), if_neg (by simp [g1]), if_neg hq,
                  if_neg hob, if_neg hcb]
              rw [this]
              exact ⟨g4, g1, g2, by simp⟩

lemma drop_shift (pre text : List Char) (s : Nat) :
    (pre ++ text).drop (pre.length + s) = text.drop s := by
  induction pre with
  | nil => simp
  | cons a t ih =>
    rw [List.cons_append, List.length_cons, Nat.succ_add, List.drop_succ_cons]
    exact ih

lemma listSub_shift (pre text : List Char) (s e : Nat) :
    listSub (pre ++ text) (pre.length + s) (pre.length + e) = listSub text s e := by
  unfold listSub
  rw [drop_shift]
  congr 1
  omega

/-- Shifting the whole input right by a prefix (and the scan state's
indices with it) leaves the extracted block contents unchanged. -/
lemma scanAux_shift (pre text : List Char) :
    ∀ n (rem : List Char) (i depth : Nat) (inStr : Bool) (sc : Char) (bs : Option Nat),
      rem.length = n →
      (scanAux (pre ++ text) rem (pre.length + i) depth inStr sc
          (bs.map (pre.length + ·))).map TextBlock.content
        = (scanAux text rem i depth inStr sc bs).map TextBlock.content := by
  intro n
  induction n using Nat.strong_induction_on with
  | _ n ih =>
    intro rem i depth inStr sc bs hlen
    cases rem with
    | nil => simp [scanAux]
    | cons c rest =>
      simp only [List.length_cons] at hlen
      rw [scanAux_cons, scanAux_cons]
      by_cases hstr : inStr
      · rw [if_pos hstr, if_pos hstr]
        by_cases hbsl : c = bslash
        · rw [if_pos hbsl, if_pos hbsl]
          cases rest with
          | nil => simp
          | cons d rest2 =>
            simp only [List.length_cons] at hlen
            rw [show pre.length + i + 2 = pre.length + (i + 2) by omega]
            exact ih rest2.length (by omega) rest2 (i + 2) depth true sc bs rfl
        · rw [if_neg hbsl, if_neg hbsl]
          by_cases hsc : c = sc
          · rw [if_pos hsc, if_pos hsc,
              show pre.length + i + 1 = pre.length + (i + 1) by omega]
            exact ih rest.length (by omega) rest (i + 1) depth false sc bs rfl
          · rw [if_neg hsc, if_neg hsc,
              show pre.length + i + 1 = pre.length + (i + 1) by omega]
            exact ih rest.length (by omega) rest (i + 1) depth true sc bs rfl
      · rw [if_neg hstr, if_neg hstr]
        by_cases hq : c = dquote ∨ c = squote
        · rw [if_pos hq, if_pos hq,
            show pre.length + i + 1 = pre.length + (i + 1) by omega]
          exact ih rest.length (by omega) rest (i + 1) depth true c bs rfl
        · rw [if_neg hq, if_neg hq]
          by_cases hob : c = '{'
          · rw [if_pos hob, if_pos hob,
              show pre.length + i + 1 = pre.length + (i + 1) by omega]
            have hbsmap :
                (if depth = 0 then some (pre.length + i) else bs.map (pre.length + ·))
                  = (if depth = 0 then some i else bs).map (pre.length + ·) := by
              by_cases hd : depth = 0 <;> simp [hd]
            rw [hbsmap]
            exact ih rest.length (by omega) rest (i + 1) (depth + 1) false sc _ rfl
          · rw [if_neg hob, if_neg hob]
            by_cases hcb : c = '}'
            · rw [if_pos hcb, if_pos hcb]
              cases depth with
              | zero =>
                rw [show pre.length + i + 1 = pre.length + (i + 1) by omega]
                exact ih rest.length (by omega) rest (i + 1) 0 false sc bs rfl
              | succ dp =>
                cases dp with
                | zero =>
                  cases bs with
                  | none =>
                    rw [show pre.length + i + 1 = pre.length + (i + 1) by omega]
                    exact ih rest.length (by omega) rest (i + 1) 0 false sc none rfl
                  | some s =>
                    show List.map TextBlock.content
                        ({ content := listSub (pre ++ text) (pre.length + s)
                              (pre.length + i + 1),
                           startIndex := pre.length + s, endIndex := pre.length + i,
                           precedingText := listSub (pre ++ text) (pre.length + s - 300)
                              (pre.length + s) } ::
                          scanAux (pre ++ text) rest (pre.length + i + 1) 0 false sc none)
                      = List.map TextBlock.content
                        ({ content := listSub text s (i + 1), startIndex := s,
                           endIndex := i,
                           precedingText := listSub text (s - 300) s } ::
                          scanAux text rest (i + 1) 0 false sc none)
                    simp only [List.map_cons]
                    rw [show pre.length + i + 1 = pre.length + (i + 1) by omega,
                      listSub_shift]
                    have := ih rest.length (by omega) rest (i + 1) 0 false sc none rfl
                    rw [show Option.map (fun x => pre.length + x) (none : Option Nat)
                        = none from rfl] at this
                    rw [this]
                | succ dpp =>
                  rw [show pre.length + i + 1 = pre.length + (i + 1) by omega]
                  exact ih rest.length (by omega) rest (i + 1) (dpp + 1) false sc bs rfl
            · rw [if_neg hcb, if_neg hcb,
                show pre.length + i + 1 = pre.length + (i + 1) by omega]
              exact ih rest.length (by omega) rest (i + 1) depth false sc bs rfl

/-- C4: every block returned by `extractBalancedBlocks` has content that
starts with `{` and ends with the matching `}`, has equal counts of `{`
and `}` when counted outside quoted regions (by the scanner's own
quote/escape-aware automaton), and satisfies `startIndex < endIndex`;
and the scan is total on malformed input — a spurious unmatched `}`
clamps the depth at 0 rather than failing, so prepending such a `}`
leaves the extracted block contents unchanged. -/
theorem c4_block_invariants :
    (∀ t : List Char, ∀ b ∈ extractBalancedBlocks t,
        b.content.head? = some '{' ∧ b.content.getLast? = some '}' ∧
        b.startIndex < b.endIndex ∧
        (countRun b.content countInit).opens = (countRun b.content countInit).closes) ∧
    (∀ t : List Char,
        (extractBalancedBlocks ('}' :: t)).map TextBlock.content
          = (extractBalancedBlocks t).map TextBlock.content) := by
  constructor
  · intro t b hb
    exact scanAux_blockOk t t.length t 0 0 false dquote none rfl (by simp)
      (by intro s h; simp at h) b hb
  · intro t
    show (scanAux ('}' :: t) ('}' :: t) 0 0 false dquote none).map TextBlock.content
      = (scanAux t t 0 0 false dquote none).map TextBlock.content
    rw [scanAux_cons, if_neg (by decide), if_neg (by decide), if_neg (by decide),
      if_pos rfl]
    exact scanAux_shift ['}'] t t.length t 0 0 false dquote none rfl

/-- C4 witness: the single block of the input `x{a}` is in the scanner's
output and satisfies all four invariants. -/
theorem c4_witness :
    (⟨"{a}".toList, 1, 3, "x".toList⟩ : TextBlock) ∈
        extractBalancedBlocks ("x{a}".toList) ∧
    (("{a}".toList : List Char).head? = some '{' ∧
      ("{a}".toList : List Char).getLast? = some '}' ∧ 1 < 3 ∧
      (countRun "{a}".toList countInit).opens = (countRun "{a}".toList countInit).closes) :=
  ⟨by decide, c4_block_invariants.1 ("x{a}".toList)
    ⟨"{a}".toList, 1, 3, "x".toList⟩ (by decide)⟩

/-- C9 counterexample: outside a quoted string a backslash does NOT
escape the following character.  On the input `a\{b}` the brace preceded
by a backslash still opens a block, so the scanner returns the block
`{b}`; under the claim (backslash escapes unconditionally, also outside
strings) the `{` would be escaped, the lone `}` clamped, and no block
returned. -/
theorem c9_counterexample :
    (extractBalancedBlocks ('a' :: bslash :: '{' :: 'b' :: '}' :: [])).map
        TextBlock.content = [['{', 'b', '}']] := by decide

/-- C9 (amended): inside a quoted string a backslash escapes the
immediately following character unconditionally — an escaped character,
even a quote or a brace, never changes the brace depth or the
string-skip state (first conjunct: a double-quoted string holding any
escaped character is transparent to the scan).  Outside a quoted string
a backslash has no special effect at all: it neither escapes the next
character nor affects the state (second conjunct). -/
theorem c9_escape_inside_strings_only :
    (∀ (c : Char) (rest : List Char),
        (extractBalancedBlocks (dquote :: bslash :: c :: dquote :: rest)).map
            TextBlock.content
          = (extractBalancedBlocks rest).map TextBlock.content) ∧
    (∀ rest : List Char,
        (extractBalancedBlocks (bslash :: rest)).map TextBlock.content
          = (extractBalancedBlocks rest).map TextBlock.content) := by
  constructor
  · intro c rest
    show (scanAux (dquote :: bslash :: c :: dquote :: rest)
        (dquote :: bslash :: c :: dquote :: rest) 0 0 false dquote none).map
          TextBlock.content
      = (scanAux rest rest 0 0 false dquote none).map TextBlock.content
    rw [scanAux_cons, if_neg (by decide), if_pos (by decide)]
    rw [scanAux_cons, if_pos rfl, if_pos rfl]
    show List.map TextBlock.content
        (scanAux (dquote :: bslash :: c :: dquote :: rest) (dquote :: rest)
          (0 + 1 + 2) 0 true dquote none)
      = List.map TextBlock.content (scanAux rest rest 0 0 false dquote none)
    rw [scanAux_cons, if_pos rfl, if_neg (by decide), if_pos rfl]
    exact scanAux_shift (dquote :: bslash :: c :: dquote :: []) rest rest.length rest
      0 0 false dquote none rfl
  · intro rest
    show (scanAux (bslash :: rest) (bslash :: rest) 0 0 false dquote none).map
        TextBlock.content
      = (scanAux rest rest 0 0 false dquote none).map TextBlock.content
    rw [scanAux_cons, if_neg (by decide), if_neg (by decide), if_neg (by decide),
      if_neg (by decide)]
    exact scanAux_shift (bslash :: []) rest rest.length rest 0 0 false dquote none rfl

-- ==================== Logfmt / key=value extraction ====================
-- Source: src/extractors.ts, `LOGFMT_BODY_PATTERNS` (lines 460-478) and
-- `extractBodyFromKeyValue` (lines 480-486).

/-- Newline character. -/
def nlChar : Char := Char.ofNat 10

/-- Matcher for the regex fragment `\s*=\s*` between label and value. -/
def kvEq (s : List Char) : Option (List Char) :=
  match stripClass (· = '=') (stripMany jsWs s) with
  | none => none
  | some s => some (stripMany jsWs s)

/-- Optional `[-_]` separator inside `request[-_]?body` / `post[-_]?data`. -/
def kvOptSep (s : List Char) : List Char :=
  (stripClass (fun c => c = '-' ∨ c = '_') s).getD s

/-- Label `request[-_]?body\s*=\s*` (case-insensitive). -/
def kvLabReqBody (s : List Char) : Option (List Char) := do
  let s ← stripLitIC "request".toList s
  let s := kvOptSep s
  let s ← stripLitIC "body".toList s
  kvEq s

/-- Label `body\s*=\s*`. -/
def kvLabBody (s : List Char) : Option (List Char) :=
  stripLitIC "body".toList s >>= kvEq

/-- Label `payload\s*=\s*`. -/
def kvLabPayload (s : List Char) : Option (List Char) :=
  stripLitIC "payload".toList s >>= kvEq

/-- Label `data\s*=\s*`. -/
def kvLabData (s : List Char) : Option (List Char) :=
  stripLitIC "data".toList s >>= kvEq

/-- Label `post[-_]?data\s*=\s*`. -/
def kvLabPostData (s : List Char) : Option (List Char) := do
  let s ← stripLitIC "post".toList s
  let s := kvOptSep s
  let s ← stripLitIC "data".toList s
  kvEq s

/-- Value `"(\{[^"]*\})"`: a double-quoted brace value.  The greedy
`[^"]*` stops at the first `"`; the pattern then requires the character
just before that quote to be `}` (this is where backtracking on `[^"]*`
lands).  The capture is the braces and everything between them. -/
def kvValDq (s : List Char) : Option (List Char) :=
  match s with
  | q :: b :: bs =>
    if q = dquote ∧ b = '{' then
      let seg := bs.takeWhile (· ≠ dquote)
      match bs.drop seg.length, seg.getLast? with
      | _ :: _, some '}' => some ('{' :: seg)
      | _, _ => none
    else none
  | _ => none

/-- Value `'(\{[^']*\})'`: single-quoted brace value, as `kvValDq`. -/
def kvValSq (s : List Char) : Option (List Char) :=
  match s with
  | q :: b :: bs =>
    if q = squote ∧ b = '{' then
      let seg := bs.takeWhile (· ≠ squote)
      match bs.drop seg.length, seg.getLast? with
      | _ :: _, some '}' => some ('{' :: seg)
      | _, _ => none
    else none
  | _ => none

/-- Value `(\{[^\n]*\})`: a bare brace value running to the last `}`
before the end of the line (greedy `[^\n]*` with backtracking to the
last `}`). -/
def kvValBare (s : List Char) : Option (List Char) :=
  match s with
  | b :: bs =>
    if b = '{' then
      let seg := bs.takeWhile (· ≠ nlChar)
      match seg.reverse.dropWhile (· ≠ '}') with
      | [] => none
      | dropped => some ('{' :: dropped.reverse)
    else none
  | [] => none

/-- One attempt of a labelled pattern at a fixed position: the `\b`
word-boundary before the label requires the previous character (if any)
to be a non-word character. -/
def kvTry (lab val : List Char → Option (List Char)) (prev : Option Char)
    (s : List Char) : Option (List Char) :=
  if (match prev with | none => true | some p => !(isWordChar p)) then
    lab s >>= val
  else none

/-- Leftmost-match search of one labelled pattern over the text. -/
def searchKV (lab val : List Char → Option (List Char)) :
    Option Char → List Char → Option (List Char)
  | _, [] => none
  | prev, c :: cs =>
    match kvTry lab val prev (c :: cs) with
    | some r => some r
    | none => searchKV lab val (some c) cs

/-- The twelve `LOGFMT_BODY_PATTERNS`, in source order: for each label a
double-quoted and a single-quoted variant, and for `request_body` and
`body` additionally a bare variant (`payload`, `data` and `post_data`
have no bare variant in the source). -/
def LOGFMT_BODY_PATTERNS :
    List ((List Char → Option (List Char)) × (List Char → Option (List Char))) :=
  [(kvLabReqBody, kvValDq), (kvLabReqBody, kvValSq), (kvLabReqBody, kvValBare),
   (kvLabBody, kvValDq), (kvLabBody, kvValSq), (kvLabBody, kvValBare),
   (kvLabPayload, kvValDq), (kvLabPayload, kvValSq),
   (kvLabData, kvValDq), (kvLabData, kvValSq),
   (kvLabPostData, kvValDq), (kvLabPostData, kvValSq)]

/-- Try the patterns in order; the first one that matches anywhere in the
text wins (embedding of `extractBodyFromKeyValue`). -/
def kvFirstMatch (t : List Char) :
    List ((List Char → Option (List Char)) × (List Char → Option (List Char))) →
      Option (List Char)
  | [] => none
  | (lab, val) :: ps =>
    match searchKV lab val none t with
    | some r => some r
    | none => kvFirstMatch t ps

/-- Embedding of `extractBodyFromKeyValue` (src/extractors.ts 480-486). -/
def extractBodyFromKeyValue (t : List Char) : Option (List Char) :=
  kvFirstMatch t LOGFMT_BODY_PATTERNS

example :
    extractBodyFromKeyValue ("request_body=".toList ++
        ('{' :: 'o' :: ':' :: ' ' :: 'd' :: '}' :: []))
      = some ('{' :: 'o' :: ':' :: ' ' :: 'd' :: '}' :: []) := by decide
example :
    extractBodyFromKeyValue (("body=".toList ++ [dquote]) ++
        ('{' :: 'a' :: '}' :: dquote :: []))
      = some ('{' :: 'a' :: '}' :: []) := by decide
example : extractBodyFromKeyValue ("no body here".toList) = none := by decide

-- ==================== Key extraction for scoring ====================
-- Source: src/extractors.ts, `extractRawKeys` (lines 366-374), the
-- `exec` loop of /(?:["']?)([\w][\w\-.]*)(?:["']?)\s*:/g.

/-- Matcher for the tail `(?:["']?)\s*:` after the captured key.  The
optional quote is consumed when present (not consuming it cannot lead to
a match, since a quote is neither whitespace nor `:`); then greedy `\s*`
and the required `:`.  Returns the rest after the colon. -/
def rawKeyTail (t : List Char) : Option (List Char) :=
  let t1 := match t with
    | c :: cs => if c = dquote ∨ c = squote then cs else t
    | [] => t
  match stripMany jsWs t1 with
  | c :: cs => if c = ':' then some cs else none
  | [] => none

/-- One attempt of the key regex at a fixed position.  After the optional
opening quote, the capture is `[\w][\w\-.]*` taken greedily; a shorter
capture can never match (the character after a shortened capture would be
a `[\w\-.]` character, which fails `(?:["']?)\s*:` immediately), so no
backtracking is needed.  Returns the captured key and the rest after the
colon. -/
def rawKeyAt (s : List Char) : Option (List Char × List Char) :=
  match s with
  | [] => none
  | c :: cs =>
    if c = dquote ∨ c = squote then
      match cs with
      | d :: ds =>
        if isWordChar d then
          let run := ds.takeWhile (fun x => isWordChar x ∨ x = '-' ∨ x = '.')
          (rawKeyTail (ds.drop run.length)).map (fun rest => (d :: run, rest))
        else none
      | [] => none
    else if isWordChar c then
      let run := cs.takeWhile (fun x => isWordChar x ∨ x = '-' ∨ x = '.')
      (rawKeyTail (cs.drop run.length)).map (fun rest => (c :: run, rest))
    else none

/-- The `exec` loop: successive non-overlapping leftmost matches; each
key is pushed lower-cased.  Fuel decreases every step and is at least
the input length, so it never runs out. -/
def extractRawKeysAux : Nat → List Char → List (List Char)
  | 0, _ => []
  | _, [] => []
  | fuel + 1, c :: cs =>
    match rawKeyAt (c :: cs) with
    | some (key, rest) => key.map lowerChar :: extractRawKeysAux fuel rest
    | none => extractRawKeysAux fuel cs

/-- Embedding of `extractRawKeys` (src/extractors.ts 366-374). -/
def extractRawKeys (block : List Char) : List (List Char) :=
  extractRawKeysAux (block.length + 1) block

example :
    extractRawKeys ('{' :: dquote :: 'n' :: 'a' :: 'm' :: 'e' :: dquote :: ':' :: ' '
        :: '1' :: ',' :: ' ' :: 'a' :: 'g' :: 'e' :: ':' :: '2' :: '}' :: [])
      = ["name".toList, "age".toList] := by decide
example : extractRawKeys ("{Auth-Key: x}".toList) = ["auth-key".toList] := by decide
example : extractRawKeys ("{}".toList) = [] := by decide

-- ==================== Scoring ====================
-- Source: src/extractors.ts, scoring constants (lines 308-358) and
-- `scoreBlock` (lines 378-445).

/-- The `HEADER_KEYS` set (src/extractors.ts 340-349). -/
def HEADER_KEYS : List (List Char) :=
  ["authorization".toList, "content-type".toList, "accept".toList,
   "user-agent".toList, "cache-control".toList, "x-requested-with".toList,
   "cookie".toList, "set-cookie".toList, "host".toList, "connection".toList,
   "accept-encoding".toList, "accept-language".toList, "content-length".toList,
   "origin".toList, "referer".toList, "x-csrf-token".toList,
   "x-xsrf-token".toList, "x-forwarded-for".toList, "x-forwarded-proto".toList,
   "pragma".toList, "expires".toList, "etag".toList, "if-none-match".toList,
   "if-modified-since".toList, "access-control-allow-origin".toList,
   "access-control-allow-methods".toList, "access-control-allow-headers".toList,
   "vary".toList, "transfer-encoding".toList]

/-- The `META_KEYS` set (src/extractors.ts 352-358). -/
def META_KEYS : List (List Char) :=
  ["statuscode".toList, "statusmessage".toList, "responsetype".toList,
   "extra".toList, "connecttimeout".toList, "receivetimeout".toList,
   "sendtimeout".toList, "followredirects".toList, "maxredirects".toList,
   "baseurl".toList, "validatestatus".toList, "httpclientadapter".toList,
   "listformat".toList, "contenttype".toList, "responseheaders".toList,
   "isredirect".toList]

/-- Model of `String.prototype.trimEnd`. -/
def trimEnd (s : List Char) : List Char :=
  (stripMany jsWs s.reverse).reverse

/-- Word-boundary check for a reversed suffix matcher whose pattern
starts with a word character: the preceding character (head of the
remaining reversed list) must be absent or a non-word character. -/
def revBoundW (v : List Char) : Bool :=
  match v with
  | [] => true
  | c :: _ => !(isWordChar c)

/-- Suffix matcher for `X\s*[:=]\s*$` (case-insensitive label `X` given
reversed), with a `\b` before the label.  Input is the whole (already
trimmed) preceding text. -/
def endsLabelColon (revLabel : List Char) (r : List Char) : Bool :=
  let v := stripMany jsWs r.reverse
  match stripClass (fun c => c = ':' ∨ c = '=') v with
  | none => false
  | some v =>
    let v := stripMany jsWs v
    match stripLitIC revLabel v with
    | none => false
    | some v => revBoundW v

/-- Suffix matcher for `request[-_ ]?body\s*[:=]\s*$` and the analogous
`post[-_ ]?data` / `response[-_ ]?headers?` shapes: optional separator
between the two (reversed) label parts. -/
def endsLabel2Colon (revSecond revFirst : List Char) (r : List Char) : Bool :=
  let v := stripMany jsWs r.reverse
  match stripClass (fun c => c = ':' ∨ c = '=') v with
  | none => false
  | some v =>
    let v := stripMany jsWs v
    match stripLitIC revSecond v with
    | none => false
    | some v =>
      let v := (stripClass (fun c => c = '-' ∨ c = '_' ∨ c = ' ') v).getD v
      match stripLitIC revFirst v with
      | none => false
      | some v => revBoundW v

/-- Suffix matcher for `headers?\s*[:=]\s*$`-style labels: an optional
trailing `s` before the colon. -/
def endsLabelSColon (revLabel : List Char) (r : List Char) : Bool :=
  let v := stripMany jsWs r.reverse
  match stripClass (fun c => c = ':' ∨ c = '=') v with
  | none => false
  | some v =>
    let v := stripMany jsWs v
    let v := (stripClass (fun c => charIC c 's') v).getD v
    match stripLitIC revLabel v with
    | none => false
    | some v => revBoundW v

/-- Suffix matcher for `request[-_ ]?headers?` / `response[-_ ]?headers?`
with both the optional `s` and the optional separator. -/
def endsLabel2SColon (revSecond revFirst : List Char) (r : List Char) : Bool :=
  let v := stripMany jsWs r.reverse
  match stripClass (fun c => c = ':' ∨ c = '=') v with
  | none => false
  | some v =>
    let v := stripMany jsWs v
    let v := (stripClass (fun c => charIC c 's') v).getD v
    match stripLitIC revSecond v with
    | none => false
    | some v =>
      let v := (stripClass (fun c => c = '-' ∨ c = '_' ∨ c = ' ') v).getD v
      match stripLitIC revFirst v with
      | none => false
      | some v => revBoundW v

/-- Suffix matcher for `\bbody\s*\/\s*data\s*[:=]\s*$` (and the
`request[-_ ]?body\s*\/\s*data` variant via `withReq`). -/
def endsBodySlashData (withReq : Bool) (r : List Char) : Bool :=
  let v := stripMany jsWs r.reverse
  match stripClass (fun c => c = ':' ∨ c = '=') v with
  | none => false
  | some v =>
    let v := stripMany jsWs v
    match stripLitIC "data".toList.reverse v with
    | none => false
    | some v =>
      let v := stripMany jsWs v
      match stripClass (· = '/') v with
      | none => false
      | some v =>
        let v := stripMany jsWs v
        match stripLitIC "body".toList.reverse v with
        | none => false
        | some v =>
          if withReq then
            let v := (stripClass (fun c => c = '-' ∨ c = '_' ∨ c = ' ') v).getD v
            match stripLitIC "request".toList.reverse v with
            | none => false
            | some v => revBoundW v
          else revBoundW v

/-- Suffix matcher for `\bDATA\s+in\s+\w+\s*$`. -/
def endsDataIn (r : List Char) : Bool :=
  let v := stripMany jsWs r.reverse
  match stripMany1 isWordChar v with
  | none => false
  | some v =>
    match stripMany1 jsWs v with
    | none => false
    | some v =>
      match stripLitIC "in".toList.reverse v with
      | none => false
      | some v =>
        match stripMany1 jsWs v with
        | none => false
        | some v =>
          match stripLitIC "data".toList.reverse v with
          | none => false
          | some v => revBoundW v

/-- Suffix matcher for `\b--data(?:-raw|-binary)?\s+['"]?$`.  The `\b`
sits before a non-word `-`, so it requires a word character immediately
before it. -/
def endsDashData (r : List Char) : Bool :=
  let v := r.reverse
  let v := (stripClass (fun c => c = squote ∨ c = dquote) v).getD v
  match stripMany1 jsWs v with
  | none => false
  | some v =>
    let v := ((stripLitIC "-raw".toList.reverse v).orElse
      (fun _ => stripLitIC "-binary".toList.reverse v)).getD v
    match stripLitIC "--data".toList.reverse v with
    | none => false
    | some v =>
      match v with
      | [] => false
      | c :: _ => isWordChar c

/-- The `BODY_MARKERS` tests (src/extractors.ts 308-320), in order. -/
def bodyMarkerTest (r : List Char) : Bool :=
  endsLabelColon "body".toList.reverse r ∨
  endsLabel2Colon "body".toList.reverse "request".toList.reverse r ∨
  endsBodySlashData false r ∨
  endsBodySlashData true r ∨
  endsLabelColon "payload".toList.reverse r ∨
  endsLabelColon "data".toList.reverse r ∨
  endsLabel2Colon "data".toList.reverse "post".toList.reverse r ∨
  endsLabelColon "params".toList.reverse r ∨
  endsDataIn r ∨
  endsDashData r ∨
  endsLabelColon "request".toList.reverse r

/-- The `HEADER_MARKERS` tests (src/extractors.ts 323-328). -/
def headerMarkerTest (r : List Char) : Bool :=
  endsLabelSColon "header".toList.reverse r ∨
  endsLabel2SColon "header".toList.reverse "request".toList.reverse r ∨
  endsLabel2SColon "header".toList.reverse "response".toList.reverse r ∨
  endsLabelColon "baseOptions.headers".toList.reverse r

/-- The `META_MARKERS` tests (src/extractors.ts 331-337). -/
def metaMarkerTest (r : List Char) : Bool :=
  endsLabelColon "config".toList.reverse r ∨
  endsLabelColon "options".toList.reverse r ∨
  endsLabelColon "response".toList.reverse r ∨
  endsLabelColon "extra".toList.reverse r ∨
  endsLabel2SColon "parameter".toList.reverse "query".toList.reverse r

example : bodyMarkerTest (trimEnd "REQUEST BODY/DATA: ".toList) = true := by decide
example : bodyMarkerTest ("DATA in postRequest".toList) = true := by decide
example : headerMarkerTest ("HEADERS:".toList) = true := by decide
example : headerMarkerTest ("some body:".toList) = false := by decide
example : metaMarkerTest ("query parameters:".toList) = true := by decide

/-- Model of the `ScoredBlock` interface (src/extractors.ts 25-29). -/
structure ScoredBlock where
  block : TextBlock
  score : Int
  reason : List Char
  deriving Repr, DecidableEq

/-- Embedding of `scoreBlock` (src/extractors.ts 378-445).  The two
floating-point ratio tests are modelled exactly over the integers:
`h / t > 0.5` is `2*h > t` and `m / t > 0.3` is `10*m > 3*t` (for the
integer ranges involved the double-precision comparisons agree with the
rational ones). -/
def scoreBlock (b : TextBlock) : ScoredBlock :=
  let preceding := trimEnd (stripLogPrefixes b.precedingText)
  let keys := extractRawKeys b.content
  if keys.length = 0 then ⟨b, -100, "empty block".toList⟩
  else
    let s0 : Int := 0
    let r0 : List (List Char) := []
    let (s1, r1) :=
      if bodyMarkerTest preceding then (s0 + 50, r0 ++ ["body marker".toList])
      else (s0, r0)
    let (s2, r2) :=
      if headerMarkerTest preceding then (s1 - 50, r1 ++ ["header marker".toList])
      else (s1, r1)
    let (s3, r3) :=
      if metaMarkerTest preceding then (s2 - 30, r2 ++ ["metadata marker".toList])
      else (s2, r2)
    let headerCount := (keys.filter (fun k => HEADER_KEYS.contains k)).length
    let metaCount := (keys.filter (fun k => META_KEYS.contains k)).length
    let total := keys.length
    let (s4, r4) :=
      if 0 < total ∧ total < 2 * headerCount then
        (s3 - 40, r3 ++ ["majority header keys".toList])
      else if headerCount = 0 ∧ metaCount = 0 then
        (s3 + 10, r3 ++ ["no header/meta keys".toList])
      else (s3, r3)
    let (s5, r5) :=
      if 0 < total ∧ 3 * total < 10 * metaCount then
        (s4 - 30, r4 ++ ["significant meta keys".toList])
      else (s4, r4)
    let (s6, r6) :=
      if 3 ≤ total then (s5 + 5, r5 ++ ["multi-key".toList])
      else (s5, r5)
    ⟨b, s6, if r6.isEmpty then "default".toList
            else List.intercalate ", ".toList r6⟩

-- ==================== Body selection ====================
-- Source: src/extractors.ts, `extractBody` (lines 502-532).

/-- Stable insertion of a scored block into a descending-sorted list:
an element is placed after every earlier element with greater-or-equal
score, which models the stable `Array.prototype.sort` with comparator
`(a, b) => b.score - a.score`. -/
def insertDesc (x : ScoredBlock) : List ScoredBlock → List ScoredBlock
  | [] => [x]
  | y :: l => if y.score ≤ x.score then x :: y :: l else y :: insertDesc x l

/-- Stable descending sort by score. -/
def sortDesc : List ScoredBlock → List ScoredBlock
  | [] => []
  | x :: l => insertDesc x (sortDesc l)

/-- Header-vocabulary key count of a scored block, as recomputed inside
the tie-break `reduce` of `extractBody`. -/
def headerKeyCount (s : ScoredBlock) : Nat :=
  ((extractRawKeys s.block.content).filter (fun k => HEADER_KEYS.contains k)).length

/-- The balanced-brace branch of `extractBody` (src lines 507-531):
zero blocks → `none`; one block → its content unconditionally;
otherwise score, sort descending, return the clear winner, or on a tie
reduce the tied blocks to the one with fewest header-vocabulary keys
(`reduce` keeps the earlier block on equal counts). -/
def extractBodyBlocks (t : List Char) : Option (List Char) :=
  match extractBalancedBlocks t with
  | [] => none
  | [b] => some b.content
  | b1 :: b2 :: bs =>
    let scored := sortDesc ((b1 :: b2 :: bs).map scoreBlock)
    match scored with
    | s0 :: s1 :: _ =>
      if s1.score < s0.score then some s0.block.content
      else
        match scored.filter (fun s => s.score = s0.score) with
        | t0 :: ts =>
          some ((ts.foldl (fun prev curr =>
            if headerKeyCount curr < headerKeyCount prev then curr else prev)
              t0).block.content)
        | [] => some s0.block.content
    | _ => none

/-- Embedding of `extractBody` (src/extractors.ts 502-532).  The logfmt
fast path wins when it matches with a truthy (non-empty) value;
otherwise the balanced-brace branch decides. -/
def extractBody (t : List Char) : Option (List Char) :=
  match extractBodyFromKeyValue t with
  | some s => if s.isEmpty then extractBodyBlocks t else some s
  | none => extractBodyBlocks t

example : extractBody ("x {a: 1} y".toList) = some ("{a: 1}".toList) := by decide
example : extractBody ("nothing".toList) = none := by decide

/-- C3: whenever the logfmt fast path does not match, a Block Scanner
result of exactly one block is returned unconditionally (its score is
never computed), and a result of zero blocks yields `none`. -/
theorem c3_zero_or_single_block :
    ∀ t : List Char, extractBodyFromKeyValue t = none →
      (extractBalancedBlocks t = [] → extractBody t = none) ∧
      (∀ b : TextBlock, extractBalancedBlocks t = [b] → extractBody t = some b.content) := by
  intro t hkv
  constructor
  · intro hz
    unfold extractBody extractBodyBlocks
    rw [hkv, hz]
  · intro b hone
    unfold extractBody extractBodyBlocks
    rw [hkv, hone]

/-- C3 witness: a block-free input yields `none`, and an input with one
top-level block yields that block's content. -/
theorem c3_witness :
    (extractBodyFromKeyValue ("plain text".toList) = none ∧
      extractBalancedBlocks ("plain text".toList) = [] ∧
      extractBody ("plain text".toList) = none) ∧
    (extractBodyFromKeyValue ("x {a: 1} y".toList) = none ∧
      extractBalancedBlocks ("x {a: 1} y".toList)
        = [⟨"{a: 1}".toList, 2, 7, "x ".toList⟩] ∧
      extractBody ("x {a: 1} y".toList) = some ("{a: 1}".toList)) :=
  ⟨⟨by decide, by decide,
      (c3_zero_or_single_block ("plain text".toList) (by decide)).1 (by decide)⟩,
    ⟨by decide, by decide,
      (c3_zero_or_single_block ("x {a: 1} y".toList) (by decide)).2
        ⟨"{a: 1}".toList, 2, 7, "x ".toList⟩ (by decide)⟩⟩

/-- C6 (code-bug evidence): the logfmt fast path has no bare-brace
variant for `payload=`, `data=` or `post_data=`, although the function's
own documentation lists `payload={"id":1}` as handled; only
`request_body=` and `body=` match a bare `{...}` value. -/
theorem c6_bare_payload_not_matched :
    extractBodyFromKeyValue ("payload=".toList ++
        ('{' :: dquote :: 'i' :: 'd' :: dquote :: ':' :: '1' :: '}' :: [])) = none ∧
    extractBodyFromKeyValue ("data=".toList ++ ('{' :: 'a' :: ':' :: '1' :: '}' :: []))
        = none ∧
    extractBodyFromKeyValue ("post_data=".toList ++
        ('{' :: 'a' :: ':' :: '1' :: '}' :: [])) = none ∧
    extractBodyFromKeyValue ("request_body=".toList ++
        ('{' :: 'a' :: ':' :: '1' :: '}' :: []))
        = some ('{' :: 'a' :: ':' :: '1' :: '}' :: []) ∧
    extractBodyFromKeyValue ("body=".toList ++ ('{' :: 'a' :: ':' :: '1' :: '}' :: []))
        = some ('{' :: 'a' :: ':' :: '1' :: '}' :: []) := by
  refine ⟨by decide, by decide, by decide, by decide, by decide⟩

-- ==================== Lemmas for the tie-break (C8) ====================

lemma insertDesc_perm (x : ScoredBlock) (l : List ScoredBlock) :
    List.Perm (insertDesc x l) (x :: l) := by
  induction l with
  | nil => simp [insertDesc]
  | cons y l ih =>
    simp only [insertDesc]
    split
    · exact List.Perm.refl _
    · exact (List.Perm.cons y ih).trans (List.Perm.swap x y l)

lemma sortDesc_perm (l : List ScoredBlock) : List.Perm (sortDesc l) l := by
  induction l with
  | nil => simp [sortDesc]
  | cons x l ih =>
    simp only [sortDesc]
    exact (insertDesc_perm x (sortDesc l)).trans (List.Perm.cons x ih)

lemma insertDesc_sorted (x : ScoredBlock) (l : List ScoredBlock)
    (hl : List.Pairwise (fun a b => b.score ≤ a.score) l) :
    List.Pairwise (fun a b => b.score ≤ a.score) (insertDesc x l) := by
  induction l with
  | nil => simp [insertDesc]
  | cons y l ih =>
    rcases List.pairwise_cons.mp hl with ⟨hy, hl'⟩
    simp only [insertDesc]
    split
    · rename_i hle
      refine List.pairwise_cons.mpr ⟨?_, hl⟩
      intro z hz
      rcases List.mem_cons.mp hz with rfl | hz'
      · exact hle
      · exact (hy z hz').trans hle
    · rename_i hgt
      push_neg at hgt
      refine List.pairwise_cons.mpr ⟨?_, ih hl'⟩
      intro z hz
      rcases List.mem_cons.mp ((insertDesc_perm x l).mem_iff.mp hz) with rfl | hz'
      · exact Int.le_of_lt hgt
      · exact hy z hz'

lemma sortDesc_sorted (l : List ScoredBlock) :
    List.Pairwise (fun a b => b.score ≤ a.score) (sortDesc l) := by
  induction l with
  | nil => simp [sortDesc]
  | cons x l ih => exact insertDesc_sorted x (sortDesc l) ih

lemma filter_insertDesc (x : ScoredBlock) (l : List ScoredBlock) (v : Int) :
    (insertDesc x l).filter (fun s => s.score = v)
      = if x.score = v then x :: l.filter (fun s => s.score = v)
        else l.filter (fun s => s.score = v) := by
  induction l with
  | nil => simp [insertDesc, List.filter_cons]
  | cons y l ih =>
    simp only [insertDesc]
    split
    · rename_i hle
      by_cases hx : x.score = v <;> simp [List.filter_cons, hx]
    · rename_i hgt
      push_neg at hgt
      by_cases hx : x.score = v
      · have hy : ¬ (y.score = v) := by intro h; rw [h, hx] at hgt; omega
        simp [List.filter_cons, hx, hy, ih]
      · by_cases hy : y.score = v <;> simp [List.filter_cons, hx, hy, ih]

lemma sortDesc_filter_score (l : List ScoredBlock) (v : Int) :
    (sortDesc l).filter (fun s => s.score = v) = l.filter (fun s => s.score = v) := by
  induction l with
  | nil => simp [sortDesc]
  | cons x l ih =>
    simp only [sortDesc]
    rw [filter_insertDesc, ih, List.filter_cons]
    by_cases hx : x.score = v <;> simp [hx]

/-- The tie-break `reduce`: the result is an element of the list, has the
minimal `hc` value, and is the first element attaining that minimum. -/
lemma foldlMin_spec (hc : ScoredBlock → Nat) :
    ∀ (ts : List ScoredBlock) (t0 : ScoredBlock),
      (ts.foldl (fun prev curr => if hc curr < hc prev then curr else prev) t0)
          ∈ t0 :: ts ∧
      (∀ v ∈ t0 :: ts,
        hc (ts.foldl (fun prev curr => if hc curr < hc prev then curr else prev) t0)
          ≤ hc v) ∧
      (t0 :: ts).find? (fun v =>
          hc v = hc (ts.foldl
            (fun prev curr => if hc curr < hc prev then curr else prev) t0))
        = some (ts.foldl (fun prev curr => if hc curr < hc prev then curr else prev) t0) := by
  intro ts
  induction ts with
  | nil =>
    intro t0
    refine ⟨by simp, by simp, ?_⟩
    rw [List.find?_cons_of_pos _ (by simp)]
    rfl
  | cons c ts ih =>
    intro t0
    simp only [List.foldl_cons]
    by_cases hlt : hc c < hc t0
    · simp only [if_pos hlt]
      obtain ⟨m1, m2, m3⟩ := ih c
      have hwle : hc (ts.foldl
          (fun prev curr => if hc curr < hc prev then curr else prev) c) ≤ hc c :=
        m2 c (List.mem_cons_self c ts)
      refine ⟨List.mem_cons_of_mem t0 m1, ?_, ?_⟩
      · intro v hv
        rcases List.mem_cons.mp hv with rfl | hv'
        · exact hwle.trans (Nat.le_of_lt hlt)
        · exact m2 v hv'
      · rw [List.find?_cons_of_neg _ (by simp only [decide_eq_true_eq]; omega)]
        exact m3
    · simp only [if_neg hlt]
      push_neg at hlt
      obtain ⟨m1, m2, m3⟩ := ih t0
      have hwle : hc (ts.foldl
          (fun prev curr => if hc curr < hc prev then curr else prev) t0) ≤ hc t0 :=
        m2 t0 (List.mem_cons_self t0 ts)
      refine ⟨?_, ?_, ?_⟩
      · rcases List.mem_cons.mp m1 with hm | hm
        · rw [hm]
          exact List.mem_cons_self _ _
        · exact List.mem_cons_of_mem _ (List.mem_cons_of_mem _ hm)
      · intro v hv
        rcases List.mem_cons.mp hv with rfl | hv'
        · exact m2 v (List.mem_cons_self _ _)
        · rcases List.mem_cons.mp hv' with rfl | hv''
          · exact hwle.trans hlt
          · exact m2 v (List.mem_cons_of_mem _ hv'')
      · by_cases ht0 : hc t0 = hc (ts.foldl
            (fun prev curr => if hc curr < hc prev then curr else prev) t0)
        · rw [List.find?_cons_of_pos _ (by simp only [decide_eq_true_eq]; omega)]
          rw [List.find?_cons_of_pos _ (by simp only [decide_eq_true_eq]; omega)] at m3
          exact m3
        · rw [List.find?_cons_of_neg _ (by simp only [decide_eq_true_eq]; omega)] at m3
          rw [List.find?_cons_of_neg _ (by simp only [decide_eq_true_eq]; omega)]
          rw [List.find?_cons_of_neg _ (by simp only [decide_eq_true_eq]; omega)]
          exact m3

lemma extractBodyBlocks_cons2 (t : List Char) (b1 b2 : TextBlock) (bs : List TextBlock)
    (hblocks : extractBalancedBlocks t = b1 :: b2 :: bs)
    (s0 s1 : ScoredBlock) (rest : List ScoredBlock)
    (hsorted : sortDesc ((b1 :: b2 :: bs).map scoreBlock) = s0 :: s1 :: rest) :
    extractBodyBlocks t =
      if s1.score < s0.score then some s0.block.content
      else
        match (s0 :: s1 :: rest).filter (fun s => s.score = s0.score) with
        | t0 :: ts =>
          some ((ts.foldl (fun prev curr =>
            if headerKeyCount curr < headerKeyCount prev then curr else prev)
              t0).block.content)
        | [] => some s0.block.content := by
  unfold extractBodyBlocks
  rw [hblocks]
  simp only [hsorted]

/-- C8: when the logfmt fast path misses and the text has at least two
top-level blocks whose top score `M` is shared by two or more scored
blocks, `extractBody` returns the content of a tied block `w` that has
the fewest header-vocabulary key matches among the tied blocks, and that
is the earliest block in scan order among the tied blocks attaining that
count (the tied list below is in scan order, since it filters the
scan-ordered block list). -/
theorem c8_tie_break :
    ∀ (t : List Char) (M : Int),
      extractBodyFromKeyValue t = none →
      (∀ s ∈ (extractBalancedBlocks t).map scoreBlock, s.score ≤ M) →
      2 ≤ (((extractBalancedBlocks t).map scoreBlock).filter
            (fun s => s.score = M)).length →
      ∃ w ∈ ((extractBalancedBlocks t).map scoreBlock).filter (fun s => s.score = M),
        extractBody t = some w.block.content ∧
        (∀ v ∈ ((extractBalancedBlocks t).map scoreBlock).filter
            (fun s => s.score = M), headerKeyCount w ≤ headerKeyCount v) ∧
        (((extractBalancedBlocks t).map scoreBlock).filter
            (fun s => s.score = M)).find?
              (fun v => headerKeyCount v = headerKeyCount w) = some w := by
  intro t M hkv hmax htie
  have hlen : 2 ≤ (extractBalancedBlocks t).length := by
    calc 2 ≤ (((extractBalancedBlocks t).map scoreBlock).filter
          (fun s => s.score = M)).length := htie
      _ ≤ ((extractBalancedBlocks t).map scoreBlock).length :=
          List.length_filter_le _ _
      _ = (extractBalancedBlocks t).length := List.length_map _ _
  cases hblocks : extractBalancedBlocks t with
  | nil => rw [hblocks] at hlen; simp at hlen
  | cons b1 rest1 =>
    cases rest1 with
    | nil => rw [hblocks] at hlen; simp at hlen
    | cons b2 bs =>
      rw [hblocks] at hmax htie
      have hperm := sortDesc_perm ((b1 :: b2 :: bs).map scoreBlock)
      obtain ⟨s0, s1, srest, hsorted⟩ : ∃ s0 s1 srest,
          sortDesc ((b1 :: b2 :: bs).map scoreBlock) = s0 :: s1 :: srest := by
        have h2 : 2 ≤ (sortDesc ((b1 :: b2 :: bs).map scoreBlock)).length := by
          rw [hperm.length_eq]
          simp
        cases hS : sortDesc ((b1 :: b2 :: bs).map scoreBlock) with
        | nil => rw [hS] at h2; simp at h2
        | cons a as =>
          cases as with
          | nil => rw [hS] at h2; simp at h2
          | cons a2 as2 => exact ⟨a, a2, as2, rfl⟩
      have hpair := sortDesc_sorted ((b1 :: b2 :: bs).map scoreBlock)
      rw [hsorted] at hpair
      rcases List.pairwise_cons.mp hpair with ⟨hs0ge, hpair1⟩
      rcases List.pairwise_cons.mp hpair1 with ⟨hs1ge, _⟩
      have htiedne : (((b1 :: b2 :: bs).map scoreBlock).filter
          (fun s => s.score = M)) ≠ [] := by
        intro h
        rw [h] at htie
        simp at htie
      obtain ⟨u, hu⟩ := List.exists_mem_of_ne_nil _ htiedne
      have humem : u ∈ (b1 :: b2 :: bs).map scoreBlock := List.mem_of_mem_filter hu
      have huM : u.score = M := by
        have := List.of_mem_filter hu
        simpa using this
      have hs0 : s0.score = M := by
        have hs0mem : s0 ∈ sortDesc ((b1 :: b2 :: bs).map scoreBlock) := by
          rw [hsorted]
          exact List.mem_cons_self _ _
        have hle : s0.score ≤ M := hmax s0 (hperm.mem_iff.mp hs0mem)
        have husorted : u ∈ sortDesc ((b1 :: b2 :: bs).map scoreBlock) :=
          hperm.mem_iff.mpr humem
        rw [hsorted] at husorted
        rcases List.mem_cons.mp husorted with rfl | hu2
        · omega
        · have := hs0ge u hu2
          omega
      have hs1 : s1.score = M := by
        have hs1mem : s1 ∈ sortDesc ((b1 :: b2 :: bs).map scoreBlock) := by
          rw [hsorted]
          exact List.mem_cons_of_mem _ (List.mem_cons_self _ _)
        have hle : s1.score ≤ M := hmax s1 (hperm.mem_iff.mp hs1mem)
        have hfilt : (sortDesc ((b1 :: b2 :: bs).map scoreBlock)).filter
              (fun s => s.score = M)
            = ((b1 :: b2 :: bs).map scoreBlock).filter (fun s => s.score = M) :=
          sortDesc_filter_score _ M
        rw [hsorted, List.filter_cons, if_pos (by simp [hs0])] at hfilt
        have hlen1 : 1 ≤ ((s1 :: srest).filter (fun s => s.score = M)).length := by
          have := congrArg List.length hfilt
          simp only [List.length_cons] at this
          omega
        have hne : ((s1 :: srest).filter (fun s => s.score = M)) ≠ [] := by
          intro h
          rw [h] at hlen1
          simp at hlen1
        obtain ⟨u2, hu2⟩ := List.exists_mem_of_ne_nil _ hne
        have hu2mem := List.mem_of_mem_filter hu2
        have hu2M : u2.score = M := by simpa using List.of_mem_filter hu2
        rcases List.mem_cons.mp hu2mem with rfl | hu2t
        · omega
        · have := hs1ge u2 hu2t
          omega
      have hfiltcode : (s0 :: s1 :: srest).filter (fun s => s.score = s0.score)
          = ((b1 :: b2 :: bs).map scoreBlock).filter (fun s => s.score = M) := by
        rw [hs0, ← hsorted]
        exact sortDesc_filter_score _ M
      have hbody : extractBody t = extractBodyBlocks t := by
        unfold extractBody
        rw [hkv]
      cases hT : ((b1 :: b2 :: bs).map scoreBlock).filter (fun s => s.score = M) with
      | nil => exact absurd hT htiedne
      | cons t0 ts =>
        obtain ⟨m1, m2, m3⟩ := foldlMin_spec headerKeyCount ts t0
        refine ⟨ts.foldl (fun prev curr =>
            if headerKeyCount curr < headerKeyCount prev then curr else prev) t0,
          ?_, ?_, ?_, ?_⟩
        · exact m1
        · rw [hbody, extractBodyBlocks_cons2 t b1 b2 bs hblocks s0 s1 srest hsorted,
            if_neg (by omega), hfiltcode, hT]
        · intro v hv
          exact m2 v hv
        · exact m3

/-- C8 witness: two blocks that both score 5 (each contains a
header-vocabulary key, so neither earns the no-header bonus), with 1
and 2 header keys respectively; the one with fewer header keys wins the
tie. -/
theorem c8_witness :
    extractBody ("{host: 1, a: 2, b: 3} {host: 1, cookie: 2, a: 3, b: 4, c: 5}".toList)
      = some ("{host: 1, a: 2, b: 3}".toList) := by
  obtain ⟨w, hmem, hbody, hmin, _⟩ :=
    c8_tie_break
      ("{host: 1, a: 2, b: 3} {host: 1, cookie: 2, a: 3, b: 4, c: 5}".toList) 5
      (by decide) (by decide) (by decide)
  have hlist :
      ((extractBalancedBlocks
          ("{host: 1, a: 2, b: 3} {host: 1, cookie: 2, a: 3, b: 4, c: 5}".toList)).map
            scoreBlock).filter (fun s => s.score = 5)
        = [scoreBlock ⟨"{host: 1, a: 2, b: 3}".toList, 0, 20, []⟩,
           scoreBlock ⟨"{host: 1, cookie: 2, a: 3, b: 4, c: 5}".toList, 22, 59,
             "{host: 1, a: 2, b: 3} ".toList⟩] := by decide
  rw [hlist] at hmem hmin
  rcases List.mem_cons.mp hmem with rfl | hmem2
  · rw [hbody]
    rfl
  · rcases List.mem_cons.mp hmem2 with rfl | hmem3
    · have h1 := hmin (scoreBlock ⟨"{host: 1, a: 2, b: 3}".toList, 0, 20, []⟩)
        (List.mem_cons_self _ _)
      exact absurd h1 (by decide)
    · simp at hmem3

-- ==================== JSON values ====================
-- The values produced by `JSON.parse` are modelled by this inductive
-- type.  Numbers are kept as their exact source numerals (a `List Char`
-- satisfying the JSON number grammar) rather than IEEE doubles: the
-- serializer prints the numeral verbatim, which is value-preserving and
-- makes the parse/serialize round trip exact.  Strings are lists of
-- Unicode scalar values.

/-- A JSON value as produced by the strict parser. -/
inductive Json where
  | null : Json
  | bool (b : Bool) : Json
  | num (numeral : List Char) : Json
  | str (s : List Char) : Json
  | arr (elems : List Json) : Json
  | obj (members : List (List Char × Json)) : Json
  deriving Repr

mutual

/-- Boolean equality of JSON values. -/
def jsonBEq : Json → Json → Bool
  | .null, .null => true
  | .bool a, .bool b => a == b
  | .num a, .num b => a == b
  | .str a, .str b => a == b
  | .arr a, .arr b => jsonListBEq a b
  | .obj a, .obj b => jsonMembersBEq a b
  | _, _ => false

/-- Boolean equality of JSON value lists. -/
def jsonListBEq : List Json → List Json → Bool
  | [], [] => true
  | a :: as, b :: bs => jsonBEq a b && jsonListBEq as bs
  | _, _ => false

/-- Boolean equality of JSON member lists. -/
def jsonMembersBEq : List (List Char × Json) → List (List Char × Json) → Bool
  | [], [] => true
  | (k1, v1) :: as, (k2, v2) :: bs => k1 == k2 && jsonBEq v1 v2 && jsonMembersBEq as bs
  | _, _ => false

end

mutual

lemma jsonBEq_iff : ∀ a b : Json, jsonBEq a b = true ↔ a = b
  | .null, .null => by simp [jsonBEq]
  | .null, .bool _ | .null, .num _ | .null, .str _ | .null, .arr _ | .null, .obj _ => by
    simp [jsonBEq]
  | .bool _, .null | .bool _, .num _ | .bool _, .str _ | .bool _, .arr _
  | .bool _, .obj _ => by simp [jsonBEq]
  | .num _, .null | .num _, .bool _ | .num _, .str _ | .num _, .arr _
  | .num _, .obj _ => by simp [jsonBEq]
  | .str _, .null | .str _, .bool _ | .str _, .num _ | .str _, .arr _
  | .str _, .obj _ => by simp [jsonBEq]
  | .arr _, .null | .arr _, .bool _ | .arr _, .num _ | .arr _, .str _
  | .arr _, .obj _ => by simp [jsonBEq]
  | .obj _, .null | .obj _, .bool _ | .obj _, .num _ | .obj _, .str _
  | .obj _, .arr _ => by simp [jsonBEq]
  | .bool a, .bool b => by simp [jsonBEq]
  | .num a, .num b => by simp [jsonBEq]
  | .str a, .str b => by simp [jsonBEq]
  | .arr a, .arr b => by
    simp only [jsonBEq, Json.arr.injEq]
    exact jsonListBEq_iff a b
  | .obj a, .obj b => by
    simp only [jsonBEq, Json.obj.injEq]
    exact jsonMembersBEq_iff a b

lemma jsonListBEq_iff : ∀ as bs : List Json, jsonListBEq as bs = true ↔ as = bs
  | [], [] => by simp [jsonListBEq]
  | [], _ :: _ => by simp [jsonListBEq]
  | _ :: _, [] => by simp [jsonListBEq]
  | a :: as, b :: bs => by
    simp only [jsonListBEq, Bool.and_eq_true, List.cons.injEq]
    rw [jsonBEq_iff a b, jsonListBEq_iff as bs]

lemma jsonMembersBEq_iff :
    ∀ as bs : List (List Char × Json), jsonMembersBEq as bs = true ↔ as = bs
  | [], [] => by simp [jsonMembersBEq]
  | [], _ :: _ => by simp [jsonMembersBEq]
  | _ :: _, [] => by simp [jsonMembersBEq]
  | (k1, v1) :: as, (k2, v2) :: bs => by
    simp only [jsonMembersBEq, Bool.and_eq_true, List.cons.injEq, Prod.mk.injEq,
      beq_iff_eq]
    rw [jsonBEq_iff v1 v2, jsonMembersBEq_iff as bs]

end

instance : DecidableEq Json := fun a b => decidable_of_iff _ (jsonBEq_iff a b)

-- ==================== Body unwrapping ====================
-- Source: src/extractors.ts, `unwrapBodyIfNeeded` (lines 541-571).

/-- The `CONFIG_INDICATORS` list (src 551-554). -/
def CONFIG_INDICATORS : List (List Char) :=
  ["method".toList, "url".toList, "baseurl".toList, "headers".toList,
   "timeout".toList, "responsetype".toList]

/-- The `BODY_KEYS` list (src 562). -/
def BODY_KEYS : List (List Char) :=
  ["body".toList, "data".toList, "payload".toList, "requestbody".toList,
   "request_body".toList]

/-- JavaScript `typeof v === 'object' && v !== null`: true exactly for
arrays and plain objects among JSON values (`null` has typeof `object`
but is excluded by the explicit null check). -/
def isObjTypeof : Json → Bool
  | .arr _ => true
  | .obj _ => true
  | _ => false

/-- Number of config-indicator names present (case-insensitively) among
the object's keys. -/
def configIndicatorCount (kvs : List (List Char × Json)) : Nat :=
  (CONFIG_INDICATORS.filter
    (fun ci => ((kvs.map (·.1)).map (fun k => k.map lowerChar)).contains ci)).length

/-- One step of the body-key loop as the source performs it: find the
first key name whose lower-casing is `bk`, then read that property and
accept it when it is a non-null object. -/
def bodyProbe (kvs : List (List Char × Json)) (bk : List Char) : Option Json :=
  ((kvs.map (·.1)).find? (fun k => k.map lowerChar = bk)).bind (fun realKey =>
    (kvs.find? (fun kv => kv.1 = realKey)).bind (fun kv =>
      if isObjTypeof kv.2 then some kv.2 else none))

/-- Embedding of `unwrapBodyIfNeeded` (src/extractors.ts 541-571). -/
def unwrapBodyIfNeeded (parsed : Json) : Json :=
  match parsed with
  | .obj kvs =>
    if configIndicatorCount kvs < 2 then parsed
    else (BODY_KEYS.findSome? (bodyProbe kvs)).getD parsed
  | v => v

/-- The claim-side reading of the body-key search: the value of the
first body-like key (list order, a key matching case-insensitively)
whose value is a non-null object. -/
def bodyProbeSpec (kvs : List (List Char × Json)) (bk : List Char) : Option Json :=
  (kvs.find? (fun kv => kv.1.map lowerChar = bk)).bind (fun kv =>
    if isObjTypeof kv.2 then some kv.2 else none)

/-- Claim-side restatement of the unwrapping contract of C7. -/
def unwrapSpec (v : Json) : Json :=
  match v with
  | .obj kvs =>
    if configIndicatorCount kvs < 2 then v
    else (BODY_KEYS.findSome? (bodyProbeSpec kvs)).getD v
  | v => v

/-- The first body-like binding regardless of its type (C10's premise:
the first matching body-like key's value). -/
def firstBodyBinding (kvs : List (List Char × Json)) : Option Json :=
  BODY_KEYS.findSome?
    (fun bk => (kvs.find? (fun kv => kv.1.map lowerChar = bk)).map (·.2))

lemma bodyProbe_eq_spec (bk : List Char) :
    ∀ kvs : List (List Char × Json), bodyProbe kvs bk = bodyProbeSpec kvs bk := by
  intro kvs
  induction kvs with
  | nil => rfl
  | cons kv kvs ih =>
    obtain ⟨k, v⟩ := kv
    by_cases hk : k.map lowerChar = bk
    · simp only [bodyProbe, bodyProbeSpec, List.map_cons]
      rw [List.find?_cons_of_pos _ (by simp [hk]),
        List.find?_cons_of_pos _ (by simp [hk])]
      simp only [Option.some_bind]
      rw [List.find?_cons_of_pos _ (by simp)]
      simp
    · simp only [bodyProbe, bodyProbeSpec, List.map_cons]
      rw [List.find?_cons_of_neg _ (by simp [hk]),
        List.find?_cons_of_neg _ (by simp [hk])]
      rw [show ((kvs.find? (fun kv => kv.1.map lowerChar = bk)).bind (fun kv =>
          if isObjTypeof kv.2 then some kv.2 else none)) = bodyProbeSpec kvs bk
          from rfl, ← ih]
      simp only [bodyProbe]
      cases hfind : (kvs.map (·.1)).find? (fun kk => kk.map lowerChar = bk) with
      | none => simp
      | some realKey =>
        have hrk : realKey.map lowerChar = bk := by
          simpa using List.find?_some hfind
        have hne : ¬ (k = realKey) := fun h => hk (h ▸ hrk)
        simp only [Option.some_bind]
        rw [List.find?_cons_of_neg _ (by simp [hne])]

/-- C7: `unwrapBodyIfNeeded` returns non-object inputs (arrays,
primitives, null) unchanged; returns an object unchanged when fewer than
2 config-indicator keys appear (case-insensitively) among its keys; and
otherwise returns the value of the first body-like key whose value is a
non-null object, or the object unchanged when no such value exists —
stated as equality with the claim-side `unwrapSpec` on every input. -/
theorem c7_unwrap_contract : ∀ v : Json, unwrapBodyIfNeeded v = unwrapSpec v := by
  intro v
  cases v with
  | obj kvs =>
    simp only [unwrapBodyIfNeeded, unwrapSpec]
    have h : bodyProbe kvs = bodyProbeSpec kvs :=
      funext (fun bk => bodyProbe_eq_spec bk kvs)
    rw [h]
  | null => rfl
  | bool b => rfl
  | num n => rfl
  | str s => rfl
  | arr xs => rfl

lemma findSome?_binding_arr :
    ∀ (bks : List (List Char)) (kvs : List (List Char × Json)) (xs : List Json),
      bks.findSome?
          (fun bk => (kvs.find? (fun kv => kv.1.map lowerChar = bk)).map (·.2))
        = some (Json.arr xs) →
      bks.findSome? (bodyProbeSpec kvs) = some (Json.arr xs) := by
  intro bks
  induction bks with
  | nil => intro kvs xs h; simp [List.findSome?] at h
  | cons bk bks ih =>
    intro kvs xs h
    rw [List.findSome?_cons] at h
    rw [List.findSome?_cons]
    cases hfind : kvs.find? (fun kv => kv.1.map lowerChar = bk) with
    | none =>
      rw [hfind] at h
      simp only [Option.map_none'] at h
      have hrest : bodyProbeSpec kvs bk = none := by
        simp [bodyProbeSpec, hfind]
      rw [hrest]
      exact ih kvs xs h
    | some kv =>
      rw [hfind] at h
      simp only [Option.map_some'] at h
      rw [Option.some.injEq] at h
      have hstep : bodyProbeSpec kvs bk = some (Json.arr xs) := by
        simp [bodyProbeSpec, hfind, h, isObjTypeof]
      rw [hstep]

/-- C10 (implicit): when an object has at least 2 config-indicator keys
and its first matching body-like key is bound to a JSON array, the
unwrapper returns that array — the nested-value check accepts any
non-null value of JavaScript typeof `object`, arrays included. -/
theorem c10_unwrap_accepts_arrays :
    ∀ (kvs : List (List Char × Json)) (xs : List Json),
      2 ≤ configIndicatorCount kvs →
      firstBodyBinding kvs = some (Json.arr xs) →
      unwrapBodyIfNeeded (Json.obj kvs) = Json.arr xs := by
  intro kvs xs hcfg hbind
  simp only [unwrapBodyIfNeeded]
  rw [if_neg (by omega)]
  have h : bodyProbe kvs = bodyProbeSpec kvs :=
    funext (fun bk => bodyProbe_eq_spec bk kvs)
  rw [h, findSome?_binding_arr BODY_KEYS kvs xs hbind]
  rfl

/-- C10 witness: an axios-style config wrapper whose `data` key holds an
array is unwrapped to that array. -/
theorem c10_witness :
    2 ≤ configIndicatorCount
        [("method".toList, Json.str "post".toList),
         ("url".toList, Json.str "u".toList),
         ("data".toList, Json.arr [Json.num "1".toList])] ∧
    firstBodyBinding
        [("method".toList, Json.str "post".toList),
         ("url".toList, Json.str "u".toList),
         ("data".toList, Json.arr [Json.num "1".toList])]
      = some (Json.arr [Json.num "1".toList]) ∧
    unwrapBodyIfNeeded (Json.obj
        [("method".toList, Json.str "post".toList),
         ("url".toList, Json.str "u".toList),
         ("data".toList, Json.arr [Json.num "1".toList])])
      = Json.arr [Json.num "1".toList] :=
  ⟨by decide, by decide,
    c10_unwrap_accepts_arrays _ _ (by decide) (by decide)⟩

-- ==================== URL extraction ====================
-- Source: src/extractors.ts, `extractUrl` (lines 42-89).

/-- Generic leftmost-match regex search: try the matcher at every
position, tracking the previous character for `\b` checks. -/
def reSearch (tryAt : Option Char → List Char → Option (List Char)) :
    Option Char → List Char → Option (List Char)
  | _, [] => none
  | prev, c :: cs =>
    match tryAt prev (c :: cs) with
    | some r => some r
    | none => reSearch tryAt (some c) cs

/-- Word-boundary test before a pattern that starts with a word
character. -/
def boundaryOk (prev : Option Char) : Bool :=
  match prev with
  | none => true
  | some p => !(isWordChar p)

/-- Case-insensitive literal matching that returns the original matched
characters (needed when the match is captured verbatim). -/
def takeLitIC : List Char → List Char → Option (List Char × List Char)
  | [], s => some ([], s)
  | _ :: _, [] => none
  | p :: ps, c :: cs =>
    if charIC c p then (takeLitIC ps cs).map (fun m => (c :: m.1, m.2)) else none

/-- Matcher for the captured group `(https?:\/\/\S+)` under the `i`
flag; the capture preserves the original character case. -/
def matchHttpUrlIC (s : List Char) : Option (List Char) := do
  let (m1, s) ← takeLitIC "http".toList s
  let (m2, s) :=
    match s with
    | c :: cs => if charIC c 's' then ([c], cs) else ([], c :: cs)
    | [] => ([], [])
  let (m3, s) ← takeLitIC "://".toList s
  let run := s.takeWhile (fun c => !(jsWs c))
  if run.isEmpty then none else some (m1 ++ m2 ++ m3 ++ run)

/-- Suffix trim `replace(/[,;'")\]}>]+$/, '')`. -/
def trimPunct (u : List Char) : List Char :=
  (u.reverse.dropWhile (fun c =>
    c = ',' ∨ c = ';' ∨ c = squote ∨ c = dquote ∨ c = ')' ∨ c = ']' ∨ c = '}' ∨
      c = '>')).reverse

/-- Suffix trim `replace(/[,;'")\]}>\/]+$/, '')` (the BASE URL variant,
which also trims trailing slashes). -/
def trimPunctSlash (u : List Char) : List Char :=
  (u.reverse.dropWhile (fun c =>
    c = ',' ∨ c = ';' ∨ c = squote ∨ c = dquote ∨ c = ')' ∨ c = ']' ∨ c = '}' ∨
      c = '>' ∨ c = '/')).reverse

/-- One attempt of `/\b(?:FULL\s+URL|REQUEST\s+URL|ENDPOINT)\s*:\s*(https?:\/\/\S+)/i`. -/
def labeledUrlTry (prev : Option Char) (s : List Char) : Option (List Char) :=
  if boundaryOk prev then
    let afterLabel := fun (t : List Char) => do
      let t := stripMany jsWs t
      let t ← stripClass (· = ':') t
      let t := stripMany jsWs t
      matchHttpUrlIC t
    let alt1 := do
      let t ← stripLitIC "full".toList s
      let t ← stripMany1 jsWs t
      let t ← stripLitIC "url".toList t
      afterLabel t
    let alt2 := do
      let t ← stripLitIC "request".toList s
      let t ← stripMany1 jsWs t
      let t ← stripLitIC "url".toList t
      afterLabel t
    let alt3 := do
      let t ← stripLitIC "endpoint".toList s
      afterLabel t
    (alt1.orElse (fun _ => alt2)).orElse (fun _ => alt3)
  else none

/-- One attempt of `/\bBASE\s+URL\s*:\s*(https?:\/\/\S+)/i`. -/
def baseUrlTry (prev : Option Char) (s : List Char) : Option (List Char) :=
  if boundaryOk prev then do
    let t ← stripLitIC "base".toList s
    let t ← stripMany1 jsWs t
    let t ← stripLitIC "url".toList t
    let t := stripMany jsWs t
    let t ← stripClass (· = ':') t
    let t := stripMany jsWs t
    matchHttpUrlIC t
  else none

/-- One attempt of `/\bPATH\s*:\s*(\/\S*)/i`. -/
def pathLabelTry (prev : Option Char) (s : List Char) : Option (List Char) :=
  if boundaryOk prev then do
    let t ← stripLitIC "path".toList s
    let t := stripMany jsWs t
    let t ← stripClass (· = ':') t
    let t := stripMany jsWs t
    match t with
    | '/' :: cs => some ('/' :: cs.takeWhile (fun c => !(jsWs c)))
    | _ => none
  else none

/-- URL character class of the raw-URL pattern (case-sensitive):
`[a-zA-Z0-9\-._~:/?#\[\]@!$&'()*+,;=%]`. -/
def isUrlChar (c : Char) : Bool :=
  ('a' ≤ c ∧ c ≤ 'z') ∨ ('A' ≤ c ∧ c ≤ 'Z') ∨ ('0' ≤ c ∧ c ≤ '9') ∨
  c = '-' ∨ c = '.' ∨ c = '_' ∨ c = '~' ∨ c = ':' ∨ c = '/' ∨ c = '?' ∨ c = '#' ∨
  c = '[' ∨ c = ']' ∨ c = '@' ∨ c = '!' ∨ c = '$' ∨ c = '&' ∨ c = squote ∨
  c = '(' ∨ c = ')' ∨ c = '*' ∨ c = '+' ∨ c = ',' ∨ c = ';' ∨ c = '=' ∨ c = '%'

/-- One attempt of the case-sensitive raw pattern
`/https?:\/\/[a-zA-Z0-9\-._~:/?#\[\]@!$&'()*+,;=%]+/` (no `\b`). -/
def rawUrlTry (_prev : Option Char) (s : List Char) : Option (List Char) := do
  let s1 ← stripLit "http".toList s
  let (ms, s2) :=
    match s1 with
    | 's' :: cs => (['s'], cs)
    | other => (([] : List Char), other)
  let s3 ← stripLit "://".toList s2
  let run := s3.takeWhile isUrlChar
  if run.isEmpty then none else some ("http".toList ++ ms ++ "://".toList ++ run)

/-- HTTP verbs of the request-line pattern, in source order. -/
def HTTP_VERBS : List (List Char) :=
  ["get".toList, "post".toList, "put".toList, "patch".toList, "delete".toList,
   "head".toList, "options".toList]

/-- One attempt of
`/\b(?:GET|POST|PUT|PATCH|DELETE|HEAD|OPTIONS)\s+(\/\S+)\s+HTTP/i`. -/
def reqLineTry (prev : Option Char) (s : List Char) : Option (List Char) :=
  if boundaryOk prev then
    HTTP_VERBS.findSome? (fun verb => do
      let t ← stripLitIC verb s
      let t ← stripMany1 jsWs t
      match t with
      | '/' :: cs =>
        let run := cs.takeWhile (fun c => !(jsWs c))
        if run.isEmpty then none
        else do
          let t2 ← stripMany1 jsWs (cs.drop run.length)
          let _ ← stripLitIC "http".toList t2
          pure ('/' :: run)
      | _ => none)
  else none

/-- Host character class `[a-zA-Z0-9\-._]`. -/
def isHostChar (c : Char) : Bool :=
  ('a' ≤ c ∧ c ≤ 'z') ∨ ('A' ≤ c ∧ c ≤ 'Z') ∨ ('0' ≤ c ∧ c ≤ '9') ∨
  c = '-' ∨ c = '.' ∨ c = '_'

/-- One attempt of
`/\b(?:host|server_name|server)\s*[:=]\s*"?([a-zA-Z0-9\-._]+(?::\d+)?)"?/i`
(alternatives tried in source order, with the optional `:port` group
consumed greedily when present). -/
def hostTry (prev : Option Char) (s : List Char) : Option (List Char) :=
  if boundaryOk prev then
    let afterLabel := fun (t : List Char) => do
      let t := stripMany jsWs t
      let t ← stripClass (fun c => c = ':' ∨ c = '=') t
      let t := stripMany jsWs t
      let t := (stripClass (· = dquote) t).getD t
      let run := t.takeWhile isHostChar
      if run.isEmpty then none
      else
        let rest := t.drop run.length
        match rest with
        | ':' :: d :: _ =>
          if isDigitChar d then
            some (run ++ ':' :: (rest.drop 1).takeWhile isDigitChar)
          else some run
        | _ => some run
    let alt1 := (stripLitIC "host".toList s).bind afterLabel
    let alt2 := (stripLitIC "server_name".toList s).bind afterLabel
    let alt3 := (stripLitIC "server".toList s).bind afterLabel
    (alt1.orElse (fun _ => alt2)).orElse (fun _ => alt3)
  else none

/-- The `/:\d*80$/` scheme test of the reconstruction stage. -/
def endsPort80 (h : List Char) : Bool :=
  match stripLit ('0' :: '8' :: []) h.reverse with
  | none => false
  | some v =>
    match stripMany isDigitChar v with
    | ':' :: _ => true
    | _ => false

/-- Embedding of `extractUrl` (src/extractors.ts 42-89). -/
def extractUrl (t : List Char) : Option (List Char) :=
  match reSearch labeledUrlTry none t with
  | some u => some (trimPunct u)
  | none =>
  match reSearch baseUrlTry none t with
  | some b =>
    let base := trimPunctSlash b
    let path :=
      match reSearch pathLabelTry none t with
      | some p => trimPunct p
      | none => []
    some (base ++ path)
  | none =>
  match reSearch rawUrlTry none t with
  | some u => some (trimPunct u)
  | none =>
  match reSearch reqLineTry none t, reSearch hostTry none t with
  | some p, some h =>
    some ((if endsPort80 h then "http".toList else "https".toList) ++
      "://".toList ++ h ++ p)
  | none, some h => some ("https://".toList ++ h)
  | _, _ => none

example :
    extractUrl ("FULL URL: https://api.example.com/v1/login,".toList)
      = some ("https://api.example.com/v1/login".toList) := by decide
example :
    extractUrl ("BASE URL: https://api.example.com/ PATH: /v1/x".toList)
      = some ("https://api.example.com/v1/x".toList) := by decide
example :
    extractUrl ("see http://ex.com/a?б=1 end".toList)
      = some ("http://ex.com/a?".toList) := by decide
example :
    extractUrl ("host=api.svc.local request done".toList)
      = some ("https://api.svc.local".toList) := by decide
example : extractUrl ("no url at all".toList) = none := by decide

/-- C5 counterexample: at the reconstruction stage the scheme test is
the regex `/:\d*80$/`, which also matches hosts ending in `:8080` (and
`:180`, ...), not only a literal `:80` suffix.  On this input the code
returns an `http` URL although the host does not end with `:80`. -/
theorem c5_counterexample :
    extractUrl ("GET /api HTTP/1.1 host=api.example.com:8080".toList)
      = some ("http://api.example.com:8080/api".toList) ∧
    (":80".toList).isSuffixOf ("api.example.com:8080".toList) = false := by
  refine ⟨by decide, by decide⟩

/-- C5 (amended): when `extractUrl` reaches the reconstruction stage (no
labeled URL, no BASE URL label, and no raw `http(s)://` token) and both
an HTTP request-line path and a host field are found, it returns
`scheme://host + path` where the scheme is `http` exactly when the host
matches `/:\d*80$/` — a colon followed by digits ending in `80` (so
`:80`, but also `:8080`, `:180`, ...) — and `https` otherwise; when only
a host field is found, it returns `https://host`. -/
theorem c5_reconstruction :
    ∀ (t p h : List Char),
      reSearch labeledUrlTry none t = none →
      reSearch baseUrlTry none t = none →
      reSearch rawUrlTry none t = none →
      (reSearch reqLineTry none t = some p →
        reSearch hostTry none t = some h →
        extractUrl t = some ((if endsPort80 h then "http".toList
            else "https".toList) ++ "://".toList ++ h ++ p)) ∧
      (reSearch reqLineTry none t = none →
        reSearch hostTry none t = some h →
        extractUrl t = some ("https://".toList ++ h)) := by
  intro t p h h0 h1 h2
  constructor
  · intro hp hh
    unfold extractUrl
    rw [h0, h1, h2, hp, hh]
  · intro hp hh
    unfold extractUrl
    rw [h0, h1, h2, hp, hh]

/-- C5 witness: the amended scheme rule instantiated on a request line
with a `:8080` host (scheme `http`) — hypotheses discharged by
evaluation. -/
theorem c5_witness :
    reSearch labeledUrlTry none
        ("GET /api HTTP/1.1 host=api.example.com:8080".toList) = none ∧
    reSearch baseUrlTry none
        ("GET /api HTTP/1.1 host=api.example.com:8080".toList) = none ∧
    reSearch rawUrlTry none
        ("GET /api HTTP/1.1 host=api.example.com:8080".toList) = none ∧
    reSearch reqLineTry none
        ("GET /api HTTP/1.1 host=api.example.com:8080".toList)
      = some ("/api".toList) ∧
    reSearch hostTry none
        ("GET /api HTTP/1.1 host=api.example.com:8080".toList)
      = some ("api.example.com:8080".toList) ∧
    extractUrl ("GET /api HTTP/1.1 host=api.example.com:8080".toList)
      = some ((if endsPort80 ("api.example.com:8080".toList) then "http".toList
          else "https".toList) ++ "://".toList ++ "api.example.com:8080".toList ++
            "/api".toList) :=
  ⟨by decide, by decide, by decide, by decide, by decide,
    ((c5_reconstruction ("GET /api HTTP/1.1 host=api.example.com:8080".toList)
        ("/api".toList) ("api.example.com:8080".toList)
        (by decide) (by decide) (by decide)).1 (by decide) (by decide))⟩

-- ==================== C2: the normalizer ====================
-- normalizeBody (normalizer.ts) first tries JSON.parse on the trimmed
-- input and, on success, returns JSON.stringify(parsed, null, 2).
-- JSON.parse is embedded below as a fuel-based recursive-descent
-- parser of the strict JSON grammar (fuel 3*length+3 always suffices:
-- at most three frames per consumed character); JSON.stringify with a
-- 2-space gap is embedded as `render`.  Numbers are carried as their
-- verbatim numerals (see the note at `Json`): the serializer prints
-- the numeral back unchanged, which models the identity of the parsed
-- value exactly (IEEE rounding of numerals is outside the model).

/-- JSON whitespace: the only characters JSON.parse skips between tokens. -/
def isJsonWs (c : Char) : Bool :=
  c = ' ' ∨ c = Char.ofNat 9 ∨ c = Char.ofNat 10 ∨ c = Char.ofNat 13

/-- Drop leading JSON whitespace. -/
def skipWs (s : List Char) : List Char := s.dropWhile isJsonWs

/-- Value of a single hexadecimal digit. -/
def parseHexDigit (c : Char) : Option Nat :=
  if '0' ≤ c ∧ c ≤ '9' then some (c.toNat - 48)
  else if 'a' ≤ c ∧ c ≤ 'f' then some (c.toNat - 87)
  else if 'A' ≤ c ∧ c ≤ 'F' then some (c.toNat - 55)
  else none

/-- Value of four hexadecimal digits. -/
def hex4 (h1 h2 h3 h4 : Char) : Option Nat :=
  match parseHexDigit h1, parseHexDigit h2, parseHexDigit h3, parseHexDigit h4 with
  | some a1, some a2, some a3, some a4 => some (((a1 * 16 + a2) * 16 + a3) * 16 + a4)
  | _, _, _, _ => none

/-- Decode one escape of a JSON string body (cursor just past the
backslash): standard escapes, or a `\u` scalar, or a surrogate pair
written as two `\u` escapes; anything else (including a lone
surrogate) is a lexical error. -/
def escDecode (e : Char) (rest2 : List Char) : Option (Option Char × List Char) :=
  if e = dquote ∨ e = bslash ∨ e = '/' then some (some e, rest2)
  else if e = 'b' then some (some (Char.ofNat 8), rest2)
  else if e = 'f' then some (some (Char.ofNat 12), rest2)
  else if e = 'n' then some (some (Char.ofNat 10), rest2)
  else if e = 'r' then some (some (Char.ofNat 13), rest2)
  else if e = 't' then some (some (Char.ofNat 9), rest2)
  else if e = 'u' then
    match rest2 with
    | h1 :: h2 :: h3 :: h4 :: rest3 =>
      match hex4 h1 h2 h3 h4 with
      | some n =>
        if n < 55296 ∨ 57343 < n then some (some (Char.ofNat n), rest3)
        else if n ≤ 56319 then
          match rest3 with
          | b1 :: u2 :: g1 :: g2 :: g3 :: g4 :: rest4 =>
            if b1 = bslash ∧ u2 = 'u' then
              match hex4 g1 g2 g3 g4 with
              | some m =>
                if 56320 ≤ m ∧ m ≤ 57343 then
                  some (some (Char.ofNat (65536 + (n - 55296) * 1024 + (m - 56320))), rest4)
                else none
              | none => none
            else none
          | _ => none
        else none
      | none => none
    | _ => none
  else none

/-- Decode one unit of a JSON string body (cursor just past the opening
quote): `none` on a lexical error (bad escape, bare control character,
lone surrogate, unterminated input), `some (none, rest)` once the
closing quote is consumed, and `some (some ch, rest)` after one decoded
character. -/
def jsDecode1 : List Char → Option (Option Char × List Char)
  | [] => none
  | c :: rest =>
    if c = dquote then some (none, rest)
    else if c = bslash then
      match rest with
      | [] => none
      | e :: rest2 => escDecode e rest2
    else if c.toNat < 32 then none
    else some (some c, rest)

/-- Fueled JSON string-body scanner; every step consumes at least one
character, so fuel equal to the input length is always enough. -/
def pjsbGo : Nat → List Char → Option (List Char × List Char)
  | 0, _ => none
  | f + 1, s =>
    match jsDecode1 s with
    | none => none
    | some (none, r) => some ([], r)
    | some (some ch, r) => (pjsbGo f r).map (fun p => (ch :: p.1, p.2))

/-- JSON string body (cursor just past the opening quote): returns the
decoded content and the remainder past the closing quote. -/
def parseJStringBody (s : List Char) : Option (List Char × List Char) :=
  pjsbGo s.length s

/-- Exponent part of a JSON number: `([eE][+-]?[0-9]+)?` with maximal
munch, appended to the already-parsed prefix `pre`. -/
def numExpTail (pre : List Char) (c : Char) : List Char → Option (List Char × List Char)
  | [] => none
  | x :: xs =>
    if x = '+' ∨ x = '-' then
      if (List.takeWhile isDigitChar xs).isEmpty then none
      else some (pre ++ c :: x :: List.takeWhile isDigitChar xs,
        List.dropWhile isDigitChar xs)
    else
      if (List.takeWhile isDigitChar (x :: xs)).isEmpty then none
      else some (pre ++ c :: List.takeWhile isDigitChar (x :: xs),
        List.dropWhile isDigitChar (x :: xs))

def numExpPart (pre : List Char) : List Char → Option (List Char × List Char)
  | [] => some (pre, [])
  | c :: cs => if c = 'e' ∨ c = 'E' then numExpTail pre c cs else some (pre, c :: cs)

/-- Fraction-then-exponent part of a JSON number: `(\.[0-9]+)?` then
the exponent, appended to `pre`. -/
def numFracExp (pre : List Char) : List Char → Option (List Char × List Char)
  | [] => numExpPart pre []
  | c :: cs =>
    if c = '.' then
      let ds := cs.takeWhile isDigitChar
      if ds.isEmpty then none
      else numExpPart (pre ++ c :: ds) (cs.dropWhile isDigitChar)
    else numExpPart pre (c :: cs)

/-- JSON number grammar `-?(0|[1-9][0-9]*)(\.[0-9]+)?([eE][+-]?[0-9]+)?`
with maximal munch; returns the numeral and the remainder. -/
def parseNumCore (sg : List Char) : List Char → Option (List Char × List Char)
  | [] => none
  | c :: cs =>
    if c = '0' then numFracExp (sg ++ [c]) cs
    else if '1' ≤ c ∧ c ≤ '9' then
      numFracExp (sg ++ c :: cs.takeWhile isDigitChar) (cs.dropWhile isDigitChar)
    else none

/-- Sign then integer part dispatch of the JSON number grammar. -/
def parseNumber : List Char → Option (List Char × List Char)
  | [] => none
  | c0 :: cs0 =>
    if c0 = '-' then parseNumCore [c0] cs0 else parseNumCore [] (c0 :: cs0)

/-- Record a parsed object member the way JSON.parse does with duplicate
keys: a repeated key keeps its first position but takes the last value. -/
def insertMember (acc : List (List Char × Json)) (k : List Char) (v : Json) :
    List (List Char × Json) :=
  if acc.any (fun kv => kv.1 = k) then
    acc.map (fun kv => if kv.1 = k then (k, v) else kv)
  else acc ++ [(k, v)]

mutual

/-- One JSON value (leading whitespace allowed), returning the value and
the remainder (trailing whitespace not consumed). -/
def parseValue : Nat → List Char → Option (Json × List Char)
  | 0, _ => none
  | f + 1, s =>
    match skipWs s with
    | [] => none
    | c :: t =>
      if c = '{' then parseObjBody f t
      else if c = '[' then parseArrBody f t
      else if c = dquote then (parseJStringBody t).map (fun p => (Json.str p.1, p.2))
      else if List.isPrefixOf "true".toList (c :: t) then
        some (Json.bool true, (c :: t).drop 4)
      else if List.isPrefixOf "false".toList (c :: t) then
        some (Json.bool false, (c :: t).drop 5)
      else if List.isPrefixOf "null".toList (c :: t) then
        some (Json.null, (c :: t).drop 4)
      else (parseNumber (c :: t)).map (fun p => (Json.num p.1, p.2))

/-- Object body, cursor just past the opening brace. -/
def parseObjBody : Nat → List Char → Option (Json × List Char)
  | 0, _ => none
  | f + 1, s =>
    match skipWs s with
    | [] => none
    | c :: t => if c = '}' then some (Json.obj [], t) else parseMembers f [] (c :: t)

/-- Object members, cursor before a key; `acc` holds the members parsed
so far. -/
def parseMembers : Nat → List (List Char × Json) → List Char → Option (Json × List Char)
  | 0, _, _ => none
  | f + 1, acc, s =>
    match skipWs s with
    | [] => none
    | c :: t =>
      if c = dquote then
        match parseJStringBody t with
        | none => none
        | some (k, t1) =>
          match skipWs t1 with
          | [] => none
          | c2 :: t2 =>
            if c2 = ':' then
              match parseValue f t2 with
              | none => none
              | some (v, t3) =>
                match skipWs t3 with
                | [] => none
                | c3 :: t4 =>
                  if c3 = ',' then parseMembers f (insertMember acc k v) t4
                  else if c3 = '}' then some (Json.obj (insertMember acc k v), t4)
                  else none
            else none
      else none

/-- Array body, cursor just past the opening bracket. -/
def parseArrBody : Nat → List Char → Option (Json × List Char)
  | 0, _ => none
  | f + 1, s =>
    match skipWs s with
    | [] => none
    | c :: t => if c = ']' then some (Json.arr [], t) else parseElems f [] (c :: t)

/-- Array elements, cursor before an element; `acc` holds the elements
parsed so far. -/
def parseElems : Nat → List Json → List Char → Option (Json × List Char)
  | 0, _, _ => none
  | f + 1, acc, s =>
    match parseValue f s with
    | none => none
    | some (v, t) =>
      match skipWs t with
      | [] => none
      | c :: t2 =>
        if c = ',' then parseElems f (acc ++ [v]) t2
        else if c = ']' then some (Json.arr (acc ++ [v]), t2)
        else none

end

/-- Strip characters matching `p` from both ends. -/
def trimBy (p : Char → Bool) (s : List Char) : List Char :=
  ((s.dropWhile p).reverse.dropWhile p).reverse

/-- Strip JSON whitespace from both ends. -/
def trimJsonWs (s : List Char) : List Char := trimBy isJsonWs s

/-- String.prototype.trim: strip JavaScript whitespace from both ends. -/
def jsTrim (s : List Char) : List Char := trimBy jsWs s

/-- JSON.parse: the input is (equivalently) trimmed of JSON whitespace,
then exactly one value must consume everything. -/
def jsonParse (s : List Char) : Option Json :=
  let m := trimJsonWs s
  match parseValue (3 * m.length + 3) m with
  | some (v, []) => some v
  | _ => none

-- JSON.stringify(value, null, 2): members and elements are printed one
-- per line, indented by two spaces per depth, with ": " after keys.

/-- Lower-case hexadecimal digit. -/
def hexDig (n : Nat) : Char := if n < 10 then Char.ofNat (48 + n) else Char.ofNat (87 + n)

/-- QuoteJSONString escaping of one character. -/
def escChar (c : Char) : List Char :=
  if c = dquote then [bslash, dquote]
  else if c = bslash then [bslash, bslash]
  else if c = Char.ofNat 8 then [bslash, 'b']
  else if c = Char.ofNat 9 then [bslash, 't']
  else if c = Char.ofNat 10 then [bslash, 'n']
  else if c = Char.ofNat 12 then [bslash, 'f']
  else if c = Char.ofNat 13 then [bslash, 'r']
  else if c.toNat < 32 then [bslash, 'u', '0', '0', hexDig (c.toNat / 16), hexDig (c.toNat % 16)]
  else [c]

/-- QuoteJSONString escaping of a string body. -/
def escString (s : List Char) : List Char := s.foldr (fun c acc => escChar c ++ acc) []

/-- QuoteJSONString: the escaped body wrapped in double quotes. -/
def jsonQuote (s : List Char) : List Char := dquote :: escString s ++ [dquote]

mutual

/-- SerializeJSONProperty with gap two spaces at depth `d`. -/
def render : Json → Nat → List Char
  | Json.null, _ => "null".toList
  | Json.bool true, _ => "true".toList
  | Json.bool false, _ => "false".toList
  | Json.num n, _ => n
  | Json.str s, _ => jsonQuote s
  | Json.arr [], _ => ['[', ']']
  | Json.arr (x :: xs), d =>
      '[' :: Char.ofNat 10 ::
        (renderElems (x :: xs) (d + 1) ++
          Char.ofNat 10 :: List.replicate (2 * d) ' ' ++ [']'])
  | Json.obj [], _ => ['{', '}']
  | Json.obj (m :: ms), d =>
      '{' :: Char.ofNat 10 ::
        (renderMembers (m :: ms) (d + 1) ++
          Char.ofNat 10 :: List.replicate (2 * d) ' ' ++ ['}'])

/-- Array elements, one per line at depth `d`, separated by ",\n". -/
def renderElems : List Json → Nat → List Char
  | [], _ => []
  | [x], d => List.replicate (2 * d) ' ' ++ render x d
  | x :: y :: xs, d =>
      List.replicate (2 * d) ' ' ++ render x d ++
        ',' :: Char.ofNat 10 :: renderElems (y :: xs) d

/-- Object members, one per line at depth `d`, separated by ",\n". -/
def renderMembers : List (List Char × Json) → Nat → List Char
  | [], _ => []
  | [(k, v)], d => List.replicate (2 * d) ' ' ++ jsonQuote k ++ ':' :: ' ' :: render v d
  | (k, v) :: m2 :: ms, d =>
      List.replicate (2 * d) ' ' ++ jsonQuote k ++ ':' :: ' ' :: render v d ++
        ',' :: Char.ofNat 10 :: renderMembers (m2 :: ms) d

end

/-- JSON.stringify(v, null, 2). -/
def stringify (v : Json) : List Char := render v 0

-- swapSingleToDoubleQuotes (normalizer.ts stage 2): a naive scan that
-- rewrites single-quoted regions to double-quoted ones, escaping inner
-- double quotes and copying backslash escapes; an unterminated region
-- still receives its closing quote.

/-- Scanner for swapSingleToDoubleQuotes; the flag says whether the scan
is inside a single-quoted region. -/
def swapGo : Bool → List Char → List Char
  | false, [] => []
  | true, [] => [dquote]
  | false, c :: cs => if c = squote then dquote :: swapGo true cs else c :: swapGo false cs
  | true, c :: cs =>
    if c = squote then dquote :: swapGo false cs
    else if c = bslash then
      match cs with
      | [] => [bslash, dquote]
      | d :: ds => bslash :: d :: swapGo true ds
    else if c = dquote then bslash :: dquote :: swapGo true cs
    else c :: swapGo true cs

/-- Swap single-quoted strings to double-quoted strings. -/
def swapSingleToDoubleQuotes (t : List Char) : List Char := swapGo false t

-- LogBodyParser (normalizer.ts stage 3): a tolerant recursive-descent
-- scan that emits a JSON string.  Functions are embedded with fuel;
-- three frames per consumed character always suffice, and the stage is
-- unreachable for inputs that already parse as strict JSON.

/-- Identifier characters of unquoted keys: [\w\-.$]. -/
def lbpKeyChar (c : Char) : Bool :=
  isWordChar c ∨ c = '-' ∨ c = '.' ∨ c = '$'

/-- parseDoubleQuotedString body: keeps standard JSON escapes, keeps
"\u" of unicode escapes, drops the backslash of unknown escapes; an
unterminated string ends at EOF. -/
def lbpDqBody : List Char → List Char × List Char
  | [] => ([], [])
  | c :: t =>
    if c = dquote then ([], t)
    else if c = bslash then
      match t with
      | [] => ([], [])
      | e :: ts =>
        match lbpDqBody ts with
        | (r, rr) =>
          if e = dquote ∨ e = bslash ∨ e = '/' ∨ e = 'b' ∨ e = 'f' ∨ e = 'n' ∨
              e = 'r' ∨ e = 't' then
            (bslash :: e :: r, rr)
          else if e = 'u' then (bslash :: 'u' :: r, rr)
          else (e :: r, rr)
    else
      match lbpDqBody t with
      | (r, rr) => (c :: r, rr)

/-- parseDoubleQuotedString, cursor just past the opening quote. -/
def lbpDq (t : List Char) : List Char × List Char :=
  (dquote :: (lbpDqBody t).1 ++ [dquote], (lbpDqBody t).2)

/-- parseSingleQuotedString body: a backslash is dropped and the next
character kept verbatim; bare double quotes are escaped. -/
def lbpSqBody : List Char → List Char × List Char
  | [] => ([], [])
  | c :: t =>
    if c = squote then ([], t)
    else if c = bslash then
      match t with
      | [] => ([], [])
      | e :: ts =>
        match lbpSqBody ts with
        | (r, rr) => (e :: r, rr)
    else if c = dquote then
      match lbpSqBody t with
      | (r, rr) => (bslash :: dquote :: r, rr)
    else
      match lbpSqBody t with
      | (r, rr) => (c :: r, rr)

/-- parseSingleQuotedString, cursor just past the opening quote. -/
def lbpSq (t : List Char) : List Char × List Char :=
  (dquote :: (lbpSqBody t).1 ++ [dquote], (lbpSqBody t).2)

/-- parseKey: a quoted string, or a nonempty run of identifier
characters wrapped in quotes; an empty key throws. -/
def lbpKey (s0 : List Char) : Option (List Char × List Char) :=
  match s0.dropWhile jsWs with
  | [] => none
  | c :: t =>
    if c = dquote then some (lbpDq t)
    else if c = squote then some (lbpSq t)
    else
      let run := (c :: t).takeWhile lbpKeyChar
      if run.isEmpty then none
      else some (dquote :: run ++ [dquote], (c :: t).drop run.length)

/-- Word boundary \b after a word character: next char absent or non-word. -/
def wordBoundaryAfter (s : List Char) : Bool :=
  match s with
  | [] => true
  | c :: _ => !isWordChar c

/-- Case-insensitive keyword with \b: /^kw\b/i. -/
def kwTest (w : List Char) (s : List Char) : Bool :=
  match takeLitIC w s with
  | some (_, rest) => wordBoundaryAfter rest
  | none => false

/-- /^null\b/i or /^None\b/. -/
def nullTest (s : List Char) : Bool :=
  kwTest "null".toList s ||
    (List.isPrefixOf "None".toList s && wordBoundaryAfter (s.drop 4))

/-- /^true\b/i (which subsumes /^True\b/). -/
def trueTest (s : List Char) : Bool := kwTest "true".toList s

/-- /^false\b/i (which subsumes /^False\b/). -/
def falseTest (s : List Char) : Bool := kwTest "false".toList s

/-- Lookahead (?=[,\s}\]\n]|$) after a number. -/
def numLookahead (rest : List Char) : Bool :=
  match rest with
  | [] => true
  | c :: _ => c = ',' || jsWs c || c = '}' || c = ']'

/-- Test /^[\w"'][\w\-.$]*["']?\s*:/ against the trimmed next line: does
it look like a new key? -/
def newKeyAhead (ahead : List Char) : Bool :=
  match ahead with
  | [] => false
  | c :: t =>
    if isWordChar c ∨ c = dquote ∨ c = squote then
      let t2 := t.dropWhile lbpKeyChar
      let t3 :=
        match t2 with
        | [] => ([] : List Char)
        | q :: qs => if q = dquote ∨ q = squote then qs else q :: qs
      match t3.dropWhile jsWs with
      | [] => false
      | c2 :: _ => c2 = ':'
    else false

/-- Test /^[}\]]/ against the trimmed next line. -/
def closeAhead (ahead : List Char) : Bool :=
  match ahead with
  | [] => false
  | c :: _ => c = '}' || c = ']'

/-- Terminator test of the unquoted-value loop at one position. -/
def lbpUnqStop (c : Char) (t : List Char) : Bool :=
  c = ',' ∨ c = '}' ∨ c = ']' ∨
    (c = Char.ofNat 10 ∧
      (newKeyAhead (t.dropWhile jsWs) ∨ closeAhead (t.dropWhile jsWs)))

/-- Consume unquoted-value characters up to the first terminator. -/
def lbpUnqScan : List Char → List Char × List Char
  | [] => ([], [])
  | c :: t =>
    if lbpUnqStop c t then ([], c :: t)
    else
      match lbpUnqScan t with
      | (u, r) => (c :: u, r)

/-- Escaping applied to a raw unquoted value before quoting it. -/
def escUnqChar (c : Char) : List Char :=
  if c = bslash then [bslash, bslash]
  else if c = dquote then [bslash, dquote]
  else if c = Char.ofNat 10 then [bslash, 'n']
  else if c = Char.ofNat 13 then [bslash, 'r']
  else if c = Char.ofNat 9 then [bslash, 't']
  else [c]

/-- parseUnquotedValue: keywords, then a JSON-shaped number with
lookahead, then a raw run quoted as a JSON string ("null" when blank). -/
def lbpUnquoted (s0 : List Char) : List Char × List Char :=
  let s := s0.dropWhile jsWs
  if nullTest s then ("null".toList, s.drop 4)
  else if trueTest s then ("true".toList, s.drop 4)
  else if falseTest s then ("false".toList, s.drop 5)
  else
    let numPath :=
      match parseNumber s with
      | some (n, rest) => if numLookahead rest then some (n, rest) else none
      | none => none
    match numPath with
    | some (n, rest) => (n, rest)
    | none =>
      match lbpUnqScan s with
      | (consumed, rest) =>
        let raw := jsTrim consumed
        if raw.isEmpty then ("null".toList, rest)
        else (dquote :: (raw.foldr (fun c acc => escUnqChar c ++ acc) []) ++ [dquote], rest)

/-- Joined object entries: "{" entries.join(", ") "}". -/
def lbpObjOut (entries : List (List Char)) : List Char :=
  '{' :: List.intercalate (", ".toList) entries ++ ['}']

/-- Joined array elements: "[" elements.join(", ") "]". -/
def lbpArrOut (elems : List (List Char)) : List Char :=
  '[' :: List.intercalate (", ".toList) elems ++ [']']

mutual

/-- parseValue of LogBodyParser: dispatch on the first nonblank char. -/
def lbpValue : Nat → List Char → Option (List Char × List Char)
  | 0, _ => none
  | f + 1, s0 =>
    match s0.dropWhile jsWs with
    | [] => some (lbpUnquoted [])
    | c :: t =>
      if c = '{' then lbpObject f t
      else if c = '[' then lbpArray f t
      else if c = dquote then some (lbpDq t)
      else if c = squote then some (lbpSq t)
      else some (lbpUnquoted (c :: t))

/-- parseObject after the opening brace was consumed. -/
def lbpObject : Nat → List Char → Option (List Char × List Char)
  | 0, _ => none
  | f + 1, s0 =>
    match s0.dropWhile jsWs with
    | [] => some (['{', '}'], [])
    | c :: t => if c = '}' then some (['{', '}'], t) else lbpObjLoop f [] (c :: t)

/-- Object entry loop of parseObject, cursor at a key. -/
def lbpObjLoop : Nat → List (List Char) → List Char → Option (List Char × List Char)
  | 0, _, _ => none
  | f + 1, entries, s => do
    let (key, s1) ← lbpKey s
    match s1.dropWhile jsWs with
    | [] => none
    | c :: t =>
      if c = ':' then do
        let s4 := t.dropWhile jsWs
        let (v, s5) ←
          match s4 with
          | [] => lbpValue f ([] : List Char)
          | c2 :: _ => if c2 = ',' ∨ c2 = '}' then some ("null".toList, s4) else lbpValue f s4
        let entries2 := entries ++ [key ++ ':' :: ' ' :: v]
        match s5.dropWhile jsWs with
        | [] => some (lbpObjOut entries2, [])
        | c3 :: t3 =>
          if c3 = '}' then some (lbpObjOut entries2, t3)
          else
            let s7 := if c3 = ',' then t3 else c3 :: t3
            match s7.dropWhile jsWs with
            | [] => lbpObjLoop f entries2 []
            | c4 :: t4 =>
              if c4 = '}' then some (lbpObjOut entries2, t4)
              else lbpObjLoop f entries2 (c4 :: t4)
      else none

/-- parseArray after the opening bracket was consumed. -/
def lbpArray : Nat → List Char → Option (List Char × List Char)
  | 0, _ => none
  | f + 1, s0 =>
    match s0.dropWhile jsWs with
    | [] => some (['[', ']'], [])
    | c :: t => if c = ']' then some (['[', ']'], t) else lbpArrLoop f [] (c :: t)

/-- Array element loop of parseArray, cursor at an element. -/
def lbpArrLoop : Nat → List (List Char) → List Char → Option (List Char × List Char)
  | 0, _, _ => none
  | f + 1, elems, s => do
    let (v, s1) ← lbpValue f s
    let elems2 := elems ++ [v]
    match s1.dropWhile jsWs with
    | [] => some (lbpArrOut elems2, [])
    | c :: t =>
      if c = ']' then some (lbpArrOut elems2, t)
      else
        let s3 := if c = ',' then t else c :: t
        match s3.dropWhile jsWs with
        | [] => lbpArrLoop f elems2 []
        | c2 :: t2 =>
          if c2 = ']' then some (lbpArrOut elems2, t2)
          else lbpArrLoop f elems2 (c2 :: t2)

end

/-- LogBodyParser constructor: drop lines whose trimmed start is a
"//" or "#" comment. -/
def stripCommentLines (s : List Char) : List Char :=
  joinNl ((splitNl s).filter (fun l =>
    !(List.isPrefixOf "//".toList (l.dropWhile jsWs) ||
      List.isPrefixOf "#".toList (l.dropWhile jsWs))))

/-- LogBodyParser.parse: one value from the comment-stripped text;
trailing text is ignored. -/
def lbpParse (t0 : List Char) : Option (List Char) :=
  let text := stripCommentLines t0
  (lbpValue (3 * text.length + 3) text).map (fun p => p.1)

/-- normalizeBody: trim, then (1) strict JSON, (2) strict JSON after the
quote swap, (3) LogBodyParser output validated as strict JSON; each
successful stage is re-serialized pretty-printed.  `none` models a
thrown exception. -/
def normalizeBody (raw : List Char) : Option (List Char) :=
  let trimmed := jsTrim raw
  match jsonParse trimmed with
  | some v => some (stringify v)
  | none =>
    match jsonParse (swapSingleToDoubleQuotes trimmed) with
    | some v => some (stringify v)
    | none =>
      match lbpParse trimmed with
      | none => none
      | some j =>
        match jsonParse j with
        | some v => some (stringify v)
        | none => none

example : jsonParse ("[1, 2]".toList) =
    some (Json.arr [Json.num ['1'], Json.num ['2']]) := by decide

example : jsonParse ('{' :: dquote :: 'a' :: dquote :: ':' :: ' ' :: '1' :: '}' :: []) =
    some (Json.obj [(['a'], Json.num ['1'])]) := by decide

example : stringify (Json.arr [Json.num ['1']]) =
    '[' :: Char.ofNat 10 :: ' ' :: ' ' :: '1' :: Char.ofNat 10 :: ']' :: [] := by decide

example : normalizeBody (" [1]  ".toList) =
    some ('[' :: Char.ofNat 10 :: ' ' :: ' ' :: '1' :: Char.ofNat 10 :: ']' :: []) := by decide

example : normalizeBody ("x".toList) = some (dquote :: 'x' :: dquote :: []) := by decide

-- ==================== C2: round-trip proof ====================

set_option maxHeartbeats 1000000

lemma dropWhile_append_all (p : Char → Bool) (a l : List Char)
    (ha : ∀ c ∈ a, p c = true) : List.dropWhile p (a ++ l) = List.dropWhile p l := by
  induction a with
  | nil => rfl
  | cons x xs ih =>
    have hx : p x = true := ha x (List.mem_cons_self x xs)
    rw [List.cons_append, List.dropWhile_cons, if_pos hx]
    exact ih (fun c hc => ha c (List.mem_cons_of_mem _ hc))

lemma dropWhile_cons_false (p : Char → Bool) (c : Char) (l : List Char)
    (h : p c = false) : List.dropWhile p (c :: l) = c :: l := by
  rw [List.dropWhile_cons, if_neg (by simp [h])]

lemma dropWhile_all_nil (p : Char → Bool) (l : List Char)
    (h : ∀ c ∈ l, p c = true) : List.dropWhile p l = [] :=
  List.dropWhile_eq_nil_iff.mpr h

lemma dropWhile_head_prop (p : Char → Bool) :
    ∀ l c, (List.dropWhile p l).head? = some c → p c = false := by
  intro l
  induction l with
  | nil => intro c h; simp at h
  | cons x xs ih =>
    intro c h
    rw [List.dropWhile_cons] at h
    by_cases hx : p x = true
    · rw [if_pos hx] at h; exact ih c h
    · rw [if_neg hx] at h
      have hxc : x = c := by simpa using h
      subst hxc
      cases hpx : p x with
      | false => rfl
      | true => exact absurd hpx hx

lemma getLast?_dropWhile (p : Char → Bool) (l : List Char) (c : Char)
    (h : (List.dropWhile p l).getLast? = some c) : l.getLast? = some c := by
  have hne : List.dropWhile p l ≠ [] := by
    intro hnil; rw [hnil] at h; simp at h
  conv_lhs => rw [← List.takeWhile_append_dropWhile p l]
  rw [List.getLast?_append_of_ne_nil _ hne]
  exact h

lemma trimBy_split (p : Char → Bool) (x : List Char) :
    ∃ a b, x = a ++ trimBy p x ++ b ∧ (∀ c ∈ a, p c = true) ∧ (∀ c ∈ b, p c = true) := by
  refine ⟨x.takeWhile p, ((x.dropWhile p).reverse.takeWhile p).reverse, ?_, ?_, ?_⟩
  · conv_lhs => rw [← List.takeWhile_append_dropWhile p x]
    rw [List.append_assoc]
    congr 1
    conv_lhs => rw [← List.reverse_reverse (x.dropWhile p)]
    conv_lhs => rw [← List.takeWhile_append_dropWhile p (x.dropWhile p).reverse]
    rw [List.reverse_append]
    rfl
  · intro c hc; exact List.mem_takeWhile_imp hc
  · intro c hc
    rw [List.mem_reverse] at hc
    exact List.mem_takeWhile_imp hc

lemma trimBy_exact (p : Char → Bool) (a m b : List Char)
    (ha : ∀ c ∈ a, p c = true) (hb : ∀ c ∈ b, p c = true)
    (hh : ∀ c, m.head? = some c → p c = false)
    (hl : ∀ c, m.getLast? = some c → p c = false) :
    trimBy p (a ++ m ++ b) = m := by
  unfold trimBy
  rw [List.append_assoc, dropWhile_append_all p a (m ++ b) ha]
  cases m with
  | nil =>
    rw [List.nil_append, dropWhile_all_nil p b hb]
    rfl
  | cons c0 m' =>
    have hc0 : p c0 = false := hh c0 rfl
    rw [List.cons_append, dropWhile_cons_false p c0 (m' ++ b) hc0]
    rw [← List.cons_append, List.reverse_append]
    rw [dropWhile_append_all p b.reverse (c0 :: m').reverse
      (fun c hc => hb c (List.mem_reverse.mp hc))]
    obtain ⟨d, r, hdr⟩ : ∃ d r, (c0 :: m').reverse = d :: r := by
      cases hrev : (c0 :: m').reverse with
      | nil => exact absurd (congrArg List.length hrev) (by simp)
      | cons d r => exact ⟨d, r, rfl⟩
    have hd : (c0 :: m').getLast? = some d := by
      rw [← List.head?_reverse, hdr]; rfl
    rw [hdr, dropWhile_cons_false p d r (hl d hd), ← hdr, List.reverse_reverse]

lemma trimBy_head (p : Char → Bool) (x : List Char) (c : Char)
    (h : (trimBy p x).head? = some c) : p c = false := by
  unfold trimBy at h
  rw [List.head?_reverse] at h
  have h2 := getLast?_dropWhile p (x.dropWhile p).reverse c h
  rw [List.getLast?_reverse] at h2
  exact dropWhile_head_prop p x c h2

lemma trimBy_last (p : Char → Bool) (x : List Char) (c : Char)
    (h : (trimBy p x).getLast? = some c) : p c = false := by
  unfold trimBy at h
  rw [List.getLast?_reverse] at h
  exact dropWhile_head_prop p (x.dropWhile p).reverse c h

lemma jsWs_toNat (c : Char) (h : jsWs c = true) :
    c.toNat = 32 ∨ c.toNat = 9 ∨ c.toNat = 10 ∨ c.toNat = 11 ∨ c.toNat = 12 ∨
    c.toNat = 13 ∨ c.toNat = 160 ∨ c.toNat = 5760 ∨
    (8192 ≤ c.toNat ∧ c.toNat ≤ 8202) ∨ c.toNat = 8232 ∨ c.toNat = 8233 ∨
    c.toNat = 8239 ∨ c.toNat = 8287 ∨ c.toNat = 12288 ∨ c.toNat = 65279 := by
  have h2 : c = ' ' ∨ c = Char.ofNat 9 ∨ c = Char.ofNat 10 ∨ c = Char.ofNat 11 ∨
      c = Char.ofNat 12 ∨ c = Char.ofNat 13 ∨ c = Char.ofNat 0xA0 ∨
      c = Char.ofNat 0x1680 ∨ (0x2000 ≤ c.toNat ∧ c.toNat ≤ 0x200A) ∨
      c = Char.ofNat 0x2028 ∨ c = Char.ofNat 0x2029 ∨ c = Char.ofNat 0x202F ∨
      c = Char.ofNat 0x205F ∨ c = Char.ofNat 0x3000 ∨ c = Char.ofNat 0xFEFF := by
    simpa [jsWs] using h
  rcases h2 with h2|h2|h2|h2|h2|h2|h2|h2|h2|h2|h2|h2|h2|h2|h2
  all_goals first
  | (subst h2; decide)
  | omega

lemma isJsonWs_toNat (c : Char) (h : isJsonWs c = true) :
    c.toNat = 32 ∨ c.toNat = 9 ∨ c.toNat = 10 ∨ c.toNat = 13 := by
  have h2 : c = ' ' ∨ c = Char.ofNat 9 ∨ c = Char.ofNat 10 ∨ c = Char.ofNat 13 := by
    simpa [isJsonWs] using h
  rcases h2 with h2|h2|h2|h2 <;> (subst h2; decide)

lemma jsWs_of_isJsonWs (c : Char) (h : isJsonWs c = true) : jsWs c = true := by
  have h2 : c = ' ' ∨ c = Char.ofNat 9 ∨ c = Char.ofNat 10 ∨ c = Char.ofNat 13 := by
    simpa [isJsonWs] using h
  rcases h2 with h2|h2|h2|h2 <;> (subst h2; decide)

lemma isJsonWs_false_of_jsWs_false (c : Char) (h : jsWs c = false) :
    isJsonWs c = false := by
  cases hj : isJsonWs c with
  | false => rfl
  | true => rw [jsWs_of_isJsonWs c hj] at h; exact absurd h (by simp)

lemma digit_toNat (c : Char) (h : isDigitChar c = true) :
    48 ≤ c.toNat ∧ c.toNat ≤ 57 := by
  have h2 : '0' ≤ c ∧ c ≤ '9' := by simpa [isDigitChar] using h
  exact ⟨h2.1, h2.2⟩

lemma jsWs_digit_false (c : Char) (h : isDigitChar c = true) : jsWs c = false := by
  have hd := digit_toNat c h
  cases hws : jsWs c with
  | false => rfl
  | true => have := jsWs_toNat c hws; omega

lemma isJsonWs_digit_false (c : Char) (h : isDigitChar c = true) :
    isJsonWs c = false := by
  have hd := digit_toNat c h
  cases hws : isJsonWs c with
  | false => rfl
  | true => have := isJsonWs_toNat c hws; omega

lemma skipWs_append_all (w s : List Char) (hw : ∀ c ∈ w, isJsonWs c = true) :
    skipWs (w ++ s) = skipWs s := dropWhile_append_all isJsonWs w s hw

lemma skipWs_cons_false (c : Char) (t : List Char) (h : isJsonWs c = false) :
    skipWs (c :: t) = c :: t := dropWhile_cons_false isJsonWs c t h

-- ==================== C2: string scanning lemmas ====================

lemma parseHexDigit_hexDig (k : Nat) (hk : k < 16) :
    parseHexDigit (hexDig k) = some k := by
  interval_cases k <;> decide

lemma escChar_ne_nil (c : Char) : escChar c ≠ [] := by
  unfold escChar
  split_ifs <;> simp

lemma escString_cons (c : Char) (s : List Char) :
    escString (c :: s) = escChar c ++ escString s := rfl

lemma escString_length (s : List Char) : s.length ≤ (escString s).length := by
  induction s with
  | nil => simp [escString]
  | cons c s ih =>
    rw [escString_cons, List.length_append, List.length_cons]
    have h1 : 1 ≤ (escChar c).length := by
      cases hc : escChar c with
      | nil => exact absurd hc (escChar_ne_nil c)
      | cons _ _ => simp
    omega

lemma jsDecode1_dquote (r : List Char) : jsDecode1 (dquote :: r) = some (none, r) := by
  simp [jsDecode1]

lemma jsDecode1_esc (e : Char) (r : List Char) :
    jsDecode1 (bslash :: e :: r) = escDecode e r := by
  simp [jsDecode1, bslash, dquote]

lemma jsDecode1_plain (c : Char) (r : List Char) (h1 : c ≠ dquote) (h2 : c ≠ bslash)
    (h3 : ¬ c.toNat < 32) : jsDecode1 (c :: r) = some (some c, r) := by
  simp only [jsDecode1]
  rw [if_neg h1, if_neg h2, if_neg h3]

lemma escDecode_symb (e : Char) (r : List Char)
    (h : e = dquote ∨ e = bslash ∨ e = '/') : escDecode e r = some (some e, r) := by
  unfold escDecode
  rw [if_pos h]

lemma escDecode_named (e : Char) (d : Char) (r : List Char)
    (h : e = 'b' ∧ d = Char.ofNat 8 ∨ e = 'f' ∧ d = Char.ofNat 12 ∨
      e = 'n' ∧ d = Char.ofNat 10 ∨ e = 'r' ∧ d = Char.ofNat 13 ∨
      e = 't' ∧ d = Char.ofNat 9) :
    escDecode e r = some (some d, r) := by
  unfold escDecode
  rcases h with ⟨he, hd⟩ | ⟨he, hd⟩ | ⟨he, hd⟩ | ⟨he, hd⟩ | ⟨he, hd⟩ <;> subst he <;>
    subst hd
  · rw [if_neg (by decide), if_pos rfl]
  · rw [if_neg (by decide), if_neg (by decide), if_pos rfl]
  · rw [if_neg (by decide), if_neg (by decide), if_neg (by decide), if_pos rfl]
  · rw [if_neg (by decide), if_neg (by decide), if_neg (by decide), if_neg (by decide),
      if_pos rfl]
  · rw [if_neg (by decide), if_neg (by decide), if_neg (by decide), if_neg (by decide),
      if_neg (by decide), if_pos rfl]

lemma jsDecode1_escChar (c : Char) (rest : List Char) :
    jsDecode1 (escChar c ++ rest) = some (some c, rest) := by
  by_cases h1 : c = dquote
  · subst h1
    rw [show escChar dquote = [bslash, dquote] from by decide]
    show jsDecode1 (bslash :: dquote :: rest) = _
    rw [jsDecode1_esc, escDecode_symb _ _ (Or.inl rfl)]
  by_cases h2 : c = bslash
  · subst h2
    rw [show escChar bslash = [bslash, bslash] from by decide]
    show jsDecode1 (bslash :: bslash :: rest) = _
    rw [jsDecode1_esc, escDecode_symb _ _ (Or.inr (Or.inl rfl))]
  by_cases h3 : c = Char.ofNat 8
  · subst h3
    rw [show escChar (Char.ofNat 8) = [bslash, 'b'] from by decide]
    show jsDecode1 (bslash :: 'b' :: rest) = _
    rw [jsDecode1_esc, escDecode_named 'b' (Char.ofNat 8) rest (by decide)]
  by_cases h4 : c = Char.ofNat 9
  · subst h4
    rw [show escChar (Char.ofNat 9) = [bslash, 't'] from by decide]
    show jsDecode1 (bslash :: 't' :: rest) = _
    rw [jsDecode1_esc, escDecode_named 't' (Char.ofNat 9) rest (by decide)]
  by_cases h5 : c = Char.ofNat 10
  · subst h5
    rw [show escChar (Char.ofNat 10) = [bslash, 'n'] from by decide]
    show jsDecode1 (bslash :: 'n' :: rest) = _
    rw [jsDecode1_esc, escDecode_named 'n' (Char.ofNat 10) rest (by decide)]
  by_cases h6 : c = Char.ofNat 12
  · subst h6
    rw [show escChar (Char.ofNat 12) = [bslash, 'f'] from by decide]
    show jsDecode1 (bslash :: 'f' :: rest) = _
    rw [jsDecode1_esc, escDecode_named 'f' (Char.ofNat 12) rest (by decide)]
  by_cases h7 : c = Char.ofNat 13
  · subst h7
    rw [show escChar (Char.ofNat 13) = [bslash, 'r'] from by decide]
    show jsDecode1 (bslash :: 'r' :: rest) = _
    rw [jsDecode1_esc, escDecode_named 'r' (Char.ofNat 13) rest (by decide)]
  by_cases h8 : c.toNat < 32
  · have hesc : escChar c =
        [bslash, 'u', '0', '0', hexDig (c.toNat / 16), hexDig (c.toNat % 16)] := by
      unfold escChar
      rw [if_neg h1, if_neg h2, if_neg h3, if_neg h4, if_neg h5, if_neg h6, if_neg h7,
        if_pos h8]
    rw [hesc]
    rw [show ([bslash, 'u', '0', '0', hexDig (c.toNat / 16), hexDig (c.toNat % 16)] ++
        rest : List Char) =
      bslash :: 'u' :: ('0' :: '0' :: hexDig (c.toNat / 16) :: hexDig (c.toNat % 16) ::
        rest) from rfl]
    rw [jsDecode1_esc]
    have hu : ('u' : Char) ≠ dquote := by decide
    simp only [escDecode, if_neg (by decide : ¬(('u' : Char) = dquote ∨ ('u' : Char) = bslash ∨ ('u' : Char) = '/')),
      if_neg (by decide : ¬('u' : Char) = 'b'), if_neg (by decide : ¬('u' : Char) = 'f'),
      if_neg (by decide : ¬('u' : Char) = 'n'), if_neg (by decide : ¬('u' : Char) = 'r'),
      if_neg (by decide : ¬('u' : Char) = 't'), if_pos (rfl : ('u' : Char) = 'u')]
    have hq1 : parseHexDigit '0' = some 0 := by decide
    have hq3 : parseHexDigit (hexDig (c.toNat / 16)) = some (c.toNat / 16) :=
      parseHexDigit_hexDig _ (by omega)
    have hq4 : parseHexDigit (hexDig (c.toNat % 16)) = some (c.toNat % 16) :=
      parseHexDigit_hexDig _ (by omega)
    simp only [hex4, hq1, hq3, hq4]
    have hn : ((0 * 16 + 0) * 16 + c.toNat / 16) * 16 + c.toNat % 16 = c.toNat := by
      omega
    rw [hn]
    have hcond : c.toNat < 55296 ∨ 57343 < c.toNat := Or.inl (by omega)
    rw [if_pos hcond, Char.ofNat_toNat]
    simp
  · have hesc : escChar c = [c] := by
      unfold escChar
      rw [if_neg h1, if_neg h2, if_neg h3, if_neg h4, if_neg h5, if_neg h6, if_neg h7,
        if_neg h8]
    rw [hesc, List.cons_append, List.nil_append]
    exact jsDecode1_plain c rest h1 h2 h8

lemma pjsbGo_escString : ∀ (s : List Char) (f : Nat) (rest : List Char),
    s.length < f → pjsbGo f (escString s ++ dquote :: rest) = some (s, rest) := by
  intro s
  induction s with
  | nil =>
    intro f rest hf
    match f, hf with
    | f + 1, _ =>
      show pjsbGo (f + 1) (dquote :: rest) = some ([], rest)
      simp [pjsbGo, jsDecode1_dquote]
  | cons c s ih =>
    intro f rest hf
    match f, hf with
    | f + 1, hf =>
      rw [escString_cons, List.append_assoc]
      show pjsbGo (f + 1) (escChar c ++ (escString s ++ dquote :: rest)) = _
      simp only [pjsbGo, jsDecode1_escChar]
      rw [ih f rest (by simpa using Nat.lt_of_succ_lt_succ hf)]
      rfl

lemma parseJStringBody_esc (s rest : List Char) :
    parseJStringBody (escString s ++ dquote :: rest) = some (s, rest) := by
  unfold parseJStringBody
  apply pjsbGo_escString
  have h1 := escString_length s
  simp only [List.length_append, List.length_cons]
  omega

lemma escDecode_decomp (e : Char) (rest2 : List Char) (o : Option Char) (r : List Char)
    (h : escDecode e rest2 = some (o, r)) :
    (∃ ch, o = some ch) ∧ ∃ pe, rest2 = pe ++ r := by
  unfold escDecode at h
  by_cases he1 : e = dquote ∨ e = bslash ∨ e = '/'
  · rw [if_pos he1] at h
    simp only [Option.some.injEq, Prod.mk.injEq] at h
    exact ⟨⟨e, h.1.symm⟩, [], by rw [h.2]; rfl⟩
  rw [if_neg he1] at h
  by_cases he2 : e = 'b'
  · rw [if_pos he2] at h
    simp only [Option.some.injEq, Prod.mk.injEq] at h
    exact ⟨⟨_, h.1.symm⟩, [], by rw [h.2]; rfl⟩
  rw [if_neg he2] at h
  by_cases he3 : e = 'f'
  · rw [if_pos he3] at h
    simp only [Option.some.injEq, Prod.mk.injEq] at h
    exact ⟨⟨_, h.1.symm⟩, [], by rw [h.2]; rfl⟩
  rw [if_neg he3] at h
  by_cases he4 : e = 'n'
  · rw [if_pos he4] at h
    simp only [Option.some.injEq, Prod.mk.injEq] at h
    exact ⟨⟨_, h.1.symm⟩, [], by rw [h.2]; rfl⟩
  rw [if_neg he4] at h
  by_cases he5 : e = 'r'
  · rw [if_pos he5] at h
    simp only [Option.some.injEq, Prod.mk.injEq] at h
    exact ⟨⟨_, h.1.symm⟩, [], by rw [h.2]; rfl⟩
  rw [if_neg he5] at h
  by_cases he6 : e = 't'
  · rw [if_pos he6] at h
    simp only [Option.some.injEq, Prod.mk.injEq] at h
    exact ⟨⟨_, h.1.symm⟩, [], by rw [h.2]; rfl⟩
  rw [if_neg he6] at h
  by_cases he7 : e = 'u'
  swap
  · rw [if_neg he7] at h
    exact Option.noConfusion h
  rw [if_pos he7] at h
  split at h
  any_goals exact Option.noConfusion h
  rename_i x1 x2 x3 x4 rest3
  split at h
  any_goals exact Option.noConfusion h
  rename_i n
  split_ifs at h with hs1 hs2
  · simp only [Option.some.injEq, Prod.mk.injEq] at h
    refine ⟨⟨_, h.1.symm⟩, [x1, x2, x3, x4], ?_⟩
    rw [← h.2]
    rfl
  · split at h
    any_goals exact Option.noConfusion h
    rename_i b1 u2 g1 g2 g3 g4 rest4
    split_ifs at h with hb
    split at h
    any_goals exact Option.noConfusion h
    rename_i m
    split_ifs at h with hrange
    simp only [Option.some.injEq, Prod.mk.injEq] at h
    refine ⟨⟨_, h.1.symm⟩, [x1, x2, x3, x4, b1, u2, g1, g2, g3, g4], ?_⟩
    rw [← h.2]
    rfl

lemma jsDecode1_none_decomp (s r : List Char) (h : jsDecode1 s = some (none, r)) :
    s = dquote :: r := by
  cases s with
  | nil => simp [jsDecode1] at h
  | cons c rest =>
    simp only [jsDecode1] at h
    by_cases hc1 : c = dquote
    · rw [if_pos hc1] at h
      simp only [Option.some.injEq, Prod.mk.injEq] at h
      rw [hc1, h.2]
    rw [if_neg hc1] at h
    by_cases hc2 : c = bslash
    · rw [if_pos hc2] at h
      cases rest with
      | nil => exact Option.noConfusion h
      | cons e rest2 =>
        obtain ⟨⟨ch, hch⟩, _⟩ := escDecode_decomp e rest2 none r h
        exact Option.noConfusion hch
    rw [if_neg hc2] at h
    by_cases hc3 : c.toNat < 32
    · rw [if_pos hc3] at h
      exact Option.noConfusion h
    rw [if_neg hc3] at h
    simp only [Option.some.injEq, Prod.mk.injEq] at h
    exact Option.noConfusion h.1

lemma jsDecode1_some_decomp (s : List Char) (ch : Char) (r : List Char)
    (h : jsDecode1 s = some (some ch, r)) : ∃ piece, piece ≠ [] ∧ s = piece ++ r := by
  cases s with
  | nil => simp [jsDecode1] at h
  | cons c rest =>
    simp only [jsDecode1] at h
    by_cases hc1 : c = dquote
    · rw [if_pos hc1] at h
      simp only [Option.some.injEq, Prod.mk.injEq] at h
      exact Option.noConfusion h.1
    rw [if_neg hc1] at h
    by_cases hc2 : c = bslash
    · rw [if_pos hc2] at h
      cases rest with
      | nil => exact Option.noConfusion h
      | cons e rest2 =>
        obtain ⟨_, pe, hpe⟩ := escDecode_decomp e rest2 (some ch) r h
        exact ⟨c :: e :: pe, by simp, by rw [hpe]; rfl⟩
    rw [if_neg hc2] at h
    by_cases hc3 : c.toNat < 32
    · rw [if_pos hc3] at h
      exact Option.noConfusion h
    rw [if_neg hc3] at h
    simp only [Option.some.injEq, Prod.mk.injEq] at h
    exact ⟨[c], by simp, by rw [h.2]; rfl⟩

lemma pjsbGo_decomp : ∀ (f : Nat) (s k r : List Char), pjsbGo f s = some (k, r) →
    ∃ q, s = q ++ dquote :: r := by
  intro f
  induction f with
  | zero => intro s k r h; simp [pjsbGo] at h
  | succ f ih =>
    intro s k r h
    simp only [pjsbGo] at h
    cases hd : jsDecode1 s with
    | none => rw [hd] at h; exact absurd h (by simp)
    | some u =>
      rw [hd] at h
      obtain ⟨o, r0⟩ := u
      cases o with
      | none =>
        simp only [Option.some.injEq, Prod.mk.injEq] at h
        exact ⟨[], by rw [jsDecode1_none_decomp s r0 hd, h.2]; rfl⟩
      | some ch =>
        simp only [Option.map_eq_some'] at h
        obtain ⟨p, hp, hkr⟩ := h
        obtain ⟨q, hq⟩ := ih r0 p.1 p.2 (by rw [hp])
        obtain ⟨piece, hpne, hpiece⟩ := jsDecode1_some_decomp s ch r0 hd
        have h2 : p.2 = r := congrArg Prod.snd hkr
        rw [h2] at hq
        exact ⟨piece ++ q, by rw [hpiece, hq, List.append_assoc]⟩

lemma parseJStringBody_decomp (s k r : List Char)
    (h : parseJStringBody s = some (k, r)) : ∃ q, s = q ++ dquote :: r :=
  pjsbGo_decomp s.length s k r h

-- ==================== C2: number lemmas ====================

def numExtChar (c : Char) : Bool := isDigitChar c ∨ c = '.' ∨ c = 'e' ∨ c = 'E'

def okAfterNum : List Char → Bool
  | [] => true
  | c :: _ => !numExtChar c

lemma okAfterNum_facts (c : Char) (l : List Char) (h : okAfterNum (c :: l) = true) :
    isDigitChar c = false ∧ ¬c = '.' ∧ ¬c = 'e' ∧ ¬c = 'E' := by
  have h2 : ¬(isDigitChar c = true ∨ c = '.' ∨ c = 'e' ∨ c = 'E') := by
    simpa [okAfterNum, numExtChar] using h
  push_neg at h2
  refine ⟨?_, h2.2.1, h2.2.2.1, h2.2.2.2⟩
  cases hd : isDigitChar c with
  | false => rfl
  | true => exact absurd hd h2.1

lemma takeWhile_all_append (p : Char → Bool) (ds l : List Char)
    (h : ∀ c ∈ ds, p c = true) :
    List.takeWhile p (ds ++ l) = ds ++ List.takeWhile p l := by
  induction ds with
  | nil => rfl
  | cons x xs ih =>
    have hx := h x (List.mem_cons_self x xs)
    rw [List.cons_append, List.takeWhile_cons, if_pos hx,
      ih (fun c hc => h c (List.mem_cons_of_mem _ hc)), List.cons_append]

lemma okAfter_takeWhile_digit (rest : List Char) (h : okAfterNum rest = true) :
    List.takeWhile isDigitChar rest = [] := by
  cases rest with
  | nil => rfl
  | cons c t =>
    have hd := (okAfterNum_facts c t h).1
    rw [List.takeWhile_cons, if_neg (by simp [hd])]

lemma okAfter_dropWhile_digit (rest : List Char) (h : okAfterNum rest = true) :
    List.dropWhile isDigitChar rest = rest := by
  cases rest with
  | nil => rfl
  | cons c t => exact dropWhile_cons_false isDigitChar c t (okAfterNum_facts c t h).1

lemma all_getLast (p : Char → Bool) (l : List Char) (hne : l ≠ [])
    (h : ∀ c ∈ l, p c = true) : ∃ dl, l.getLast? = some dl ∧ p dl = true := by
  induction l with
  | nil => exact absurd rfl hne
  | cons x xs ih =>
    cases xs with
    | nil => exact ⟨x, rfl, h x (List.mem_cons_self _ _)⟩
    | cons y ys =>
      obtain ⟨dl, hdl, hp⟩ := ih (by simp) (fun c hc => h c (List.mem_cons_of_mem _ hc))
      exact ⟨dl, by rw [List.getLast?_cons_cons, hdl], hp⟩

lemma numExpPart_star (pre : List Char) : ∀ (s out r : List Char),
    numExpPart pre s = some (out, r) →
    ∃ ext, out = pre ++ ext ∧ s = ext ++ r ∧
      (ext = [] ∨ ∃ hc t, ext = hc :: t ∧ (hc = 'e' ∨ hc = 'E')) ∧
      (ext = [] ∨ ∃ dl, ext.getLast? = some dl ∧ isDigitChar dl = true) ∧
      (∀ rest, okAfterNum rest = true → numExpPart pre (ext ++ rest) = some (out, rest)) := by
  intro s out r h
  cases s with
  | nil =>
    simp only [numExpPart, Option.some.injEq, Prod.mk.injEq] at h
    refine ⟨[], by rw [← h.1, List.append_nil], by rw [List.nil_append]; exact h.2,
      Or.inl rfl, Or.inl rfl, ?_⟩
    intro rest hr
    rw [List.nil_append]
    cases rest with
    | nil =>
      simp only [numExpPart, Option.some.injEq, Prod.mk.injEq]
      exact ⟨h.1, trivial⟩
    | cons c2 t2 =>
      obtain ⟨_, _, hc2e, hc2E⟩ := okAfterNum_facts c2 t2 hr
      simp only [numExpPart]
      rw [if_neg (by tauto : ¬(c2 = 'e' ∨ c2 = 'E'))]
      simp only [Option.some.injEq, Prod.mk.injEq]
      exact ⟨h.1, trivial⟩
  | cons c cs =>
    simp only [numExpPart] at h
    by_cases hce : c = 'e' ∨ c = 'E'
    case neg =>
      rw [if_neg hce] at h
      simp only [Option.some.injEq, Prod.mk.injEq] at h
      refine ⟨[], by rw [← h.1, List.append_nil], by rw [List.nil_append]; exact h.2,
        Or.inl rfl, Or.inl rfl, ?_⟩
      intro rest hr
      rw [List.nil_append]
      cases rest with
      | nil =>
        simp only [numExpPart, Option.some.injEq, Prod.mk.injEq]
        exact ⟨h.1, trivial⟩
      | cons c2 t2 =>
        obtain ⟨_, _, hc2e, hc2E⟩ := okAfterNum_facts c2 t2 hr
        simp only [numExpPart]
        rw [if_neg (by tauto : ¬(c2 = 'e' ∨ c2 = 'E'))]
        simp only [Option.some.injEq, Prod.mk.injEq]
        exact ⟨h.1, trivial⟩
    case pos =>
      rw [if_pos hce] at h
      cases cs with
      | nil =>
        simp only [numExpTail] at h
        exact Option.noConfusion h
      | cons x xs =>
        simp only [numExpTail] at h
        by_cases hsx : x = '+' ∨ x = '-'
        · rw [if_pos hsx] at h
          by_cases hde : (List.takeWhile isDigitChar xs).isEmpty = true
          · rw [if_pos hde] at h; exact Option.noConfusion h
          · rw [if_neg hde] at h
            simp only [Option.some.injEq, Prod.mk.injEq] at h
            have hne : List.takeWhile isDigitChar xs ≠ [] := by
              intro hh; rw [hh] at hde; exact hde rfl
            have hds : ∀ d ∈ List.takeWhile isDigitChar xs, isDigitChar d = true :=
              fun d hd => List.mem_takeWhile_imp hd
            refine ⟨c :: x :: List.takeWhile isDigitChar xs, h.1.symm, ?_,
              Or.inr ⟨c, _, rfl, hce⟩, ?_, ?_⟩
            · rw [← h.2]
              simp only [List.cons_append]
              rw [List.takeWhile_append_dropWhile]
            · obtain ⟨dl, hdl, hpdl⟩ := all_getLast isDigitChar _ hne hds
              refine Or.inr ⟨dl, ?_, hpdl⟩
              rw [show c :: x :: List.takeWhile isDigitChar xs =
                  [c, x] ++ List.takeWhile isDigitChar xs from rfl,
                List.getLast?_append_of_ne_nil _ hne, hdl]
            · intro rest hr
              simp only [List.cons_append]
              simp only [numExpPart]
              rw [if_pos hce]
              simp only [numExpTail]
              rw [if_pos hsx]
              rw [takeWhile_all_append isDigitChar _ rest hds,
                okAfter_takeWhile_digit rest hr, List.append_nil]
              rw [dropWhile_append_all isDigitChar _ rest hds,
                okAfter_dropWhile_digit rest hr]
              rw [if_neg hde]
              simp only [Option.some.injEq, Prod.mk.injEq]
              exact ⟨h.1, trivial⟩
        · rw [if_neg hsx] at h
          by_cases hde : (List.takeWhile isDigitChar (x :: xs)).isEmpty = true
          · rw [if_pos hde] at h; exact Option.noConfusion h
          · rw [if_neg hde] at h
            simp only [Option.some.injEq, Prod.mk.injEq] at h
            have hne : List.takeWhile isDigitChar (x :: xs) ≠ [] := by
              intro hh; rw [hh] at hde; exact hde rfl
            have hds : ∀ d ∈ List.takeWhile isDigitChar (x :: xs), isDigitChar d = true :=
              fun d hd => List.mem_takeWhile_imp hd
            have hdx : isDigitChar x = true := by
              by_contra hdx
              exact hne (by rw [List.takeWhile_cons, if_neg hdx])
            have htw : List.takeWhile isDigitChar (x :: xs) =
                x :: List.takeWhile isDigitChar xs := by
              rw [List.takeWhile_cons, if_pos hdx]
            have hds2 : ∀ d ∈ List.takeWhile isDigitChar xs, isDigitChar d = true :=
              fun d hd => List.mem_takeWhile_imp hd
            refine ⟨c :: List.takeWhile isDigitChar (x :: xs), h.1.symm, ?_,
              Or.inr ⟨c, _, rfl, hce⟩, ?_, ?_⟩
            · rw [← h.2]
              simp only [List.cons_append]
              rw [List.takeWhile_append_dropWhile]
            · obtain ⟨dl, hdl, hpdl⟩ := all_getLast isDigitChar _ hne hds
              refine Or.inr ⟨dl, ?_, hpdl⟩
              rw [show c :: List.takeWhile isDigitChar (x :: xs) =
                  [c] ++ List.takeWhile isDigitChar (x :: xs) from rfl,
                List.getLast?_append_of_ne_nil _ hne, hdl]
            · intro rest hr
              rw [htw]
              simp only [List.cons_append]
              simp only [numExpPart]
              rw [if_pos hce]
              simp only [numExpTail]
              rw [if_neg hsx]
              rw [List.takeWhile_cons, if_pos hdx,
                takeWhile_all_append isDigitChar _ rest hds2,
                okAfter_takeWhile_digit rest hr, List.append_nil]
              rw [List.dropWhile_cons, if_pos hdx,
                dropWhile_append_all isDigitChar _ rest hds2,
                okAfter_dropWhile_digit rest hr]
              rw [if_neg (by simp : ¬((x :: List.takeWhile isDigitChar xs).isEmpty = true))]
              simp only [Option.some.injEq, Prod.mk.injEq]
              rw [htw] at h
              exact ⟨h.1, trivial⟩

lemma numFracExp_star (pre : List Char) : ∀ (s out r : List Char),
    numFracExp pre s = some (out, r) →
    ∃ ext, out = pre ++ ext ∧ s = ext ++ r ∧
      (ext = [] ∨ ∃ hc t, ext = hc :: t ∧ (hc = '.' ∨ hc = 'e' ∨ hc = 'E')) ∧
      (ext = [] ∨ ∃ dl, ext.getLast? = some dl ∧ isDigitChar dl = true) ∧
      (∀ rest, okAfterNum rest = true → numFracExp pre (ext ++ rest) = some (out, rest)) := by
  intro s out r h
  cases s with
  | nil =>
    simp only [numFracExp] at h
    obtain ⟨ext, hout, hsdec, hhead, hlast, hrep⟩ := numExpPart_star pre [] out r h
    obtain rfl : ext = [] := by
      cases ext with
      | nil => rfl
      | cons a b => exact absurd hsdec (by simp)
    obtain rfl : r = [] := by simpa using hsdec.symm
    refine ⟨[], hout, rfl, Or.inl rfl, Or.inl rfl, ?_⟩
    intro rest hr
    rw [List.nil_append]
    cases rest with
    | nil =>
      simp only [numFracExp]
      exact h
    | cons c2 t2 =>
      obtain ⟨_, hdot, _, _⟩ := okAfterNum_facts c2 t2 hr
      simp only [numFracExp]
      rw [if_neg hdot]
      have h3 := hrep (c2 :: t2) hr
      rw [List.nil_append] at h3
      exact h3
  | cons c cs =>
    simp only [numFracExp] at h
    by_cases hcd : c = '.'
    · rw [if_pos hcd] at h
      by_cases hde : (List.takeWhile isDigitChar cs).isEmpty = true
      · rw [if_pos hde] at h; exact Option.noConfusion h
      rw [if_neg hde] at h
      obtain ⟨ext2, hout, hsdec, hhead2, hlast2, hrep2⟩ := numExpPart_star _ _ out r h
      have hne : List.takeWhile isDigitChar cs ≠ [] := by
        intro hh; rw [hh] at hde; exact hde rfl
      have hds : ∀ d ∈ List.takeWhile isDigitChar cs, isDigitChar d = true :=
        fun d hd => List.mem_takeWhile_imp hd
      refine ⟨c :: List.takeWhile isDigitChar cs ++ ext2, ?_, ?_,
        Or.inr ⟨c, _, rfl, Or.inl hcd⟩, ?_, ?_⟩
      · rw [hout, List.append_assoc]
      · conv_lhs =>
          rw [show cs = List.takeWhile isDigitChar cs ++ List.dropWhile isDigitChar cs
            from (List.takeWhile_append_dropWhile _ _).symm]
        rw [hsdec]
        simp only [List.cons_append, List.append_assoc]
      · rcases hlast2 with rfl | ⟨dl, hdl, hp⟩
        · obtain ⟨dl, hdl, hp⟩ := all_getLast isDigitChar _ hne hds
          refine Or.inr ⟨dl, ?_, hp⟩
          rw [List.append_nil, show c :: List.takeWhile isDigitChar cs =
              [c] ++ List.takeWhile isDigitChar cs from rfl,
            List.getLast?_append_of_ne_nil _ hne, hdl]
        · have hne2 : ext2 ≠ [] := by intro hh; rw [hh] at hdl; simp at hdl
          refine Or.inr ⟨dl, ?_, hp⟩
          rw [show c :: List.takeWhile isDigitChar cs ++ ext2 =
              (c :: List.takeWhile isDigitChar cs) ++ ext2 from rfl,
            List.getLast?_append_of_ne_nil _ hne2, hdl]
      · intro rest hr
        simp only [List.cons_append, List.append_assoc]
        simp only [numFracExp]
        rw [if_pos hcd]
        have htk : List.takeWhile isDigitChar
            (List.takeWhile isDigitChar cs ++ (ext2 ++ rest)) =
            List.takeWhile isDigitChar cs := by
          rw [takeWhile_all_append isDigitChar _ _ hds]
          rcases hhead2 with rfl | ⟨hc, t, rfl, hor⟩
          · rw [List.nil_append, okAfter_takeWhile_digit rest hr, List.append_nil]
          · rw [List.cons_append, List.takeWhile_cons,
              if_neg (by rcases hor with rfl | rfl <;> decide), List.append_nil]
        have hdr : List.dropWhile isDigitChar
            (List.takeWhile isDigitChar cs ++ (ext2 ++ rest)) = ext2 ++ rest := by
          rw [dropWhile_append_all isDigitChar _ _ hds]
          rcases hhead2 with rfl | ⟨hc, t, rfl, hor⟩
          · exact okAfter_dropWhile_digit rest hr
          · rw [List.cons_append, dropWhile_cons_false isDigitChar _ _
              (by rcases hor with rfl | rfl <;> decide)]
        rw [htk, hdr]
        rw [if_neg hde]
        exact hrep2 rest hr
    · rw [if_neg hcd] at h
      obtain ⟨ext, hout, hsdec, hhead2, hlast2, hrep2⟩ := numExpPart_star _ _ out r h
      refine ⟨ext, hout, hsdec, ?_, hlast2, ?_⟩
      · rcases hhead2 with rfl | ⟨hc, t, rfl, hor⟩
        · exact Or.inl rfl
        · exact Or.inr ⟨hc, t, rfl, Or.inr hor⟩
      · intro rest hr
        rcases hhead2 with rfl | ⟨hc, t, rfl, hor⟩
        · rw [List.nil_append]
          cases rest with
          | nil =>
            have h3 := hrep2 [] rfl
            rw [List.nil_append] at h3
            simp only [numFracExp]
            exact h3
          | cons c2 t2 =>
            obtain ⟨_, hdot, _, _⟩ := okAfterNum_facts c2 t2 hr
            simp only [numFracExp]
            rw [if_neg hdot]
            have h3 := hrep2 (c2 :: t2) hr
            rw [List.nil_append] at h3
            exact h3
        · simp only [List.cons_append, numFracExp]
          rw [if_neg (show ¬(hc = '.') by rcases hor with rfl | rfl <;> decide)]
          have h3 := hrep2 rest hr
          rw [List.cons_append] at h3
          exact h3

lemma parseNumCore_star (sg : List Char) : ∀ (s nm r : List Char),
    parseNumCore sg s = some (nm, r) →
    ∃ ip, nm = sg ++ ip ∧ s = ip ++ r ∧
      (∃ h0 t0, ip = h0 :: t0 ∧ isDigitChar h0 = true) ∧
      (∃ dl, ip.getLast? = some dl ∧ isDigitChar dl = true) ∧
      (∀ rest, okAfterNum rest = true → parseNumCore sg (ip ++ rest) = some (nm, rest)) := by
  intro s nm r h
  cases s with
  | nil =>
    simp only [parseNumCore] at h
    exact Option.noConfusion h
  | cons c cs =>
    simp only [parseNumCore] at h
    by_cases hc0 : c = '0'
    · rw [if_pos hc0] at h
      obtain ⟨ext, hout, hsdec, hhead, hlast, hrep⟩ := numFracExp_star _ _ _ _ h
      refine ⟨c :: ext, ?_, ?_, ⟨c, ext, rfl, by rw [hc0]; decide⟩, ?_, ?_⟩
      · rw [hout, List.append_assoc]
        rfl
      · rw [List.cons_append, ← hsdec]
      · rcases hlast with rfl | ⟨dl, hdl, hp⟩
        · exact ⟨c, rfl, by rw [hc0]; decide⟩
        · have hne2 : ext ≠ [] := by intro hh; rw [hh] at hdl; simp at hdl
          exact ⟨dl, by rw [show c :: ext = [c] ++ ext from rfl,
            List.getLast?_append_of_ne_nil _ hne2, hdl], hp⟩
      · intro rest hr
        simp only [List.cons_append, parseNumCore]
        rw [if_pos hc0]
        exact hrep rest hr
    · by_cases hc9 : '1' ≤ c ∧ c ≤ '9'
      swap
      · rw [if_neg hc0, if_neg hc9] at h
        exact Option.noConfusion h
      rw [if_neg hc0, if_pos hc9] at h
      obtain ⟨ext, hout, hsdec, hhead, hlast, hrep⟩ := numFracExp_star _ _ _ _ h
      have h49 : 49 ≤ c.toNat := hc9.1
      have h57 : c.toNat ≤ 57 := hc9.2
      have hdc : isDigitChar c = true := by
        simp only [isDigitChar, decide_eq_true_eq]
        exact ⟨(by omega : (48 : Nat) ≤ c.toNat), h57⟩
      have hds : ∀ d ∈ List.takeWhile isDigitChar cs, isDigitChar d = true :=
        fun d hd => List.mem_takeWhile_imp hd
      refine ⟨c :: List.takeWhile isDigitChar cs ++ ext, ?_, ?_, ⟨c, _, rfl, hdc⟩,
        ?_, ?_⟩
      · rw [hout, List.append_assoc]
      · conv_lhs =>
          rw [show cs = List.takeWhile isDigitChar cs ++ List.dropWhile isDigitChar cs
            from (List.takeWhile_append_dropWhile _ _).symm]
        rw [hsdec]
        simp only [List.cons_append, List.append_assoc]
      · rcases hlast with rfl | ⟨dl, hdl, hp⟩
        · rw [List.append_nil]
          cases htw : List.takeWhile isDigitChar cs with
          | nil => exact ⟨c, rfl, hdc⟩
          | cons a b =>
            obtain ⟨dl, hdl, hp⟩ := all_getLast isDigitChar (a :: b) (by simp)
              (fun d hd => List.mem_takeWhile_imp (htw ▸ hd))
            exact ⟨dl, by rw [show c :: a :: b = [c] ++ a :: b from rfl,
              List.getLast?_append_of_ne_nil _ (by simp), hdl], hp⟩
        · have hne2 : ext ≠ [] := by intro hh; rw [hh] at hdl; simp at hdl
          exact ⟨dl, by rw [show c :: List.takeWhile isDigitChar cs ++ ext =
              (c :: List.takeWhile isDigitChar cs) ++ ext from rfl,
            List.getLast?_append_of_ne_nil _ hne2, hdl], hp⟩
      · intro rest hr
        simp only [List.cons_append, List.append_assoc, parseNumCore]
        rw [if_neg hc0, if_pos hc9]
        have htk : List.takeWhile isDigitChar
            (List.takeWhile isDigitChar cs ++ (ext ++ rest)) =
            List.takeWhile isDigitChar cs := by
          rw [takeWhile_all_append isDigitChar _ _ hds]
          rcases hhead with rfl | ⟨hc, t, rfl, hor⟩
          · rw [List.nil_append, okAfter_takeWhile_digit rest hr, List.append_nil]
          · rw [List.cons_append, List.takeWhile_cons,
              if_neg (by rcases hor with rfl | rfl | rfl <;> decide), List.append_nil]
        have hdr : List.dropWhile isDigitChar
            (List.takeWhile isDigitChar cs ++ (ext ++ rest)) = ext ++ rest := by
          rw [dropWhile_append_all isDigitChar _ _ hds]
          rcases hhead with rfl | ⟨hc, t, rfl, hor⟩
          · exact okAfter_dropWhile_digit rest hr
          · rw [List.cons_append, dropWhile_cons_false isDigitChar _ _
              (by rcases hor with rfl | rfl | rfl <;> decide)]
        rw [htk, hdr]
        exact hrep rest hr

lemma parseNumber_star (s nm r : List Char) (h : parseNumber s = some (nm, r)) :
    s = nm ++ r ∧
    (∃ h0 t0, nm = h0 :: t0 ∧ (h0 = '-' ∨ isDigitChar h0 = true)) ∧
    (∃ dl, nm.getLast? = some dl ∧ isDigitChar dl = true) ∧
    ∀ rest, okAfterNum rest = true → parseNumber (nm ++ rest) = some (nm, rest) := by
  cases s with
  | nil => simp [parseNumber] at h
  | cons c0 cs0 =>
    simp only [parseNumber] at h
    by_cases hneg : c0 = '-'
    · rw [if_pos hneg] at h
      obtain ⟨ip, hnm, hsdec, ⟨h0, t0, hip, hd0⟩, ⟨dl, hdl, hp⟩, hrep⟩ :=
        parseNumCore_star [c0] cs0 nm r h
      have hne : ip ≠ [] := by rw [hip]; simp
      refine ⟨?_, ⟨c0, ip, by rw [hnm]; rfl, Or.inl hneg⟩,
        ⟨dl, by rw [hnm, List.getLast?_append_of_ne_nil _ hne, hdl], hp⟩, ?_⟩
      · rw [hnm, hsdec]
        rfl
      · intro rest hr
        rw [hnm]
        rw [show ([c0] ++ ip) ++ rest = c0 :: (ip ++ rest) from rfl]
        simp only [parseNumber]
        rw [if_pos hneg]
        rw [hrep rest hr, hnm]
    · rw [if_neg hneg] at h
      obtain ⟨ip, hnm, hsdec, hhead0, ⟨dl, hdl, hp⟩, hrep⟩ :=
        parseNumCore_star [] (c0 :: cs0) nm r h
      rw [List.nil_append] at hnm
      obtain ⟨h0, t0, hip, hd0⟩ := hhead0
      refine ⟨by rw [hnm]; exact hsdec, ⟨h0, t0, by rw [hnm, hip], Or.inr hd0⟩,
        ⟨dl, by rw [hnm]; exact hdl, hp⟩, ?_⟩
      intro rest hr
      rw [hnm, hip, List.cons_append]
      simp only [parseNumber]
      have hh0 : ¬(h0 = '-') := by
        intro hh; rw [hh] at hd0; exact absurd hd0 (by decide)
      rw [if_neg hh0]
      have h3 := hrep rest hr
      rw [hip, List.cons_append, hnm, hip] at h3
      exact h3

-- ==================== C2: well-formed values ====================

mutual

/-- Values producible by the strict parser: numerals re-parse exactly,
object keys are distinct. -/
def JsonWF : Json → Prop
  | Json.null => True
  | Json.bool _ => True
  | Json.num n => parseNumber n = some (n, [])
  | Json.str _ => True
  | Json.arr xs => JsonListWF xs
  | Json.obj ms => JsonMembersWF ms ∧ List.Pairwise (fun a b => a.1 ≠ b.1) ms

def JsonListWF : List Json → Prop
  | [] => True
  | x :: xs => JsonWF x ∧ JsonListWF xs

def JsonMembersWF : List (List Char × Json) → Prop
  | [] => True
  | m :: ms => JsonWF m.2 ∧ JsonMembersWF ms

end

lemma listWF_append (acc : List Json) (x : Json) (hacc : JsonListWF acc)
    (hx : JsonWF x) : JsonListWF (acc ++ [x]) := by
  induction acc with
  | nil => exact ⟨hx, trivial⟩
  | cons y ys ih => exact ⟨hacc.1, ih hacc.2⟩

lemma membersWF_append (acc : List (List Char × Json)) (k : List Char) (v : Json)
    (hacc : JsonMembersWF acc) (hv : JsonWF v) : JsonMembersWF (acc ++ [(k, v)]) := by
  induction acc with
  | nil => exact ⟨hv, trivial⟩
  | cons y ys ih => exact ⟨hacc.1, ih hacc.2⟩

lemma membersWF_insert (acc : List (List Char × Json)) (k : List Char) (v : Json)
    (hacc : JsonMembersWF acc) (hv : JsonWF v) :
    JsonMembersWF (insertMember acc k v) := by
  unfold insertMember
  by_cases ha : acc.any (fun kv => kv.1 = k) = true
  · rw [if_pos ha]
    clear ha
    induction acc with
    | nil => trivial
    | cons y ys ih =>
      refine ⟨?_, ih hacc.2⟩
      show JsonWF (if y.1 = k then (k, v) else y).2
      by_cases hy : y.1 = k
      · rw [if_pos hy]; exact hv
      · rw [if_neg hy]; exact hacc.1
  · rw [if_neg ha]
    exact membersWF_append acc k v hacc hv

lemma pairwise_insert (acc : List (List Char × Json)) (k : List Char) (v : Json)
    (hpw : List.Pairwise (fun a b => a.1 ≠ b.1) acc) :
    List.Pairwise (fun a b => a.1 ≠ b.1) (insertMember acc k v) := by
  unfold insertMember
  by_cases ha : acc.any (fun kv => kv.1 = k) = true
  · rw [if_pos ha]
    clear ha
    induction hpw with
    | nil => exact List.Pairwise.nil
    | @cons y ys hy hys ih =>
      refine List.Pairwise.cons ?_ ih
      intro b hb
      simp only [List.mem_map] at hb
      obtain ⟨b0, hb0, hbeq⟩ := hb
      have h1 : b.1 = b0.1 := by
        rw [← hbeq]
        show (if b0.1 = k then (k, v) else b0).1 = b0.1
        by_cases hb1 : b0.1 = k
        · rw [if_pos hb1]; rw [hb1]
        · rw [if_neg hb1]
      have h2 : ((fun kv => if kv.1 = k then (k, v) else kv) y).1 = y.1 := by
        show (if y.1 = k then (k, v) else y).1 = y.1
        by_cases hy1 : y.1 = k
        · rw [if_pos hy1]; rw [hy1]
        · rw [if_neg hy1]
      rw [h2, h1]
      exact hy b0 hb0
  · rw [if_neg ha]
    rw [List.pairwise_append]
    refine ⟨hpw, List.pairwise_singleton _ _, ?_⟩
    intro a haa b hbb
    simp only [List.mem_singleton] at hbb
    rw [hbb]
    intro heq
    apply ha
    rw [List.any_eq_true]
    exact ⟨a, haa, by simp [heq]⟩

-- ==================== C2: the parser returns well-formed values ====================

lemma parse_wf : ∀ f : Nat,
    (∀ s v r, parseValue f s = some (v, r) → JsonWF v) ∧
    (∀ s v r, parseObjBody f s = some (v, r) → JsonWF v) ∧
    (∀ acc s v r, JsonMembersWF acc → List.Pairwise (fun a b => a.1 ≠ b.1) acc →
      parseMembers f acc s = some (v, r) → JsonWF v) ∧
    (∀ s v r, parseArrBody f s = some (v, r) → JsonWF v) ∧
    (∀ acc s v r, JsonListWF acc → parseElems f acc s = some (v, r) → JsonWF v) := by
  intro f
  induction f with
  | zero =>
    exact ⟨fun s v r h => by simp [parseValue] at h,
      fun s v r h => by simp [parseObjBody] at h,
      fun acc s v r _ _ h => by simp [parseMembers] at h,
      fun s v r h => by simp [parseArrBody] at h,
      fun acc s v r _ h => by simp [parseElems] at h⟩
  | succ f ih =>
    obtain ⟨ihV, ihO, ihM, ihA, ihE⟩ := ih
    refine ⟨?_, ?_, ?_, ?_, ?_⟩
    · intro s v r h
      simp only [parseValue] at h
      split at h
      · exact Option.noConfusion h
      rename_i c t hsk
      by_cases h1 : c = '{'
      · rw [if_pos h1] at h; exact ihO _ _ _ h
      rw [if_neg h1] at h
      by_cases h2 : c = '['
      · rw [if_pos h2] at h; exact ihA _ _ _ h
      rw [if_neg h2] at h
      by_cases h3 : c = dquote
      · rw [if_pos h3] at h
        simp only [Option.map_eq_some'] at h
        obtain ⟨p, _, hpv⟩ := h
        have hv := congrArg Prod.fst hpv
        simp only at hv
        rw [← hv]
        simp [JsonWF]
      rw [if_neg h3] at h
      by_cases h4 : List.isPrefixOf "true".toList (c :: t) = true
      · rw [if_pos h4] at h
        simp only [Option.some.injEq, Prod.mk.injEq] at h
        rw [← h.1]
        simp [JsonWF]
      rw [if_neg h4] at h
      by_cases h5 : List.isPrefixOf "false".toList (c :: t) = true
      · rw [if_pos h5] at h
        simp only [Option.some.injEq, Prod.mk.injEq] at h
        rw [← h.1]
        simp [JsonWF]
      rw [if_neg h5] at h
      by_cases h6 : List.isPrefixOf "null".toList (c :: t) = true
      · rw [if_pos h6] at h
        simp only [Option.some.injEq, Prod.mk.injEq] at h
        rw [← h.1]
        simp [JsonWF]
      rw [if_neg h6] at h
      simp only [Option.map_eq_some'] at h
      obtain ⟨p, hp, hpv⟩ := h
      have hv := congrArg Prod.fst hpv
      simp only at hv
      rw [← hv]
      simp only [JsonWF]
      obtain ⟨_, _, _, hrep⟩ := parseNumber_star (c :: t) p.1 p.2 (by rw [hp])
      have h7 := hrep [] rfl
      rw [List.append_nil] at h7
      exact h7
    · intro s v r h
      simp only [parseObjBody] at h
      split at h
      · exact Option.noConfusion h
      rename_i c t hsk
      by_cases h1 : c = '}'
      · rw [if_pos h1] at h
        simp only [Option.some.injEq, Prod.mk.injEq] at h
        rw [← h.1]
        simp [JsonWF, JsonMembersWF]
      · rw [if_neg h1] at h
        exact ihM [] _ _ _ trivial List.Pairwise.nil h
    · intro acc s v r hwfacc hpw h
      simp only [parseMembers] at h
      split at h
      · exact Option.noConfusion h
      rename_i c t hsk
      by_cases h1 : c = dquote
      swap
      · rw [if_neg h1] at h; exact Option.noConfusion h
      rw [if_pos h1] at h
      split at h
      · exact Option.noConfusion h
      rename_i k t1 hps
      split at h
      · exact Option.noConfusion h
      rename_i c2 t2 hsk1
      by_cases h2 : c2 = ':'
      swap
      · rw [if_neg h2] at h; exact Option.noConfusion h
      rw [if_pos h2] at h
      split at h
      · exact Option.noConfusion h
      rename_i v2 t3 hpv
      have hwfv2 : JsonWF v2 := ihV _ _ _ hpv
      split at h
      · exact Option.noConfusion h
      rename_i c3 t4 hsk3
      have hwf2 : JsonMembersWF (insertMember acc k v2) :=
        membersWF_insert acc k v2 hwfacc hwfv2
      have hpw2 : List.Pairwise (fun a b => a.1 ≠ b.1) (insertMember acc k v2) :=
        pairwise_insert acc k v2 hpw
      by_cases h3 : c3 = ','
      · rw [if_pos h3] at h
        exact ihM _ _ _ _ hwf2 hpw2 h
      rw [if_neg h3] at h
      by_cases h4 : c3 = '}'
      swap
      · rw [if_neg h4] at h; exact Option.noConfusion h
      rw [if_pos h4] at h
      simp only [Option.some.injEq, Prod.mk.injEq] at h
      rw [← h.1]
      exact ⟨hwf2, hpw2⟩
    · intro s v r h
      simp only [parseArrBody] at h
      split at h
      · exact Option.noConfusion h
      rename_i c t hsk
      by_cases h1 : c = ']'
      · rw [if_pos h1] at h
        simp only [Option.some.injEq, Prod.mk.injEq] at h
        rw [← h.1]
        simp [JsonWF, JsonListWF]
      · rw [if_neg h1] at h
        exact ihE [] _ _ _ trivial h
    · intro acc s v r hwfacc h
      simp only [parseElems] at h
      split at h
      · exact Option.noConfusion h
      rename_i v2 t hpv
      have hwfv2 := ihV _ _ _ hpv
      split at h
      · exact Option.noConfusion h
      rename_i c t2 hsk
      have hwf2 : JsonListWF (acc ++ [v2]) := listWF_append acc v2 hwfacc hwfv2
      by_cases h1 : c = ','
      · rw [if_pos h1] at h
        exact ihE _ _ _ _ hwf2 h
      rw [if_neg h1] at h
      by_cases h2 : c = ']'
      swap
      · rw [if_neg h2] at h; exact Option.noConfusion h
      rw [if_pos h2] at h
      simp only [Option.some.injEq, Prod.mk.injEq] at h
      rw [← h.1]
      simp only [JsonWF]
      exact hwf2

-- ==================== C2: the last consumed character is not whitespace ====================

lemma skipWs_decomp (s : List Char) : s = List.takeWhile isJsonWs s ++ skipWs s :=
  (List.takeWhile_append_dropWhile _ _).symm

lemma append_cons_assoc (a : List Char) (c : Char) (b : List Char) :
    a ++ c :: b = (a ++ [c]) ++ b := by
  rw [List.append_assoc]
  rfl

lemma skip_cons_decomp (X : List Char) (c : Char) (t : List Char)
    (hsk : skipWs X = c :: t) : X = (List.takeWhile isJsonWs X ++ [c]) ++ t := by
  conv_lhs => rw [skipWs_decomp X]
  rw [hsk, append_cons_assoc]

lemma ends_mono (s a t r : List Char) (hs : s = a ++ t)
    (h : ∃ p c2, t = p ++ c2 :: r ∧ jsWs c2 = false) :
    ∃ p c2, s = p ++ c2 :: r ∧ jsWs c2 = false := by
  obtain ⟨p, c2, hp, hc⟩ := h
  exact ⟨a ++ p, c2, by rw [hs, hp, List.append_assoc], hc⟩

lemma decomp_of_getLast (l : List Char) (dl : Char) (h : l.getLast? = some dl) :
    ∃ p, l = p ++ [dl] := by
  have h2 : l.reverse.head? = some dl := by rw [List.head?_reverse]; exact h
  cases hrev : l.reverse with
  | nil => rw [hrev] at h2; exact Option.noConfusion h2
  | cons d rr =>
    rw [hrev] at h2
    have hd : d = dl := by simpa using h2
    refine ⟨rr.reverse, ?_⟩
    rw [← List.reverse_reverse l, hrev, hd]
    simp

lemma parse_ends : ∀ f : Nat,
    (∀ s v r, parseValue f s = some (v, r) →
      ∃ p c2, s = p ++ c2 :: r ∧ jsWs c2 = false) ∧
    (∀ s v r, parseObjBody f s = some (v, r) →
      ∃ p c2, s = p ++ c2 :: r ∧ jsWs c2 = false) ∧
    (∀ acc s v r, parseMembers f acc s = some (v, r) →
      ∃ p c2, s = p ++ c2 :: r ∧ jsWs c2 = false) ∧
    (∀ s v r, parseArrBody f s = some (v, r) →
      ∃ p c2, s = p ++ c2 :: r ∧ jsWs c2 = false) ∧
    (∀ acc s v r, parseElems f acc s = some (v, r) →
      ∃ p c2, s = p ++ c2 :: r ∧ jsWs c2 = false) := by
  intro f
  induction f with
  | zero =>
    exact ⟨fun s v r h => by simp [parseValue] at h,
      fun s v r h => by simp [parseObjBody] at h,
      fun acc s v r h => by simp [parseMembers] at h,
      fun s v r h => by simp [parseArrBody] at h,
      fun acc s v r h => by simp [parseElems] at h⟩
  | succ f ih =>
    obtain ⟨ihV, ihO, ihM, ihA, ihE⟩ := ih
    refine ⟨?_, ?_, ?_, ?_, ?_⟩
    · intro s v r h
      simp only [parseValue] at h
      split at h
      · exact Option.noConfusion h
      rename_i c t hsk
      by_cases h1 : c = '{'
      · rw [if_pos h1] at h
        exact ends_mono s _ t r (skip_cons_decomp s c t hsk) (ihO _ _ _ h)
      rw [if_neg h1] at h
      by_cases h2 : c = '['
      · rw [if_pos h2] at h
        exact ends_mono s _ t r (skip_cons_decomp s c t hsk) (ihA _ _ _ h)
      rw [if_neg h2] at h
      by_cases h3 : c = dquote
      · rw [if_pos h3] at h
        simp only [Option.map_eq_some'] at h
        obtain ⟨q, hq, hqv⟩ := h
        have hr : q.2 = r := congrArg Prod.snd hqv
        obtain ⟨qq, hqq⟩ := parseJStringBody_decomp t q.1 q.2 hq
        rw [hr] at hqq
        refine ends_mono s _ t r (skip_cons_decomp s c t hsk) ⟨qq, dquote, hqq, by decide⟩
      rw [if_neg h3] at h
      by_cases h4 : List.isPrefixOf "true".toList (c :: t) = true
      · rw [if_pos h4] at h
        simp only [Option.some.injEq, Prod.mk.injEq] at h
        obtain ⟨u, hu⟩ := List.isPrefixOf_iff_prefix.mp h4
        rw [← hu] at h
        have hr : u = r := by
          rw [← h.2]
          exact (List.drop_left "true".toList u).symm
        refine ⟨List.takeWhile isJsonWs s ++ ['t', 'r', 'u'], 'e', ?_, by decide⟩
        conv_lhs => rw [skipWs_decomp s]
        rw [hsk, ← hu, ← hr]
        rw [show "true".toList = ['t', 'r', 'u', 'e'] from rfl]
        simp [List.append_assoc]
      rw [if_neg h4] at h
      by_cases h5 : List.isPrefixOf "false".toList (c :: t) = true
      · rw [if_pos h5] at h
        simp only [Option.some.injEq, Prod.mk.injEq] at h
        obtain ⟨u, hu⟩ := List.isPrefixOf_iff_prefix.mp h5
        rw [← hu] at h
        have hr : u = r := by
          rw [← h.2]
          exact (List.drop_left "false".toList u).symm
        refine ⟨List.takeWhile isJsonWs s ++ ['f', 'a', 'l', 's'], 'e', ?_, by decide⟩
        conv_lhs => rw [skipWs_decomp s]
        rw [hsk, ← hu, ← hr]
        rw [show "false".toList = ['f', 'a', 'l', 's', 'e'] from rfl]
        simp [List.append_assoc]
      rw [if_neg h5] at h
      by_cases h6 : List.isPrefixOf "null".toList (c :: t) = true
      · rw [if_pos h6] at h
        simp only [Option.some.injEq, Prod.mk.injEq] at h
        obtain ⟨u, hu⟩ := List.isPrefixOf_iff_prefix.mp h6
        rw [← hu] at h
        have hr : u = r := by
          rw [← h.2]
          exact (List.drop_left "null".toList u).symm
        refine ⟨List.takeWhile isJsonWs s ++ ['n', 'u', 'l'], 'l', ?_, by decide⟩
        conv_lhs => rw [skipWs_decomp s]
        rw [hsk, ← hu, ← hr]
        rw [show "null".toList = ['n', 'u', 'l', 'l'] from rfl]
        simp [List.append_assoc]
      rw [if_neg h6] at h
      simp only [Option.map_eq_some'] at h
      obtain ⟨q, hq, hqv⟩ := h
      have hr : q.2 = r := congrArg Prod.snd hqv
      obtain ⟨hdec, _, ⟨dl, hdl, hpdl⟩, _⟩ := parseNumber_star (c :: t) q.1 q.2 (by rw [hq])
      obtain ⟨pn, hpn⟩ := decomp_of_getLast q.1 dl hdl
      refine ends_mono s (List.takeWhile isJsonWs s) (c :: t) r ?_
        ⟨pn, dl, ?_, jsWs_digit_false dl hpdl⟩
      · conv_lhs => rw [skipWs_decomp s]
        rw [hsk]
      · rw [hdec, hpn, ← hr, List.append_assoc]
        rfl
    · intro s v r h
      simp only [parseObjBody] at h
      split at h
      · exact Option.noConfusion h
      rename_i c t hsk
      by_cases h1 : c = '}'
      · rw [if_pos h1] at h
        simp only [Option.some.injEq, Prod.mk.injEq] at h
        refine ⟨List.takeWhile isJsonWs s, '}', ?_, by decide⟩
        conv_lhs => rw [skipWs_decomp s]
        rw [hsk, h1, h.2]
      · rw [if_neg h1] at h
        refine ends_mono s (List.takeWhile isJsonWs s) (c :: t) r ?_ (ihM _ _ _ _ h)
        conv_lhs => rw [skipWs_decomp s]
        rw [hsk]
    · intro acc s v r h
      simp only [parseMembers] at h
      split at h
      · exact Option.noConfusion h
      rename_i c t hsk
      by_cases h1 : c = dquote
      swap
      · rw [if_neg h1] at h; exact Option.noConfusion h
      rw [if_pos h1] at h
      split at h
      · exact Option.noConfusion h
      rename_i k t1 hps
      split at h
      · exact Option.noConfusion h
      rename_i c2 t2 hsk1
      by_cases h2 : c2 = ':'
      swap
      · rw [if_neg h2] at h; exact Option.noConfusion h
      rw [if_pos h2] at h
      split at h
      · exact Option.noConfusion h
      rename_i v2 t3 hpv
      split at h
      · exact Option.noConfusion h
      rename_i c3 t4 hsk3
      obtain ⟨qq, hqq⟩ := parseJStringBody_decomp t k t1 hps
      obtain ⟨pV, cV, hpV, _⟩ := ihV _ _ _ hpv
      have e1 : s = (List.takeWhile isJsonWs s ++ [c]) ++ t := skip_cons_decomp s c t hsk
      have e2 : t = (qq ++ [dquote]) ++ t1 := by rw [hqq, append_cons_assoc]
      have e3 : t1 = (List.takeWhile isJsonWs t1 ++ [c2]) ++ t2 :=
        skip_cons_decomp t1 c2 t2 hsk1
      have e4 : t2 = (pV ++ [cV]) ++ t3 := by rw [hpV, append_cons_assoc]
      by_cases h3 : c3 = ','
      · rw [if_pos h3] at h
        have e5 : t3 = (List.takeWhile isJsonWs t3 ++ [c3]) ++ t4 :=
          skip_cons_decomp t3 c3 t4 hsk3
        exact ends_mono s _ t r e1 (ends_mono t _ t1 r e2 (ends_mono t1 _ t2 r e3
          (ends_mono t2 _ t3 r e4 (ends_mono t3 _ t4 r e5 (ihM _ _ _ _ h)))))
      rw [if_neg h3] at h
      by_cases h4 : c3 = '}'
      swap
      · rw [if_neg h4] at h; exact Option.noConfusion h
      rw [if_pos h4] at h
      simp only [Option.some.injEq, Prod.mk.injEq] at h
      refine ends_mono s _ t r e1 (ends_mono t _ t1 r e2 (ends_mono t1 _ t2 r e3
        (ends_mono t2 _ t3 r e4 ⟨List.takeWhile isJsonWs t3, '}', ?_, by decide⟩)))
      conv_lhs => rw [skipWs_decomp t3]
      rw [hsk3, h4, h.2]
    · intro s v r h
      simp only [parseArrBody] at h
      split at h
      · exact Option.noConfusion h
      rename_i c t hsk
      by_cases h1 : c = ']'
      · rw [if_pos h1] at h
        simp only [Option.some.injEq, Prod.mk.injEq] at h
        refine ⟨List.takeWhile isJsonWs s, ']', ?_, by decide⟩
        conv_lhs => rw [skipWs_decomp s]
        rw [hsk, h1, h.2]
      · rw [if_neg h1] at h
        refine ends_mono s (List.takeWhile isJsonWs s) (c :: t) r ?_ (ihE _ _ _ _ h)
        conv_lhs => rw [skipWs_decomp s]
        rw [hsk]
    · intro acc s v r h
      simp only [parseElems] at h
      split at h
      · exact Option.noConfusion h
      rename_i v2 t hpv
      split at h
      · exact Option.noConfusion h
      rename_i c t2 hsk
      obtain ⟨pV, cV, hpV, _⟩ := ihV _ _ _ hpv
      have e1 : s = (pV ++ [cV]) ++ t := by rw [hpV, append_cons_assoc]
      by_cases h1 : c = ','
      · rw [if_pos h1] at h
        have e2 : t = (List.takeWhile isJsonWs t ++ [c]) ++ t2 :=
          skip_cons_decomp t c t2 hsk
        exact ends_mono s _ t r e1 (ends_mono t _ t2 r e2 (ihE _ _ _ _ h))
      rw [if_neg h1] at h
      by_cases h2 : c = ']'
      swap
      · rw [if_neg h2] at h; exact Option.noConfusion h
      rw [if_pos h2] at h
      simp only [Option.some.injEq, Prod.mk.injEq] at h
      refine ends_mono s _ t r e1 ⟨List.takeWhile isJsonWs t, ']', ?_, by decide⟩
      conv_lhs => rw [skipWs_decomp t]
      rw [hsk, h2, h.2]

lemma parseValue_skip (f : Nat) (s : List Char) (c : Char) (t : List Char)
    (hsk : skipWs s = c :: t) :
    parseValue (f + 1) s =
      if c = '{' then parseObjBody f t
      else if c = '[' then parseArrBody f t
      else if c = dquote then (parseJStringBody t).map (fun p => (Json.str p.1, p.2))
      else if List.isPrefixOf "true".toList (c :: t) then
        some (Json.bool true, (c :: t).drop 4)
      else if List.isPrefixOf "false".toList (c :: t) then
        some (Json.bool false, (c :: t).drop 5)
      else if List.isPrefixOf "null".toList (c :: t) then
        some (Json.null, (c :: t).drop 4)
      else (parseNumber (c :: t)).map (fun p => (Json.num p.1, p.2)) := by
  simp only [parseValue]
  rw [hsk]

lemma parseObjBody_skip (f : Nat) (s : List Char) (c : Char) (t : List Char)
    (hsk : skipWs s = c :: t) :
    parseObjBody (f + 1) s =
      if c = '}' then some (Json.obj [], t) else parseMembers f [] (c :: t) := by
  simp only [parseObjBody]
  rw [hsk]

lemma parseArrBody_skip (f : Nat) (s : List Char) (c : Char) (t : List Char)
    (hsk : skipWs s = c :: t) :
    parseArrBody (f + 1) s =
      if c = ']' then some (Json.arr [], t) else parseElems f [] (c :: t) := by
  simp only [parseArrBody]
  rw [hsk]

lemma parseMembers_run (f : Nat) (acc : List (List Char × Json)) (s : List Char)
    (t k t1 t2 : List Char) (v : Json) (t3 : List Char) (c3 : Char) (t4 : List Char)
    (hsk0 : skipWs s = dquote :: t)
    (hps : parseJStringBody t = some (k, t1))
    (hsk1 : skipWs t1 = ':' :: t2)
    (hv : parseValue f t2 = some (v, t3))
    (hsk3 : skipWs t3 = c3 :: t4) :
    parseMembers (f + 1) acc s =
      if c3 = ',' then parseMembers f (insertMember acc k v) t4
      else if c3 = '}' then some (Json.obj (insertMember acc k v), t4)
      else none := by
  simp only [parseMembers]
  rw [hsk0]
  simp only [hps, hsk1, hv, hsk3, reduceIte]

lemma parseElems_run (f : Nat) (acc : List Json) (s : List Char) (v : Json)
    (t : List Char) (c : Char) (t2 : List Char)
    (hv : parseValue f s = some (v, t)) (hsk : skipWs t = c :: t2) :
    parseElems (f + 1) acc s =
      if c = ',' then parseElems f (acc ++ [v]) t2
      else if c = ']' then some (Json.arr (acc ++ [v]), t2)
      else none := by
  simp only [parseElems]
  simp only [hv, hsk]

-- ==================== C2: fuel costs and render shape ====================

mutual

/-- Fuel needed by the parser to consume a rendered value. -/
def costV : Json → Nat
  | Json.null => 1
  | Json.bool _ => 1
  | Json.num _ => 1
  | Json.str _ => 1
  | Json.arr xs => 2 + costListV xs
  | Json.obj ms => 2 + costMembersV ms

def costListV : List Json → Nat
  | [] => 1
  | x :: xs => 1 + costV x + costListV xs

def costMembersV : List (List Char × Json) → Nat
  | [] => 1
  | m :: ms => 1 + costV m.2 + costMembersV ms

end

mutual

lemma cost_le_render : ∀ (v : Json) (d : Nat), JsonWF v →
    costV v + 1 ≤ 3 * (render v d).length
  | Json.null, d, _ => by simp only [costV, render]; decide
  | Json.bool true, d, _ => by simp only [costV, render]; decide
  | Json.bool false, d, _ => by simp only [costV, render]; decide
  | Json.num n, d, hwf => by
    obtain ⟨_, ⟨h0, t0, hip, _⟩, _, _⟩ :=
      parseNumber_star n n [] (by exact hwf)
    simp only [costV, render, hip, List.length_cons]
    omega
  | Json.str s, d, _ => by
    simp only [costV, render, jsonQuote, List.length_cons, List.length_append]
    omega
  | Json.arr [], d, _ => by simp only [costV, costListV, render]; decide
  | Json.arr (x :: xs), d, hwf => by
    have h1 := costList_le_render (x :: xs) (d + 1) (by exact hwf)
    simp only [costV, render, List.length_cons, List.length_append,
      List.length_replicate]
    omega
  | Json.obj [], d, _ => by simp only [costV, costMembersV, render]; decide
  | Json.obj (m :: ms), d, hwf => by
    have h1 := costMembers_le_render (m :: ms) (d + 1) (by exact hwf.1)
    simp only [costV, render, List.length_cons, List.length_append,
      List.length_replicate]
    omega

lemma costList_le_render : ∀ (xs : List Json) (d : Nat), JsonListWF xs →
    costListV xs ≤ 3 * (renderElems xs d).length + 3
  | [], d, _ => by simp only [costListV, renderElems]; omega
  | [x], d, hwf => by
    have h1 := cost_le_render x d hwf.1
    simp only [costListV, renderElems, List.length_append, List.length_replicate]
    omega
  | x :: y :: ys, d, hwf => by
    have h1 := cost_le_render x d hwf.1
    have h2 := costList_le_render (y :: ys) d hwf.2
    simp only [costListV] at h2
    simp only [costListV, renderElems, List.length_append, List.length_replicate,
      List.length_cons]
    omega

lemma costMembers_le_render : ∀ (ms : List (List Char × Json)) (d : Nat),
    JsonMembersWF ms → costMembersV ms ≤ 3 * (renderMembers ms d).length + 3
  | [], d, _ => by simp only [costMembersV, renderMembers]; omega
  | [(k, v)], d, hwf => by
    have h1 := cost_le_render v d hwf.1
    simp only [costMembersV, renderMembers, List.length_append,
      List.length_replicate, List.length_cons]
    omega
  | (k, v) :: m2 :: ms, d, hwf => by
    have h1 := cost_le_render v d hwf.1
    have h2 := costMembers_le_render (m2 :: ms) d hwf.2
    simp only [costMembersV] at h2
    simp only [costMembersV, renderMembers, List.length_append,
      List.length_replicate, List.length_cons]
    omega

end

lemma costV_pos (v : Json) : 1 ≤ costV v := by
  cases v <;> simp [costV] <;> omega

lemma render_head : ∀ (v : Json) (d : Nat), JsonWF v →
    ∃ c t, render v d = c :: t ∧ isJsonWs c = false ∧ c ≠ ']' ∧ c ≠ '}'
  | Json.null, d, _ => ⟨'n', _, rfl, by decide, by decide, by decide⟩
  | Json.bool true, d, _ => ⟨'t', _, rfl, by decide, by decide, by decide⟩
  | Json.bool false, d, _ => ⟨'f', _, rfl, by decide, by decide, by decide⟩
  | Json.num n, d, hwf => by
    obtain ⟨_, ⟨h0, t0, hip, hd⟩, _, _⟩ := parseNumber_star n n [] (by exact hwf)
    refine ⟨h0, t0, by simp only [render]; exact hip, ?_, ?_, ?_⟩
    · rcases hd with rfl | hdig
      · decide
      · exact isJsonWs_digit_false h0 hdig
    · rcases hd with rfl | hdig
      · decide
      · intro heq; rw [heq] at hdig; exact absurd hdig (by decide)
    · rcases hd with rfl | hdig
      · decide
      · intro heq; rw [heq] at hdig; exact absurd hdig (by decide)
  | Json.str s, d, _ =>
    ⟨dquote, escString s ++ [dquote], rfl, by decide, by decide, by decide⟩
  | Json.arr [], d, _ => ⟨'[', [']'], rfl, by decide, by decide, by decide⟩
  | Json.arr (x :: xs), d, _ => ⟨'[', _, rfl, by decide, by decide, by decide⟩
  | Json.obj [], d, _ => ⟨'{', ['}'], rfl, by decide, by decide, by decide⟩
  | Json.obj (m :: ms), d, _ => ⟨'{', _, rfl, by decide, by decide, by decide⟩

lemma render_last : ∀ (v : Json) (d : Nat), JsonWF v →
    ∃ p c, render v d = p ++ [c] ∧ isJsonWs c = false
  | Json.null, d, _ => ⟨['n', 'u', 'l'], 'l', rfl, by decide⟩
  | Json.bool true, d, _ => ⟨['t', 'r', 'u'], 'e', rfl, by decide⟩
  | Json.bool false, d, _ => ⟨['f', 'a', 'l', 's'], 'e', rfl, by decide⟩
  | Json.num n, d, hwf => by
    obtain ⟨_, _, ⟨dl, hdl, hpdl⟩, _⟩ := parseNumber_star n n [] (by exact hwf)
    obtain ⟨p, hp⟩ := decomp_of_getLast n dl hdl
    exact ⟨p, dl, by simp only [render]; exact hp, isJsonWs_digit_false dl hpdl⟩
  | Json.str s, d, _ => ⟨dquote :: escString s, dquote, rfl, by decide⟩
  | Json.arr [], d, _ => ⟨['['], ']', rfl, by decide⟩
  | Json.arr (x :: xs), d, _ => by
    refine ⟨'[' :: Char.ofNat 10 :: (renderElems (x :: xs) (d + 1) ++
      Char.ofNat 10 :: List.replicate (2 * d) ' '), ']', ?_, by decide⟩
    simp only [render, List.cons_append, List.append_assoc]
  | Json.obj [], d, _ => ⟨['{'], '}', rfl, by decide⟩
  | Json.obj (m :: ms), d, _ => by
    refine ⟨'{' :: Char.ofNat 10 :: (renderMembers (m :: ms) (d + 1) ++
      Char.ofNat 10 :: List.replicate (2 * d) ' '), '}', ?_, by decide⟩
    simp only [render, List.cons_append, List.append_assoc]

lemma parseValue_ws (f : Nat) (w s : List Char) (hw : ∀ c ∈ w, isJsonWs c = true) :
    parseValue f (w ++ s) = parseValue f s := by
  cases f with
  | zero => rfl
  | succ f =>
    simp only [parseValue]
    rw [skipWs_append_all w s hw]

lemma parseElems_ws (f : Nat) (acc : List Json) (w s : List Char)
    (hw : ∀ c ∈ w, isJsonWs c = true) :
    parseElems f acc (w ++ s) = parseElems f acc s := by
  cases f with
  | zero => rfl
  | succ f =>
    simp only [parseElems]
    rw [parseValue_ws f w s hw]

lemma parseMembers_ws (f : Nat) (acc : List (List Char × Json)) (w s : List Char)
    (hw : ∀ c ∈ w, isJsonWs c = true) :
    parseMembers f acc (w ++ s) = parseMembers f acc s := by
  cases f with
  | zero => rfl
  | succ f =>
    simp only [parseMembers]
    rw [skipWs_append_all w s hw]

lemma ws_run_all (n : Nat) :
    ∀ c ∈ Char.ofNat 10 :: List.replicate n ' ', isJsonWs c = true := by
  intro c hc
  rcases List.mem_cons.mp hc with rfl | hc2
  · decide
  · rw [List.eq_of_mem_replicate hc2]; decide

lemma ws_space : ∀ c ∈ [' '], isJsonWs c = true := by
  intro c hc
  simp only [List.mem_singleton] at hc
  rw [hc]; decide

-- The stream of remaining array elements or object members, as the
-- parser sees it after one rendered element.

/-- Tail of the rendered element stream of a nonempty array at depth d. -/
def elemsTail (d : Nat) (rest : List Char) : List Json → List Char
  | [] => Char.ofNat 10 :: (List.replicate (2 * d) ' ' ++ ']' :: rest)
  | y :: ys => ',' :: Char.ofNat 10 :: (List.replicate (2 * (d + 1)) ' ' ++
      (render y (d + 1) ++ elemsTail d rest ys))

/-- Tail of the rendered member stream of a nonempty object at depth d. -/
def membersTail (d : Nat) (rest : List Char) : List (List Char × Json) → List Char
  | [] => Char.ofNat 10 :: (List.replicate (2 * d) ' ' ++ '}' :: rest)
  | m :: ms => ',' :: Char.ofNat 10 :: (List.replicate (2 * (d + 1)) ' ' ++
      (jsonQuote m.1 ++ ':' :: ' ' :: (render m.2 (d + 1) ++ membersTail d rest ms)))

lemma okAfter_elemsTail (d : Nat) (rest : List Char) (xs : List Json) :
    okAfterNum (elemsTail d rest xs) = true := by
  cases xs <;> rfl

lemma okAfter_membersTail (d : Nat) (rest : List Char)
    (ms : List (List Char × Json)) : okAfterNum (membersTail d rest ms) = true := by
  cases ms <;> rfl

lemma elems_stream : ∀ (xs : List Json) (x : Json) (d : Nat) (rest : List Char),
    renderElems (x :: xs) (d + 1) ++
      (Char.ofNat 10 :: (List.replicate (2 * d) ' ' ++ ']' :: rest)) =
    List.replicate (2 * (d + 1)) ' ' ++ (render x (d + 1) ++ elemsTail d rest xs)
  | [], x, d, rest => by
    simp only [renderElems, elemsTail, List.append_assoc]
  | y :: ys, x, d, rest => by
    have ih := elems_stream ys y d rest
    simp only [renderElems, elemsTail, List.append_assoc, List.cons_append] at ih ⊢
    rw [ih]

lemma members_stream : ∀ (ms : List (List Char × Json)) (k : List Char) (v : Json)
    (d : Nat) (rest : List Char),
    renderMembers ((k, v) :: ms) (d + 1) ++
      (Char.ofNat 10 :: (List.replicate (2 * d) ' ' ++ '}' :: rest)) =
    List.replicate (2 * (d + 1)) ' ' ++
      (jsonQuote k ++ ':' :: ' ' :: (render v (d + 1) ++ membersTail d rest ms))
  | [], k, v, d, rest => by
    simp only [renderMembers, membersTail, List.append_assoc, List.cons_append]
  | (k2, v2) :: ms, k, v, d, rest => by
    have ih := members_stream ms k2 v2 d rest
    simp only [renderMembers, membersTail, List.append_assoc, List.cons_append] at ih ⊢
    rw [ih]

lemma arr_stream (x : Json) (xs : List Json) (d : Nat) (rest : List Char) :
    render (Json.arr (x :: xs)) d ++ rest =
      '[' :: ((Char.ofNat 10 :: List.replicate (2 * (d + 1)) ' ') ++
        (render x (d + 1) ++ elemsTail d rest xs)) := by
  have h1 := elems_stream xs x d rest
  simp only [render, List.append_assoc, List.cons_append, List.nil_append] at h1 ⊢
  rw [h1]

lemma obj_stream (k : List Char) (v : Json) (ms : List (List Char × Json))
    (d : Nat) (rest : List Char) :
    render (Json.obj ((k, v) :: ms)) d ++ rest =
      '{' :: ((Char.ofNat 10 :: List.replicate (2 * (d + 1)) ' ') ++
        (jsonQuote k ++ ':' :: ' ' :: (render v (d + 1) ++ membersTail d rest ms))) := by
  have h1 := members_stream ms k v d rest
  simp only [render, List.append_assoc, List.cons_append, List.nil_append] at h1 ⊢
  rw [h1]

lemma insert_append (acc : List (List Char × Json)) (k : List Char) (v : Json)
    (hno : ∀ a ∈ acc, a.1 ≠ k) : insertMember acc k v = acc ++ [(k, v)] := by
  unfold insertMember
  rw [if_neg ?_]
  simp only [List.any_eq_true]
  rintro ⟨a, ha, haeq⟩
  exact hno a ha (by simpa using haeq)

lemma costListV_pos (xs : List Json) : 1 ≤ costListV xs := by
  cases xs with
  | nil => simp [costListV]
  | cons a b => simp only [costListV]; omega

lemma costMembersV_pos (ms : List (List Char × Json)) : 1 ≤ costMembersV ms := by
  cases ms with
  | nil => simp [costMembersV]
  | cons a b => simp only [costMembersV]; omega

lemma not_isPrefixOf_cons (a : Char) (wt : List Char) (c : Char) (t : List Char)
    (h : (a == c) = false) : ¬(List.isPrefixOf (a :: wt) (c :: t) = true) := by
  rw [List.isPrefixOf_cons₂, h, Bool.false_and]
  simp

lemma prefix_lit (w rest s : List Char) (h : s = w ++ rest) :
    List.isPrefixOf w s = true :=
  List.isPrefixOf_iff_prefix.mpr ⟨rest, h.symm⟩

lemma parse_render : ∀ f : Nat,
    (∀ v d rest, JsonWF v → costV v ≤ f → okAfterNum rest = true →
      parseValue f (render v d ++ rest) = some (v, rest)) ∧
    (∀ acc k v2 ms d rest, JsonWF v2 → JsonMembersWF ms →
      List.Pairwise (fun a b => a.1 ≠ b.1) (acc ++ (k, v2) :: ms) →
      1 + costV v2 + costMembersV ms ≤ f →
      parseMembers f acc
        (jsonQuote k ++ ':' :: ' ' :: (render v2 (d + 1) ++ membersTail d rest ms)) =
        some (Json.obj (acc ++ (k, v2) :: ms), rest)) ∧
    (∀ acc x xs d rest, JsonWF x → JsonListWF xs → 1 + costV x + costListV xs ≤ f →
      parseElems f acc (render x (d + 1) ++ elemsTail d rest xs) =
        some (Json.arr (acc ++ x :: xs), rest)) := by
  intro f
  induction f using Nat.strong_induction_on with
  | _ f ih =>
  refine ⟨?_, ?_, ?_⟩
  · intro v d rest hwf hcost hok
    cases v with
    | null =>
      cases f with
      | zero => simp [costV] at hcost
      | succ f1 =>
        rw [show render Json.null d ++ rest = 'n' :: ('u' :: 'l' :: 'l' :: rest) from rfl]
        rw [parseValue_skip f1 _ 'n' _ (skipWs_cons_false 'n' _ (by decide))]
        rw [if_neg (by decide), if_neg (by decide), if_neg (by decide)]
        rw [show "true".toList = ['t', 'r', 'u', 'e'] from rfl,
          show "false".toList = ['f', 'a', 'l', 's', 'e'] from rfl,
          show "null".toList = ['n', 'u', 'l', 'l'] from rfl]
        rw [if_neg (not_isPrefixOf_cons 't' ['r', 'u', 'e'] 'n' _ (by decide)),
          if_neg (not_isPrefixOf_cons 'f' ['a', 'l', 's', 'e'] 'n' _ (by decide)),
          if_pos (prefix_lit ['n', 'u', 'l', 'l'] rest
            ('n' :: 'u' :: 'l' :: 'l' :: rest) rfl)]
        rfl
    | bool b =>
      cases f with
      | zero => simp [costV] at hcost
      | succ f1 =>
        cases b with
        | true =>
          rw [show render (Json.bool true) d ++ rest =
            't' :: ('r' :: 'u' :: 'e' :: rest) from rfl]
          rw [parseValue_skip f1 _ 't' _ (skipWs_cons_false 't' _ (by decide))]
          rw [if_neg (by decide), if_neg (by decide), if_neg (by decide)]
          rw [show "true".toList = ['t', 'r', 'u', 'e'] from rfl]
          rw [if_pos (prefix_lit ['t', 'r', 'u', 'e'] rest
            ('t' :: 'r' :: 'u' :: 'e' :: rest) rfl)]
          rfl
        | false =>
          rw [show render (Json.bool false) d ++ rest =
            'f' :: ('a' :: 'l' :: 's' :: 'e' :: rest) from rfl]
          rw [parseValue_skip f1 _ 'f' _ (skipWs_cons_false 'f' _ (by decide))]
          rw [if_neg (by decide), if_neg (by decide), if_neg (by decide)]
          rw [show "true".toList = ['t', 'r', 'u', 'e'] from rfl,
            show "false".toList = ['f', 'a', 'l', 's', 'e'] from rfl]
          rw [if_neg (not_isPrefixOf_cons 't' ['r', 'u', 'e'] 'f' _ (by decide)),
            if_pos (prefix_lit ['f', 'a', 'l', 's', 'e'] rest
              ('f' :: 'a' :: 'l' :: 's' :: 'e' :: rest) rfl)]
          rfl
    | num n =>
      have hwfn : parseNumber n = some (n, []) := hwf
      obtain ⟨_, ⟨h0, t0, hip, hd⟩, _, hrep⟩ := parseNumber_star n n [] hwfn
      cases f with
      | zero => simp [costV] at hcost
      | succ f1 =>
        have hstream : render (Json.num n) d ++ rest = h0 :: (t0 ++ rest) := by
          simp only [render]
          rw [hip]
          rfl
        rw [hstream]
        have hws0 : isJsonWs h0 = false := by
          rcases hd with rfl | hdig
          · decide
          · exact isJsonWs_digit_false h0 hdig
        rw [parseValue_skip f1 _ h0 _ (skipWs_cons_false h0 _ hws0)]
        have hne1 : ¬(h0 = '{') := by
          rcases hd with rfl | hdig
          · decide
          · intro heq; rw [heq] at hdig; exact absurd hdig (by decide)
        have hne2 : ¬(h0 = '[') := by
          rcases hd with rfl | hdig
          · decide
          · intro heq; rw [heq] at hdig; exact absurd hdig (by decide)
        have hne3 : ¬(h0 = dquote) := by
          rcases hd with rfl | hdig
          · decide
          · intro heq; rw [heq] at hdig; exact absurd hdig (by decide)
        have hnet : ('t' == h0) = false := by
          rw [beq_eq_false_iff_ne]
          rcases hd with rfl | hdig
          · decide
          · intro heq; rw [← heq] at hdig; exact absurd hdig (by decide)
        have hnef : ('f' == h0) = false := by
          rw [beq_eq_false_iff_ne]
          rcases hd with rfl | hdig
          · decide
          · intro heq; rw [← heq] at hdig; exact absurd hdig (by decide)
        have hnen : ('n' == h0) = false := by
          rw [beq_eq_false_iff_ne]
          rcases hd with rfl | hdig
          · decide
          · intro heq; rw [← heq] at hdig; exact absurd hdig (by decide)
        rw [if_neg hne1, if_neg hne2, if_neg hne3]
        rw [show "true".toList = ['t', 'r', 'u', 'e'] from rfl,
          show "false".toList = ['f', 'a', 'l', 's', 'e'] from rfl,
          show "null".toList = ['n', 'u', 'l', 'l'] from rfl]
        rw [if_neg (not_isPrefixOf_cons 't' ['r', 'u', 'e'] h0 _ hnet),
          if_neg (not_isPrefixOf_cons 'f' ['a', 'l', 's', 'e'] h0 _ hnef),
          if_neg (not_isPrefixOf_cons 'n' ['u', 'l', 'l'] h0 _ hnen)]
        rw [show h0 :: (t0 ++ rest) = n ++ rest from by rw [hip]; rfl]
        rw [hrep rest hok]
        rfl
    | str sv =>
      cases f with
      | zero => simp [costV] at hcost
      | succ f1 =>
        have hstream : render (Json.str sv) d ++ rest =
            dquote :: (escString sv ++ dquote :: rest) := by
          simp only [render, jsonQuote, List.cons_append, List.append_assoc,
            List.singleton_append, List.nil_append]
        rw [hstream]
        rw [parseValue_skip f1 _ dquote _ (skipWs_cons_false dquote _ (by decide))]
        rw [if_neg (by decide), if_neg (by decide), if_pos rfl]
        rw [parseJStringBody_esc sv rest]
        rfl
    | arr xs =>
      cases xs with
      | nil =>
        cases f with
        | zero => simp [costV, costListV] at hcost
        | succ f1 =>
          cases f1 with
          | zero => simp only [costV, costListV] at hcost; omega
          | succ f2 =>
            rw [show render (Json.arr []) d ++ rest = '[' :: (']' :: rest) from rfl]
            rw [parseValue_skip (f2 + 1) _ '[' _ (skipWs_cons_false _ _ (by decide))]
            rw [if_neg (by decide), if_pos rfl]
            rw [parseArrBody_skip f2 _ ']' rest (skipWs_cons_false _ _ (by decide))]
            rw [if_pos rfl]
      | cons x xs =>
        have hwfl : JsonListWF (x :: xs) := hwf
        cases f with
        | zero => simp [costV] at hcost
        | succ f1 =>
          cases f1 with
          | zero => simp only [costV, costListV] at hcost; omega
          | succ f2 =>
            rw [arr_stream x xs d rest]
            rw [parseValue_skip (f2 + 1) _ '[' _ (skipWs_cons_false _ _ (by decide))]
            rw [if_neg (by decide), if_pos rfl]
            obtain ⟨hc, ht, hhx, hwsx, hnebr, _⟩ := render_head x (d + 1) hwfl.1
            have hskT : skipWs ((Char.ofNat 10 :: List.replicate (2 * (d + 1)) ' ') ++
                (render x (d + 1) ++ elemsTail d rest xs)) =
                hc :: (ht ++ elemsTail d rest xs) := by
              rw [skipWs_append_all _ _ (ws_run_all _)]
              rw [hhx, List.cons_append]
              exact skipWs_cons_false hc _ hwsx
            rw [parseArrBody_skip f2 _ hc _ hskT]
            rw [if_neg hnebr]
            rw [show hc :: (ht ++ elemsTail d rest xs) =
              (hc :: ht) ++ elemsTail d rest xs from rfl, ← hhx]
            have hE := (ih f2 (by omega)).2.2 [] x xs d rest hwfl.1 hwfl.2 (by
              simp only [costV, costListV] at hcost
              omega)
            rw [hE]
            simp
    | obj ms =>
      cases ms with
      | nil =>
        cases f with
        | zero => simp [costV, costMembersV] at hcost
        | succ f1 =>
          cases f1 with
          | zero => simp only [costV, costMembersV] at hcost; omega
          | succ f2 =>
            rw [show render (Json.obj []) d ++ rest = '{' :: ('}' :: rest) from rfl]
            rw [parseValue_skip (f2 + 1) _ '{' _ (skipWs_cons_false _ _ (by decide))]
            rw [if_pos rfl]
            rw [parseObjBody_skip f2 _ '}' rest (skipWs_cons_false _ _ (by decide))]
            rw [if_pos rfl]
      | cons m ms =>
        obtain ⟨k, v2⟩ := m
        have hwfo : (JsonWF v2 ∧ JsonMembersWF ms) ∧
            List.Pairwise (fun a b => a.1 ≠ b.1) ((k, v2) :: ms) := hwf
        cases f with
        | zero => simp [costV] at hcost
        | succ f1 =>
          cases f1 with
          | zero => simp only [costV, costMembersV] at hcost; omega
          | succ f2 =>
            rw [obj_stream k v2 ms d rest]
            rw [parseValue_skip (f2 + 1) _ '{' _ (skipWs_cons_false _ _ (by decide))]
            rw [if_pos rfl]
            have hq : jsonQuote k ++
                ':' :: ' ' :: (render v2 (d + 1) ++ membersTail d rest ms) =
                dquote :: (escString k ++ dquote ::
                  (':' :: ' ' :: (render v2 (d + 1) ++ membersTail d rest ms))) := by
              simp [jsonQuote, List.cons_append, List.append_assoc,
                List.singleton_append]
            have hskT : skipWs ((Char.ofNat 10 :: List.replicate (2 * (d + 1)) ' ') ++
                (jsonQuote k ++
                  ':' :: ' ' :: (render v2 (d + 1) ++ membersTail d rest ms))) =
                dquote :: (escString k ++ dquote ::
                  (':' :: ' ' :: (render v2 (d + 1) ++ membersTail d rest ms))) := by
              rw [skipWs_append_all _ _ (ws_run_all _), hq]
              exact skipWs_cons_false dquote _ (by decide)
            rw [parseObjBody_skip f2 _ dquote _ hskT]
            rw [if_neg (by decide)]
            rw [← hq]
            have hE := (ih f2 (by omega)).2.1 [] k v2 ms d rest hwfo.1.1 hwfo.1.2
              (by rw [List.nil_append]; exact hwfo.2)
              (by simp only [costV, costMembersV] at hcost; omega)
            rw [hE]
            simp
  · intro acc k v2 ms d rest hwfv hwfms hpw hcost
    have hcv := costV_pos v2
    have hcm := costMembersV_pos ms
    cases f with
    | zero => omega
    | succ f1 =>
      have hsk0 : skipWs (jsonQuote k ++
          ':' :: ' ' :: (render v2 (d + 1) ++ membersTail d rest ms)) =
          dquote :: (escString k ++ dquote ::
            (':' :: ' ' :: (render v2 (d + 1) ++ membersTail d rest ms))) := by
        rw [show jsonQuote k ++
            ':' :: ' ' :: (render v2 (d + 1) ++ membersTail d rest ms) =
            dquote :: (escString k ++ dquote ::
              (':' :: ' ' :: (render v2 (d + 1) ++ membersTail d rest ms))) from by
          simp [jsonQuote, List.cons_append, List.append_assoc, List.singleton_append]]
        exact skipWs_cons_false dquote _ (by decide)
      have hps : parseJStringBody (escString k ++ dquote ::
          (':' :: ' ' :: (render v2 (d + 1) ++ membersTail d rest ms))) =
          some (k, ':' :: ' ' :: (render v2 (d + 1) ++ membersTail d rest ms)) :=
        parseJStringBody_esc k _
      have hsk1 : skipWs (':' :: ' ' :: (render v2 (d + 1) ++ membersTail d rest ms)) =
          ':' :: (' ' :: (render v2 (d + 1) ++ membersTail d rest ms)) :=
        skipWs_cons_false ':' _ (by decide)
      have hv : parseValue f1 (' ' :: (render v2 (d + 1) ++ membersTail d rest ms)) =
          some (v2, membersTail d rest ms) := by
        rw [show (' ' :: (render v2 (d + 1) ++ membersTail d rest ms) : List Char) =
          [' '] ++ (render v2 (d + 1) ++ membersTail d rest ms) from rfl]
        rw [parseValue_ws f1 [' '] _ ws_space]
        exact (ih f1 (by omega)).1 v2 (d + 1) (membersTail d rest ms) hwfv
          (by omega) (okAfter_membersTail d rest ms)
      have hno : ∀ a ∈ acc, a.1 ≠ k := by
        have hdisj := (List.pairwise_append.mp hpw).2.2
        intro a ha
        exact hdisj a ha (k, v2) (List.mem_cons_self _ _)
      cases ms with
      | nil =>
        have hsk3 : skipWs (membersTail d rest []) = '}' :: rest := by
          simp only [membersTail]
          rw [show (Char.ofNat 10 :: (List.replicate (2 * d) ' ' ++ '}' :: rest) :
            List Char) = (Char.ofNat 10 :: List.replicate (2 * d) ' ') ++
            ('}' :: rest) from rfl]
          rw [skipWs_append_all _ _ (ws_run_all _)]
          exact skipWs_cons_false _ _ (by decide)
        rw [parseMembers_run f1 acc _ _ k _ _ v2 _ '}' rest hsk0 hps hsk1 hv hsk3]
        rw [if_neg (by decide), if_pos rfl]
        rw [insert_append acc k v2 hno]
      | cons m2 ms2 =>
        obtain ⟨k2, v3⟩ := m2
        have hsk3 : skipWs (membersTail d rest ((k2, v3) :: ms2)) =
            ',' :: (Char.ofNat 10 :: (List.replicate (2 * (d + 1)) ' ' ++
              (jsonQuote k2 ++
                ':' :: ' ' :: (render v3 (d + 1) ++ membersTail d rest ms2)))) := by
          simp only [membersTail]
          exact skipWs_cons_false _ _ (by decide)
        rw [parseMembers_run f1 acc _ _ k _ _ v2 _ ',' _ hsk0 hps hsk1 hv hsk3]
        rw [if_pos rfl]
        rw [insert_append acc k v2 hno]
        rw [show (Char.ofNat 10 :: (List.replicate (2 * (d + 1)) ' ' ++
            (jsonQuote k2 ++
              ':' :: ' ' :: (render v3 (d + 1) ++ membersTail d rest ms2))) :
            List Char) = (Char.ofNat 10 :: List.replicate (2 * (d + 1)) ' ') ++
            (jsonQuote k2 ++
              ':' :: ' ' :: (render v3 (d + 1) ++ membersTail d rest ms2)) from rfl]
        rw [parseMembers_ws f1 _ _ _ (ws_run_all _)]
        have hpw2 : List.Pairwise (fun a b => a.1 ≠ b.1)
            ((acc ++ [(k, v2)]) ++ (k2, v3) :: ms2) := by
          rw [show (acc ++ [(k, v2)]) ++ (k2, v3) :: ms2 =
            acc ++ (k, v2) :: (k2, v3) :: ms2 from by simp]
          exact hpw
        have hE := (ih f1 (by omega)).2.1 (acc ++ [(k, v2)]) k2 v3 ms2 d rest
          hwfms.1 hwfms.2 hpw2
          (by simp only [costMembersV] at hcost; omega)
        rw [hE]
        simp
  · intro acc x xs d rest hwfx hwfxs hcost
    have hcx := costV_pos x
    have hcl := costListV_pos xs
    cases f with
    | zero => omega
    | succ f1 =>
      have hV : parseValue f1 (render x (d + 1) ++ elemsTail d rest xs) =
          some (x, elemsTail d rest xs) :=
        (ih f1 (by omega)).1 x (d + 1) (elemsTail d rest xs) hwfx (by omega)
          (okAfter_elemsTail d rest xs)
      cases xs with
      | nil =>
        have hskE : skipWs (elemsTail d rest []) = ']' :: rest := by
          simp only [elemsTail]
          rw [show (Char.ofNat 10 :: (List.replicate (2 * d) ' ' ++ ']' :: rest) :
            List Char) = (Char.ofNat 10 :: List.replicate (2 * d) ' ') ++
            (']' :: rest) from rfl]
          rw [skipWs_append_all _ _ (ws_run_all _)]
          exact skipWs_cons_false _ _ (by decide)
        rw [parseElems_run f1 acc _ x _ ']' rest hV hskE]
        rw [if_neg (by decide), if_pos rfl]
      | cons y ys =>
        have hskE : skipWs (elemsTail d rest (y :: ys)) =
            ',' :: (Char.ofNat 10 :: (List.replicate (2 * (d + 1)) ' ' ++
              (render y (d + 1) ++ elemsTail d rest ys))) := by
          simp only [elemsTail]
          exact skipWs_cons_false _ _ (by decide)
        rw [parseElems_run f1 acc _ x _ ',' _ hV hskE]
        rw [if_pos rfl]
        rw [show (Char.ofNat 10 :: (List.replicate (2 * (d + 1)) ' ' ++
            (render y (d + 1) ++ elemsTail d rest ys)) : List Char) =
            (Char.ofNat 10 :: List.replicate (2 * (d + 1)) ' ') ++
            (render y (d + 1) ++ elemsTail d rest ys) from rfl]
        rw [parseElems_ws f1 _ _ _ (ws_run_all _)]
        have hE := (ih f1 (by omega)).2.2 (acc ++ [x]) y ys d rest
          hwfxs.1 hwfxs.2 (by simp only [costListV] at hcost; omega)
        rw [hE]
        simp

-- ==================== C2: assembly ====================

lemma head_of_isPrefixOf_cons (a : Char) (w : List Char) (c : Char) (t : List Char)
    (h : List.isPrefixOf (a :: w) (c :: t) = true) : c = a := by
  simp only [List.isPrefixOf, Bool.and_eq_true, beq_iff_eq] at h
  exact h.1.symm

lemma parseValue_head (f : Nat) (c : Char) (t : List Char) (v : Json) (r : List Char)
    (hc : isJsonWs c = false) (h : parseValue f (c :: t) = some (v, r)) :
    jsWs c = false := by
  cases f with
  | zero => exact Option.noConfusion (by simpa only [parseValue] using h)
  | succ f =>
    rw [parseValue_skip f (c :: t) c t (skipWs_cons_false c t hc)] at h
    by_cases h1 : c = '{'
    · subst h1; decide
    rw [if_neg h1] at h
    by_cases h2 : c = '['
    · subst h2; decide
    rw [if_neg h2] at h
    by_cases h3 : c = dquote
    · subst h3; decide
    rw [if_neg h3] at h
    by_cases h4 : List.isPrefixOf "true".toList (c :: t) = true
    · rw [head_of_isPrefixOf_cons 't' ['r', 'u', 'e'] c t (by exact h4)]; decide
    rw [if_neg h4] at h
    by_cases h5 : List.isPrefixOf "false".toList (c :: t) = true
    · rw [head_of_isPrefixOf_cons 'f' ['a', 'l', 's', 'e'] c t (by exact h5)]; decide
    rw [if_neg h5] at h
    by_cases h6 : List.isPrefixOf "null".toList (c :: t) = true
    · rw [head_of_isPrefixOf_cons 'n' ['u', 'l', 'l'] c t (by exact h6)]; decide
    rw [if_neg h6] at h
    obtain ⟨⟨nm, r2⟩, hnum, hmk⟩ := Option.map_eq_some'.mp h
    obtain ⟨hdec, ⟨h0, t0, hnm, hd0⟩, hl, hrep⟩ := parseNumber_star (c :: t) nm r2 hnum
    rw [hnm] at hdec
    simp only [List.cons_append] at hdec
    injection hdec with hh ht
    rw [hh]
    rcases hd0 with hd0 | hd0
    · rw [hd0]; decide
    · exact jsWs_digit_false h0 hd0

lemma jsonParse_inv (x : List Char) (v : Json) (h : jsonParse x = some v) :
    parseValue (3 * (trimJsonWs x).length + 3) (trimJsonWs x) = some (v, []) := by
  simp only [jsonParse] at h
  split at h
  · rename_i v2 heq
    injection h with h2
    rw [← h2]
    exact heq
  · exact Option.noConfusion h

/-- C2: an input that already parses as strict JSON is accepted by the first
stage of normalizeBody and returned as the pretty-printed (2-space indent)
re-serialization of its parse, and parsing the output yields the same value
as parsing the input. -/
theorem c2_roundtrip (x : List Char) (v : Json) (h : jsonParse x = some v) :
    normalizeBody x = some (stringify v) ∧ jsonParse (stringify v) = some v := by
  have hp := jsonParse_inv x v h
  have hwf : JsonWF v := (parse_wf (3 * (trimJsonWs x).length + 3)).1 (trimJsonWs x) v [] hp
  cases hmE : trimJsonWs x with
  | nil =>
    rw [hmE] at hp
    rw [show parseValue (3 * ([] : List Char).length + 3) ([] : List Char) = none from
      by rfl] at hp
    exact Option.noConfusion hp
  | cons c0 t0 =>
    have hc0 : isJsonWs c0 = false := by
      refine trimBy_head isJsonWs x c0 ?_
      show (trimJsonWs x).head? = some c0
      rw [hmE]
      rfl
    have hjw0 : jsWs c0 = false :=
      parseValue_head (3 * (trimJsonWs x).length + 3) c0 t0 v [] hc0 (hmE ▸ hp)
    obtain ⟨p, cL, hdecomp, hjwL⟩ :=
      ((parse_ends (3 * (trimJsonWs x).length + 3)).1 (trimJsonWs x) v [] hp)
    have hcLjson : isJsonWs cL = false := isJsonWs_false_of_jsWs_false cL hjwL
    obtain ⟨a, b, hx, ha, hb⟩ := trimBy_split isJsonWs x
    have htriv : trimBy isJsonWs x = trimJsonWs x := rfl
    have hjt : jsTrim x = trimJsonWs x := by
      show trimBy jsWs x = trimJsonWs x
      conv_lhs => rw [hx]
      rw [htriv]
      exact trimBy_exact jsWs a (trimJsonWs x) b
        (fun c hc => jsWs_of_isJsonWs c (ha c hc))
        (fun c hc => jsWs_of_isJsonWs c (hb c hc))
        (fun c hhc => by
          rw [hmE, List.head?_cons] at hhc
          injection hhc with h2
          exact h2 ▸ hjw0)
        (fun c hlc => by
          rw [hdecomp, List.getLast?_concat] at hlc
          injection hlc with h2
          exact h2 ▸ hjwL)
    have htm : trimJsonWs (trimJsonWs x) = trimJsonWs x := by
      show trimBy isJsonWs (trimJsonWs x) = trimJsonWs x
      have h3 := trimBy_exact isJsonWs [] (trimJsonWs x) [] (by simp) (by simp)
        (fun c hhc => by
          rw [hmE, List.head?_cons] at hhc
          injection hhc with h2
          exact h2 ▸ hc0)
        (fun c hlc => by
          rw [hdecomp, List.getLast?_concat] at hlc
          injection hlc with h2
          exact h2 ▸ hcLjson)
      simpa using h3
    have hjm : jsonParse (trimJsonWs x) = some v := by
      simp only [jsonParse]
      rw [htm, hp]
    have hA : normalizeBody x = some (stringify v) := by
      simp only [normalizeBody]
      rw [hjt, hjm]
    obtain ⟨ch, th, hrh, hch, hne1, hne2⟩ := render_head v 0 hwf
    obtain ⟨pl, cl, hrl, hcl⟩ := render_last v 0 hwf
    have htr : trimJsonWs (render v 0) = render v 0 := by
      show trimBy isJsonWs (render v 0) = render v 0
      have h3 := trimBy_exact isJsonWs [] (render v 0) [] (by simp) (by simp)
        (fun c hhc => by
          rw [hrh, List.head?_cons] at hhc
          injection hhc with h2
          exact h2 ▸ hch)
        (fun c hlc => by
          rw [hrl, List.getLast?_concat] at hlc
          injection hlc with h2
          exact h2 ▸ hcl)
      simpa using h3
    have hcost : costV v ≤ 3 * (render v 0).length + 3 := by
      have h3 := cost_le_render v 0 hwf
      omega
    have hpr := (parse_render (3 * (render v 0).length + 3)).1 v 0 [] hwf hcost (by decide)
    rw [List.append_nil] at hpr
    have hB : jsonParse (stringify v) = some v := by
      show jsonParse (render v 0) = some v
      simp only [jsonParse]
      rw [htr, hpr]
    exact ⟨hA, hB⟩

def c2Input : List Char :=
  ' ' :: '{' :: dquote :: 'a' :: dquote :: ':' :: ' ' :: '[' :: '1' :: ',' ::
    ' ' :: 't' :: 'r' :: 'u' :: 'e' :: ']' :: '}' :: ' ' :: []

def c2Value : Json := Json.obj [(['a'], Json.arr [Json.num ['1'], Json.bool true])]

theorem c2_roundtrip_witness :
    jsonParse c2Input = some c2Value ∧
    (normalizeBody c2Input = some (stringify c2Value) ∧
      jsonParse (stringify c2Value) = some c2Value) :=
  ⟨by rfl, c2_roundtrip c2Input c2Value (by rfl)⟩

end Log2Curl
